import Mathlib

/-!
Verification development for the memesuite-lite JavaScript library
(one source file: a class with oneHotEncode, readMeme, writeMeme,
logAddExp2, binnedMedian, pwmToMapping, fimo, scanSequence,
reverseComplementOneHot, tomtom, calculateAlignment).

Modelling conventions.
JavaScript numbers are modelled by real numbers; the sentinel values
Infinity and negative Infinity that the source stores in arrays are
modelled with WithBot and WithTop.  The log pdf arrays of pwmToMapping
only ever hold finite numbers or negative Infinity, so they live in
WithBot Real; the score threshold of fimo is either finite or positive
Infinity, so it lives in WithTop Real.  Loops become List.foldl or
List.filterMap over List.range, in iteration order.
-/

open Real

namespace MSL

/-- JavaScript alphabet characters A, C, G, T in order. -/
def dnaAlphabet : List Char := ['A', 'C', 'G', 'T']

/-- Source logAddExp2.  The source first checks whether both inputs are
negative Infinity, then whether either input is positive Infinity
(that branch cannot fire here because WithBot Real has no top element;
no caller in the source ever passes positive Infinity), and otherwise
computes vmax + log2(2 pow (vmin - vmax) + 1).  When exactly one input
is negative Infinity, JavaScript evaluates 2 pow (-Infinity) = 0 and
returns vmax; that is the middle two cases below. -/
noncomputable def logAddExp2 : WithBot ℝ → WithBot ℝ → WithBot ℝ
  | ⊥, ⊥ => ⊥
  | ⊥, (y : ℝ) => (y : ℝ)
  | (x : ℝ), ⊥ => (x : ℝ)
  | (x : ℝ), (y : ℝ) =>
      ((max x y + Real.logb 2 ((2 : ℝ) ^ (min x y - max x y) + 1) : ℝ) : WithBot ℝ)

/-- JavaScript Math.pow(2, x) where x may be negative Infinity
(Math.pow(2, -Infinity) = 0). -/
noncomputable def pow2 : WithBot ℝ → ℝ
  | ⊥ => 0
  | (x : ℝ) => (2 : ℝ) ^ x

/-- Helper connecting the exact rational probability computation to the
log-space computation of the source: a nonnegative rational mass q is
represented in the log pdf arrays as log2 q, with mass 0 represented as
negative Infinity. -/
noncomputable def toLog (q : ℚ≥0) : WithBot ℝ :=
  if q = 0 then ⊥ else ((Real.logb 2 (q : ℝ) : ℝ) : WithBot ℝ)

theorem logAddExp2_bot_left (y : WithBot ℝ) : logAddExp2 ⊥ y = y := by
  cases y <;> rfl

theorem logAddExp2_bot_right (x : WithBot ℝ) : logAddExp2 x ⊥ = x := by
  cases x <;> rfl

/-- On finite inputs logAddExp2 computes exactly log2(2 pow x + 2 pow y). -/
theorem logAddExp2_coe (x y : ℝ) :
    logAddExp2 (x : WithBot ℝ) (y : WithBot ℝ) =
      ((Real.logb 2 ((2 : ℝ) ^ x + (2 : ℝ) ^ y) : ℝ) : WithBot ℝ) := by
  show ((max x y + Real.logb 2 ((2 : ℝ) ^ (min x y - max x y) + 1) : ℝ) : WithBot ℝ) = _
  have h2 : (0 : ℝ) < 2 := by norm_num
  have hmaxpos : (0 : ℝ) < (2 : ℝ) ^ max x y := Real.rpow_pos_of_pos h2 _
  have hminpos : (0 : ℝ) < (2 : ℝ) ^ min x y := Real.rpow_pos_of_pos h2 _
  have key : (2 : ℝ) ^ (min x y - max x y) + 1 =
      ((2 : ℝ) ^ min x y + (2 : ℝ) ^ max x y) / (2 : ℝ) ^ max x y := by
    rw [Real.rpow_sub h2]
    field_simp
  rw [key, Real.logb_div (by positivity) (ne_of_gt hmaxpos)]
  rw [Real.logb_rpow (by norm_num : (0 : ℝ) < 2) (by norm_num : (2 : ℝ) ≠ 1)]
  have hsum : (2 : ℝ) ^ min x y + (2 : ℝ) ^ max x y = (2 : ℝ) ^ x + (2 : ℝ) ^ y := by
    rcases le_total x y with h | h
    · rw [min_eq_left h, max_eq_right h]
    · rw [min_eq_right h, max_eq_left h, add_comm]
  rw [hsum]
  norm_num

theorem toLog_zero : toLog 0 = ⊥ := rfl

theorem toLog_pos {q : ℚ≥0} (h : q ≠ 0) :
    toLog q = ((Real.logb 2 (q : ℝ) : ℝ) : WithBot ℝ) := by
  simp [toLog, h]

/-- logAddExp2 on masses: adding probability masses corresponds to
logAddExp2 in log space. -/
theorem logAddExp2_toLog (a b : ℚ≥0) :
    logAddExp2 (toLog a) (toLog b) = toLog (a + b) := by
  by_cases ha : a = 0
  · subst ha
    simp [toLog_zero, logAddExp2_bot_left]
  · by_cases hb : b = 0
    · subst hb
      simp [toLog_zero, logAddExp2_bot_right]
    · have hab : a + b ≠ 0 := by
        intro h
        exact ha (by simpa using (add_eq_zero.mp h).1)
      have hapos : (0 : ℝ) < (a : ℝ) := by positivity
      have hbpos : (0 : ℝ) < (b : ℝ) := by
        have : b ≠ 0 := hb
        positivity
      rw [toLog_pos ha, toLog_pos hb, toLog_pos hab, logAddExp2_coe]
      have hra : (2 : ℝ) ^ (Real.logb 2 (a : ℝ)) = (a : ℝ) :=
        Real.rpow_logb (by norm_num) (by norm_num) hapos
      have hrb : (2 : ℝ) ^ (Real.logb 2 (b : ℝ)) = (b : ℝ) :=
        Real.rpow_logb (by norm_num) (by norm_num) hbpos
      rw [hra, hrb]
      norm_cast

/-- pow2 of a represented mass recovers the mass. -/
theorem pow2_toLog (q : ℚ≥0) : pow2 (toLog q) = (q : ℝ) := by
  by_cases h : q = 0
  · subst h
    simp [toLog_zero, pow2]
  · rw [toLog_pos h]
    show (2 : ℝ) ^ (Real.logb 2 (q : ℝ)) = (q : ℝ)
    have : (0 : ℝ) < (q : ℝ) := by positivity
    exact Real.rpow_logb (by norm_num) (by norm_num) this

/-- toLog is monotone. -/
theorem toLog_mono {a b : ℚ≥0} (h : a ≤ b) : toLog a ≤ toLog b := by
  by_cases ha : a = 0
  · subst ha
    simp [toLog_zero]
  · have hb : b ≠ 0 := by
      intro hb
      subst hb
      exact ha (le_antisymm h (zero_le a))
    rw [toLog_pos ha, toLog_pos hb]
    have hapos : (0 : ℝ) < (a : ℝ) := by positivity
    have : Real.logb 2 (a : ℝ) ≤ Real.logb 2 (b : ℝ) :=
      Real.logb_le_logb_of_le (by norm_num : (1 : ℝ) < 2) hapos (by exact_mod_cast h)
    exact_mod_cast this

/-! ### pwmToMapping

The source first discretizes the log PWM with Math.round(val / binSize),
then computes the attainable integer score range (smallest, largest,
with largest inflated by the motif length), then runs a dynamic program
over probability masses in log space, and finally converts the pdf to a
tail distribution in place.  Every loop is translated separately so that
it can be reasoned about; pwmToMapping is their composition. -/

/-- Column pos of the integer PWM, entry per character row
(the source reads intLogPwm[char][pos]). -/
def colList (ipwm : List (List ℤ)) (pos : ℕ) : List ℤ :=
  ipwm.map (fun row => row.getD pos 0)

/-- Minimum of a list computed as the source loop does, starting from the
first element (the source starts from Infinity; for the empty list we
return 0, a case excluded by the width hypotheses of the theorems). -/
def listMin : List ℤ → ℤ
  | [] => 0
  | h :: t => t.foldl min h

/-- Maximum of a list, same convention as listMin. -/
def listMax : List ℤ → ℤ
  | [] => 0
  | h :: t => t.foldl max h

def colMin (ipwm : List (List ℤ)) (pos : ℕ) : ℤ := listMin (colList ipwm pos)

def colMax (ipwm : List (List ℤ)) (pos : ℕ) : ℤ := listMax (colList ipwm pos)

/-- Running sum of column minima after processing columns 0..k
(the source variable minCsum after iteration k). -/
def minCsum (ipwm : List (List ℤ)) (k : ℕ) : ℤ :=
  ((List.range (k + 1)).map (colMin ipwm)).sum

def maxCsum (ipwm : List (List ℤ)) (k : ℕ) : ℤ :=
  ((List.range (k + 1)).map (colMax ipwm)).sum

/-- The source variable smallest: minimum over all prefixes of minCsum. -/
def smallestOf (ipwm : List (List ℤ)) (len : ℕ) : ℤ :=
  listMin ((List.range len).map (minCsum ipwm))

/-- The source variable largest after the final largest += length. -/
def largestOf (ipwm : List (List ℤ)) (len : ℕ) : ℤ :=
  listMax ((List.range len).map (maxCsum ipwm)) + len

/-- The source arraySize = largest - smallest + 1. -/
def arraySizeOf (ipwm : List (List ℤ)) (len : ℕ) : ℕ :=
  (largestOf ipwm len - smallestOf ipwm len + 1).toNat

/-- The source logBg = Math.log2(0.25). -/
noncomputable def logBg : ℝ := Real.logb 2 0.25

/-- First loop of the dynamic program: for each character, add the
background mass at the index of its column-0 score.  The index is
provably inside the array (idx_nonneg and the reach bound below), so
Int.toNat together with List.set is exact. -/
noncomputable def initPdf (ipwm : List (List ℤ)) (numChars : ℕ) (smallest : ℤ)
    (asize : ℕ) : List (WithBot ℝ) :=
  (List.range numChars).foldl
    (fun l c =>
      let idx := (((ipwm.getD c []).getD 0 0) - smallest).toNat
      l.set idx (logAddExp2 (l.getD idx ⊥) ((logBg : ℝ) : WithBot ℝ)))
    (List.replicate asize ⊥)

/-- Inner character loop of the dynamic program for one source index j
holding finite mass oj. -/
noncomputable def dpColInner (ipwm : List (List ℤ)) (numChars pos asize j : ℕ)
    (oj : ℝ) (new : List (WithBot ℝ)) : List (WithBot ℝ) :=
  (List.range numChars).foldl
    (fun acc c =>
      let ni : ℤ := (j : ℤ) + (ipwm.getD c []).getD pos 0
      if 0 ≤ ni ∧ ni < (asize : ℤ) then
        acc.set ni.toNat (logAddExp2 (acc.getD ni.toNat ⊥) ((logBg + oj : ℝ) : WithBot ℝ))
      else acc)
    new

/-- One column step of the dynamic program (the loop over j with the
check oldLogPdf[j] !== -Infinity). -/
noncomputable def dpCol (ipwm : List (List ℤ)) (numChars pos asize : ℕ)
    (old : List (WithBot ℝ)) : List (WithBot ℝ) :=
  (List.range asize).foldl
    (fun new j =>
      match old.getD j ⊥ with
      | ⊥ => new
      | (oj : ℝ) => dpColInner ipwm numChars pos asize j oj new)
    (List.replicate asize ⊥)

/-- All column steps for positions 1..len-1 (buffer swapping in the
source becomes plain function composition). -/
noncomputable def dpAll (ipwm : List (List ℤ)) (numChars len asize : ℕ)
    (smallest : ℤ) : List (WithBot ℝ) :=
  (List.range (len - 1)).foldl
    (fun old k => dpCol ipwm numChars (k + 1) asize old)
    (initPdf ipwm numChars smallest asize)

/-- In-place tail accumulation: for i = arraySize-2 down to 0,
old[i] = logAddExp2(old[i], old[i+1]). -/
noncomputable def tailAcc (asize : ℕ) (l : List (WithBot ℝ)) : List (WithBot ℝ) :=
  ((List.range (asize - 1)).reverse).foldl
    (fun acc i => acc.set i (logAddExp2 (acc.getD i ⊥) (acc.getD (i + 1) ⊥)))
    l

/-- Result record of pwmToMapping. -/
structure Mapping where
  smallest : ℤ
  logPdf : List (WithBot ℝ)

/-- pwmToMapping applied to an already-discretized integer PWM. -/
noncomputable def pwmToMappingInt (ipwm : List (List ℤ)) : Mapping :=
  let numChars := ipwm.length
  let len := (ipwm.getD 0 []).length
  let smallest := smallestOf ipwm len
  let asize := arraySizeOf ipwm len
  { smallest := smallest
    logPdf := tailAcc asize (dpAll ipwm numChars len asize smallest) }

/-- The source intLogPwm = logPwm.map(row => row.map(val => Math.round(val / binSize))).
Lean round agrees with JavaScript Math.round (floor of x + 1/2). -/
noncomputable def intRound (logPwm : List (List ℝ)) (binSize : ℝ) : List (List ℤ) :=
  logPwm.map (fun row => row.map (fun v => round (v / binSize)))

/-- Source pwmToMapping.  Note that the source performs no validation of
binSize whatsoever. -/
noncomputable def pwmToMapping (logPwm : List (List ℝ)) (binSize : ℝ) : Mapping :=
  pwmToMappingInt (intRound logPwm binSize)

/-! ### Exact mirror of the dynamic program

The log-space arrays of the source always hold the logarithm of a
nonnegative rational probability mass (negative Infinity for mass 0).
The following computable mirror tracks those masses directly; the
bridge theorems prove that the source arrays are exactly the image of
the mirror arrays under the log representation.

The mirror stores natural-number masses: an entry n at recursion depth
s stands for the probability mass n / 4 ^ s.  The init phase has depth
1 (each character contributes background mass 1/4), every column step
increases the depth by 1 (it multiplies by the background 1/4), and the
tail accumulation happens at the fixed final depth. -/

def qInit (ipwm : List (List ℤ)) (numChars : ℕ) (smallest : ℤ) (asize : ℕ) :
    List ℕ :=
  (List.range numChars).foldl
    (fun l c =>
      let idx := (((ipwm.getD c []).getD 0 0) - smallest).toNat
      l.set idx (l.getD idx 0 + 1))
    (List.replicate asize 0)

def qColInner (ipwm : List (List ℤ)) (numChars pos asize j : ℕ) (oj : ℕ)
    (new : List ℕ) : List ℕ :=
  (List.range numChars).foldl
    (fun acc c =>
      let ni : ℤ := (j : ℤ) + (ipwm.getD c []).getD pos 0
      if 0 ≤ ni ∧ ni < (asize : ℤ) then
        acc.set ni.toNat (acc.getD ni.toNat 0 + oj)
      else acc)
    new

def qCol (ipwm : List (List ℤ)) (numChars pos asize : ℕ) (old : List ℕ) :
    List ℕ :=
  (List.range asize).foldl
    (fun new j =>
      let oj := old.getD j 0
      if oj = 0 then new else qColInner ipwm numChars pos asize j oj new)
    (List.replicate asize 0)

def qDpAll (ipwm : List (List ℤ)) (numChars len asize : ℕ) (smallest : ℤ) :
    List ℕ :=
  (List.range (len - 1)).foldl
    (fun old k => qCol ipwm numChars (k + 1) asize old)
    (qInit ipwm numChars smallest asize)

def qTail (asize : ℕ) (l : List ℕ) : List ℕ :=
  ((List.range (asize - 1)).reverse).foldl
    (fun acc i => acc.set i (acc.getD i 0 + acc.getD (i + 1) 0))
    l

def qMapping (ipwm : List (List ℤ)) : List ℕ :=
  let numChars := ipwm.length
  let len := (ipwm.getD 0 []).length
  qTail (arraySizeOf ipwm len)
    (qDpAll ipwm numChars len (arraySizeOf ipwm len) (smallestOf ipwm len))

/-- Log representation of mass n / 4 ^ s. -/
noncomputable def toLogS (s n : ℕ) : WithBot ℝ :=
  toLog ((n : ℚ≥0) / 4 ^ s)

/-! ### Bridge lemmas -/

theorem toLogS_zero (s : ℕ) : toLogS s 0 = ⊥ := by
  simp [toLogS, toLog_zero]

theorem toLogS_eq_bot_iff (s n : ℕ) : toLogS s n = ⊥ ↔ n = 0 := by
  constructor
  · intro h
    by_contra hn
    have hq : ((n : ℚ≥0) / 4 ^ s) ≠ 0 := by
      apply div_ne_zero
      · exact_mod_cast hn
      · positivity
    rw [toLogS, toLog_pos hq] at h
    exact absurd h (by simp)
  · intro h
    subst h
    exact toLogS_zero s

theorem toLogS_pos_eq (s n : ℕ) (h : n ≠ 0) :
    toLogS s n = ((Real.logb 2 (((n : ℚ≥0) / 4 ^ s : ℚ≥0) : ℝ) : ℝ) : WithBot ℝ) := by
  rw [toLogS, toLog_pos]
  apply div_ne_zero
  · exact_mod_cast h
  · positivity

theorem logAddExp2_toLogS (s a b : ℕ) :
    logAddExp2 (toLogS s a) (toLogS s b) = toLogS s (a + b) := by
  rw [toLogS, toLogS, toLogS, logAddExp2_toLog]
  congr 1
  push_cast
  rw [div_add_div_same]

theorem getD_map_toLogS (s : ℕ) (q : List ℕ) (i : ℕ) :
    (q.map (toLogS s)).getD i ⊥ = toLogS s (q.getD i 0) := by
  simp only [List.getD_eq_getElem?_getD, List.getElem?_map]
  cases h : q[i]? <;> simp [toLogS_zero]

theorem logBg_eq : logBg = Real.logb 2 ((1 : ℝ) / 4) := by
  norm_num [logBg]

theorem logBg_toLogS : ((logBg : ℝ) : WithBot ℝ) = toLogS 1 1 := by
  rw [toLogS_pos_eq 1 1 one_ne_zero, logBg_eq]
  norm_num

theorem logBg_add_toLogS (s n : ℕ) (h : n ≠ 0) :
    ((logBg + Real.logb 2 (((n : ℚ≥0) / 4 ^ s : ℚ≥0) : ℝ) : ℝ) : WithBot ℝ) =
      toLogS (s + 1) n := by
  have hq : (0 : ℝ) < (((n : ℚ≥0) / 4 ^ s : ℚ≥0) : ℝ) := by
    have hn : (0 : ℚ≥0) < (n : ℚ≥0) / 4 ^ s := by
      apply div_pos
      · exact_mod_cast Nat.pos_of_ne_zero h
      · positivity
    exact_mod_cast hn
  rw [toLogS_pos_eq _ _ h, logBg_eq, ← Real.logb_mul (by norm_num) (ne_of_gt hq)]
  have : (1 : ℝ) / 4 * (((n : ℚ≥0) / 4 ^ s : ℚ≥0) : ℝ) =
      (((n : ℚ≥0) / 4 ^ (s + 1) : ℚ≥0) : ℝ) := by
    push_cast
    ring
  rw [this]

theorem qInit_map (ipwm : List (List ℤ)) (numChars : ℕ) (smallest : ℤ)
    (asize : ℕ) :
    initPdf ipwm numChars smallest asize =
      (qInit ipwm numChars smallest asize).map (toLogS 1) := by
  unfold initPdf qInit
  generalize List.range numChars = cs
  induction cs using List.reverseRecOn with
  | nil => simp [toLogS_zero]
  | append_singleton cs c ih =>
      rw [List.foldl_append, List.foldl_append, ih]
      simp only [List.foldl_cons, List.foldl_nil, getD_map_toLogS,
        logBg_toLogS, logAddExp2_toLogS, ← List.map_set]

theorem qColInner_map (ipwm : List (List ℤ)) (numChars pos asize j s : ℕ)
    (oj : ℕ) (hoj : oj ≠ 0) (new : List ℕ) :
    dpColInner ipwm numChars pos asize j
        (Real.logb 2 (((oj : ℚ≥0) / 4 ^ s : ℚ≥0) : ℝ)) (new.map (toLogS (s + 1))) =
      (qColInner ipwm numChars pos asize j oj new).map (toLogS (s + 1)) := by
  unfold dpColInner qColInner
  generalize List.range numChars = cs
  induction cs using List.reverseRecOn with
  | nil => simp
  | append_singleton cs c ih =>
      rw [List.foldl_append, List.foldl_append, ih]
      simp only [List.foldl_cons, List.foldl_nil]
      by_cases h : 0 ≤ (j : ℤ) + (ipwm.getD c []).getD pos 0 ∧
          (j : ℤ) + (ipwm.getD c []).getD pos 0 < (asize : ℤ)
      · simp only [if_pos h, logBg_add_toLogS s oj hoj, getD_map_toLogS,
          logAddExp2_toLogS, ← List.map_set]
      · simp only [if_neg h]

theorem qCol_map (ipwm : List (List ℤ)) (numChars pos asize s : ℕ)
    (old : List ℕ) :
    dpCol ipwm numChars pos asize (old.map (toLogS s)) =
      (qCol ipwm numChars pos asize old).map (toLogS (s + 1)) := by
  unfold dpCol qCol
  generalize List.range asize = js
  induction js using List.reverseRecOn with
  | nil => simp [toLogS_zero]
  | append_singleton js j ih =>
      rw [List.foldl_append, List.foldl_append, ih]
      simp only [List.foldl_cons, List.foldl_nil, getD_map_toLogS]
      by_cases h : old.getD j 0 = 0
      · rw [h]
        simp [toLogS_zero]
      · rw [toLogS_pos_eq _ _ h]
        simp only [h, if_false]
        exact qColInner_map ipwm numChars pos asize j s _ h _

theorem qDpAll_map_aux (ipwm : List (List ℤ)) (numChars asize : ℕ)
    (ks : List ℕ) (s : ℕ) (old : List ℕ) :
    ks.foldl (fun o k => dpCol ipwm numChars (k + 1) asize o)
        (old.map (toLogS s)) =
      (ks.foldl (fun o k => qCol ipwm numChars (k + 1) asize o) old).map
        (toLogS (s + ks.length)) := by
  induction ks generalizing s old with
  | nil => rfl
  | cons k ks ih =>
      simp only [List.foldl_cons, List.length_cons]
      rw [qCol_map, ih, show s + (ks.length + 1) = s + 1 + ks.length from by omega]

theorem qDpAll_map (ipwm : List (List ℤ)) (numChars len asize : ℕ)
    (smallest : ℤ) :
    dpAll ipwm numChars len asize smallest =
      (qDpAll ipwm numChars len asize smallest).map (toLogS (1 + (len - 1))) := by
  unfold dpAll qDpAll
  rw [qInit_map, qDpAll_map_aux]
  rw [List.length_range]

theorem qTail_map (asize s : ℕ) (l : List ℕ) :
    tailAcc asize (l.map (toLogS s)) = (qTail asize l).map (toLogS s) := by
  unfold tailAcc qTail
  generalize (List.range (asize - 1)).reverse = is
  induction is generalizing l with
  | nil => rfl
  | cons i is ih =>
      simp only [List.foldl_cons, getD_map_toLogS, logAddExp2_toLogS,
        ← List.map_set]
      exact ih _

/-- The log pdf array of the source is exactly the image of the
computable natural-mass pdf under toLogS at depth equal to the motif
width (1 + (len - 1), which also covers the degenerate width-0 case
where only the init phase runs). -/
theorem logPdf_eq_qMapping (ipwm : List (List ℤ)) :
    (pwmToMappingInt ipwm).logPdf =
      (qMapping ipwm).map (toLogS (1 + ((ipwm.getD 0 []).length - 1))) := by
  simp only [pwmToMappingInt, qMapping]
  rw [qDpAll_map, qTail_map]

theorem qInit_length (ipwm : List (List ℤ)) (numChars : ℕ) (smallest : ℤ)
    (asize : ℕ) : (qInit ipwm numChars smallest asize).length = asize := by
  unfold qInit
  generalize List.range numChars = cs
  induction cs using List.reverseRecOn with
  | nil => simp
  | append_singleton cs c ih =>
      rw [List.foldl_append]
      simp only [List.foldl_cons, List.foldl_nil, List.length_set]
      exact ih

theorem qColInner_length (ipwm : List (List ℤ)) (numChars pos asize j : ℕ)
    (oj : ℕ) (new : List ℕ) :
    (qColInner ipwm numChars pos asize j oj new).length = new.length := by
  unfold qColInner
  generalize List.range numChars = cs
  induction cs using List.reverseRecOn with
  | nil => rfl
  | append_singleton cs c ih =>
      rw [List.foldl_append]
      simp only [List.foldl_cons, List.foldl_nil]
      split
      · simp only [List.length_set]
        exact ih
      · exact ih

theorem qCol_length (ipwm : List (List ℤ)) (numChars pos asize : ℕ)
    (old : List ℕ) : (qCol ipwm numChars pos asize old).length = asize := by
  unfold qCol
  generalize List.range asize = js
  induction js using List.reverseRecOn with
  | nil => simp
  | append_singleton js j ih =>
      rw [List.foldl_append]
      simp only [List.foldl_cons, List.foldl_nil]
      split
      · simpa using ih
      · rw [qColInner_length]
        simpa using ih

theorem qDpAll_length (ipwm : List (List ℤ)) (numChars len asize : ℕ)
    (smallest : ℤ) :
    (qDpAll ipwm numChars len asize smallest).length = asize := by
  unfold qDpAll
  generalize List.range (len - 1) = ks
  induction ks using List.reverseRecOn with
  | nil => exact qInit_length ipwm numChars smallest asize
  | append_singleton ks k ih =>
      rw [List.foldl_append]
      simp only [List.foldl_cons, List.foldl_nil]
      exact qCol_length ipwm numChars (k + 1) asize _

theorem qTail_length (asize : ℕ) (l : List ℕ) :
    (qTail asize l).length = l.length := by
  unfold qTail
  generalize (List.range (asize - 1)).reverse = is
  induction is generalizing l with
  | nil => rfl
  | cons i is ih =>
      simp only [List.foldl_cons]
      rw [ih]
      simp

theorem qMapping_length (ipwm : List (List ℤ)) :
    (qMapping ipwm).length = arraySizeOf ipwm (ipwm.getD 0 []).length := by
  unfold qMapping
  rw [qTail_length, qDpAll_length]

/-- Length of the source log pdf array. -/
theorem logPdf_length (ipwm : List (List ℤ)) :
    (pwmToMappingInt ipwm).logPdf.length =
      arraySizeOf ipwm (ipwm.getD 0 []).length := by
  rw [logPdf_eq_qMapping, List.length_map, qMapping_length]

/-! ### oneHotEncode -/

/-- Final content of the source charMap at character c: the alphabet is
inserted first (index values, later insertions win for duplicate
characters), then the ignored characters with value -1.  A character in
neither list is absent. -/
def charMapGet (alphabet ignore : List Char) (c : Char) : Option ℤ :=
  if c ∈ ignore then some (-1)
  else
    match (alphabet.reverse).findIdx? (fun a => a == c) with
    | none => none
    | some k => some ((alphabet.length : ℤ) - 1 - (k : ℤ))

/-- Source oneHotEncode.  It validates that no ignored character is in
the alphabet, resolves every character of the uppercased sequence
through the charMap (failing on an unknown character, at the first such
position), and builds the m x n matrix with a 1 in row idx of column i
whenever the character at position i resolved to index idx >= 0. -/
def oneHotEncode (sequence : List Char) (alphabet : List Char)
    (ignore : List Char) : Except String (List (List ℕ)) := do
  if ignore.any (fun c => alphabet.contains c) then
    throw "Character in alphabet and also in ignored characters"
  let idxs ← sequence.mapM (fun ch =>
    match charMapGet alphabet ignore ch.toUpper with
    | none => throw "Character not in alphabet or ignore list"
    | some i => pure i)
  pure ((List.range alphabet.length).map (fun k =>
    idxs.map (fun idx => if idx = (k : ℤ) then 1 else 0)))

/-! ### FIMO -/

/-- One hit of the scanner.  The source field named end is a reserved
word in Lean, so it is called endPos here; strand is the source
character + or -. -/
structure Hit where
  sequence_idx : ℕ
  start : ℕ
  endPos : ℕ
  strand : Char
  score : ℝ
  p_value : ℝ

/-- The inner loop over the four character rows at a sequence column:
index of the first row holding a 1, if any (the source breaks at the
first hit; char iterates over 0..3 hard-coded). -/
def columnChar (oneHot : List (List ℕ)) (col : ℕ) : Option ℕ :=
  [0, 1, 2, 3].find? (fun c => (oneHot.getD c []).getD col 0 == 1)

/-- Window score at position pos: sum over motif columns of the log PWM
entry of the character found at that column; an all-zero one-hot column
contributes nothing. -/
noncomputable def scanScore (oneHot : List (List ℕ)) (logPwm : List (List ℝ))
    (pos : ℕ) : ℝ :=
  (List.range (logPwm.getD 0 []).length).foldl
    (fun s mp =>
      match columnChar oneHot (pos + mp) with
      | some c => s + (logPwm.getD c []).getD mp 0
      | none => s)
    0

/-- p value attached to an emitted hit: 2 pow logPdf[scoreIdx] when
scoreIdx is left of the end of the array, otherwise 0.  (For a negative
scoreIdx the source would read an undefined array slot and produce NaN;
theorem scanSequence p value below proves that emitted hits never have a
negative scoreIdx, so the Int.toNat clamp here is never exercised on
that side.) -/
noncomputable def pValueOf (score binSize : ℝ) (smallest : ℤ)
    (logPdf : List (WithBot ℝ)) : ℝ :=
  if ⌊score / binSize⌋ - smallest < (logPdf.length : ℤ) then
    pow2 (logPdf.getD (⌊score / binSize⌋ - smallest).toNat ⊥)
  else 0

open Classical in
/-- The fimo loop that walks logPdf looking for the first index whose
value is strictly below logThreshold. -/
noncomputable def findThresholdIdx (logThreshold : ℝ) :
    List (WithBot ℝ) → Option ℕ
  | [] => none
  | x :: rest =>
      if x < ((logThreshold : ℝ) : WithBot ℝ) then some 0
      else (findThresholdIdx logThreshold rest).map (· + 1)

/-- Score threshold of fimo: (i + smallest) * binSize at the first index
i found by the walk, and Infinity when no index qualifies. -/
noncomputable def scoreThresholdOf (mp : Mapping) (binSize logThreshold : ℝ) :
    WithTop ℝ :=
  match findThresholdIdx logThreshold mp.logPdf with
  | none => ⊤
  | some i => ((((i : ℤ) + mp.smallest : ℤ) : ℝ) * binSize : ℝ)

open Classical in
/-- Source scanSequence: walk every window start position, compute the
window score, and emit a Hit whenever the score strictly exceeds the
score threshold. -/
noncomputable def scanSequence (oneHot : List (List ℕ)) (logPwm : List (List ℝ))
    (scoreThreshold : WithTop ℝ) (binSize : ℝ) (smallest : ℤ)
    (logPdf : List (WithBot ℝ)) (seqIdx : ℕ) (strand : Char) : List Hit :=
  let seqLength := (oneHot.getD 0 []).length
  let motifLength := (logPwm.getD 0 []).length
  (List.range (seqLength + 1 - motifLength)).filterMap (fun pos =>
    let score := scanScore oneHot logPwm pos
    if scoreThreshold < ((score : ℝ) : WithTop ℝ) then
      some { sequence_idx := seqIdx, start := pos, endPos := pos + motifLength,
             strand := strand, score := score,
             p_value := pValueOf score binSize smallest logPdf }
    else none)

/-- Source reverseComplementOneHot: reverse every row, then reverse the
row order (T, G, C, A). -/
def reverseComplementOneHot (oneHot : List (List ℕ)) : List (List ℕ) :=
  let rc := oneHot.map List.reverse
  [rc.getD 3 [], rc.getD 2 [], rc.getD 1 [], rc.getD 0 []]

/-- The reverse complement transform the source applies to PWMs: row
order reversed and every row reversed. -/
def rcPwm (pwm : List (List ℝ)) : List (List ℝ) :=
  (pwm.reverse).map List.reverse

/-- fimo options with their source defaults. -/
structure FimoOptions where
  alphabet : List Char
  binSize : ℝ
  eps : ℝ
  threshold : ℝ
  reverseComplement : Bool

noncomputable def fimoDefaults : FimoOptions :=
  { alphabet := dnaAlphabet, binSize := 0.1, eps := 1e-4, threshold := 1e-4
    reverseComplement := true }

/-- The log PWM built by fimo: log2(p + eps) - log2(0.25) per cell. -/
noncomputable def logPwmOf (pwm : List (List ℝ)) (eps : ℝ) : List (List ℝ) :=
  pwm.map (fun row => row.map (fun v => Real.logb 2 (v + eps) - Real.logb 2 0.25))

/-- Hits contributed by one sequence for one motif: the forward scan,
followed by the reverse complement scan when the option is set. -/
noncomputable def fimoSeqHits (logPwm : List (List ℝ)) (mp : Mapping)
    (st : WithTop ℝ) (opts : FimoOptions) (seqIdx : ℕ)
    (sequence : List Char) : Except String (List Hit) := do
  let oneHot ← oneHotEncode (sequence.map Char.toUpper) opts.alphabet ['N']
  let fwd := scanSequence oneHot logPwm st opts.binSize mp.smallest mp.logPdf
    seqIdx '+'
  if opts.reverseComplement then
    let rcOH := reverseComplementOneHot oneHot
    pure (fwd ++ scanSequence rcOH (rcPwm logPwm) st opts.binSize mp.smallest
      mp.logPdf seqIdx '-')
  else
    pure fwd

/-- fimo restricted to a single motif: derive the log PWM, the score
distribution and the score threshold, then accumulate hits over the
sequences in order. -/
noncomputable def fimoMotif (opts : FimoOptions) (sequences : List (List Char))
    (name : String) (pwm : List (List ℝ)) :
    Except String (String × List Hit) := do
  let logPwm := logPwmOf pwm opts.eps
  let mp := pwmToMapping logPwm opts.binSize
  let st := scoreThresholdOf mp opts.binSize (Real.logb 2 opts.threshold)
  let hits ← (List.range sequences.length).foldlM
    (fun acc seqIdx => do
      let hs ← fimoSeqHits logPwm mp st opts seqIdx (sequences.getD seqIdx [])
      pure (acc ++ hs))
    ([] : List Hit)
  pure (name, hits)

/-- Source fimo: one MotifResult per motif, in insertion order. -/
noncomputable def fimo (motifs : List (String × List (List ℝ)))
    (sequences : List (List Char)) (opts : FimoOptions) :
    Except String (List (String × List Hit)) :=
  motifs.mapM (fun m => fimoMotif opts sequences m.1 m.2)

/-! ### binnedMedian -/

/-- Bucket index of a value: min(floor((v - minVal) / range * (nBins - 1)),
nBins - 1).  Kept as an integer: callers always pass values at or above
minVal, so the index is provably nonnegative there. -/
noncomputable def binIdxOf (minVal range : ℝ) (nBins : ℕ) (v : ℝ) : ℤ :=
  min ⌊(v - minVal) / range * ((nBins : ℝ) - 1)⌋ ((nBins : ℤ) - 1)

/-- Content of bucket b after the accumulation loop: total count weight
and total value * count weight of the entries falling in bucket b. -/
noncomputable def binsOf (values counts : List ℝ) (minVal range : ℝ)
    (nBins : ℕ) (b : ℤ) : ℝ × ℝ :=
  (values.zip counts).foldl
    (fun acc vc =>
      if binIdxOf minVal range nBins vc.1 = b then
        (acc.1 + vc.2, acc.2 + vc.1 * vc.2)
      else acc)
    (0, 0)

open Classical in
/-- The walk over buckets in ascending order: at the first bucket whose
cumulative count reaches halfway, return its average (or minVal when
the bucket is empty); when no bucket qualifies return maxVal.  The
first argument counts the remaining buckets. -/
noncomputable def medianWalk (bins : ℤ → ℝ × ℝ) (halfway minVal maxVal : ℝ) :
    ℕ → ℕ → ℝ → ℝ
  | 0, _, _ => maxVal
  | remaining + 1, i, cum =>
      let cum2 := cum + (bins (i : ℤ)).1
      if halfway ≤ cum2 then
        if 0 < (bins (i : ℤ)).1 then (bins (i : ℤ)).2 / (bins (i : ℤ)).1
        else minVal
      else medianWalk bins halfway minVal maxVal remaining (i + 1) cum2

open Classical in
/-- Source binnedMedian.  The source returns minVal immediately when
maxVal - minVal is zero, before filling any bucket. -/
noncomputable def binnedMedian (values : List ℝ) (minVal maxVal : ℝ)
    (counts : List ℝ) (nBins : ℕ) : ℝ :=
  let range := maxVal - minVal
  if range = 0 then minVal
  else
    let bins := binsOf values counts minVal range nBins
    let totalWeight := ((values.zip counts).map (fun vc => vc.2)).sum
    medianWalk bins (totalWeight / 2) minVal maxVal nBins 0 0

/-! ### TOMTOM -/

/-- Minimum of a nonempty list of reals as computed by Math.min spread
over the list (0 for the empty list, a case excluded by hypotheses). -/
noncomputable def listMinR : List ℝ → ℝ
  | [] => 0
  | h :: t => t.foldl min h

noncomputable def listMaxR : List ℝ → ℝ
  | [] => 0
  | h :: t => t.foldl max h

/-- Distance matrix entry of calculateAlignment: negative Euclidean
distance between query column qp and target column tp over the four
character rows. -/
noncomputable def distEntry (query target : List (List ℝ)) (tp qp : ℕ) : ℝ :=
  -Real.sqrt (((List.range 4).map
    (fun c => ((query.getD c []).getD qp 0 - (target.getD c []).getD tp 0) ^ 2)).sum)

/-- Median of query column qp of the distance matrix, as the source
computes it: values are the column entries over all target positions,
counts are all 1.  (The source subtracts medians column after column in
place, but the median of column qp is computed before column qp is
modified and the other columns do not enter it, so the medians only
depend on the original distance matrix.) -/
noncomputable def colMedian (query target : List (List ℝ)) (nMedianBins : ℕ)
    (qp : ℕ) : ℝ :=
  let values := (List.range (target.getD 0 []).length).map
    (fun tp => distEntry query target tp qp)
  binnedMedian values (listMinR values) (listMaxR values)
    (List.replicate values.length 1) nMedianBins

/-- Distance matrix entry after the per-column median subtraction. -/
noncomputable def centeredDist (query target : List (List ℝ))
    (nMedianBins : ℕ) (tp qp : ℕ) : ℝ :=
  distEntry query target tp qp - colMedian query target nMedianBins qp

/-- The offsets enumerated by the alignment loop, in loop order:
-(wq - 1), ..., wt - 1 (for wq >= 1). -/
def offsetList (wq wt : ℕ) : List ℤ :=
  (List.range (wq - 1 + wt)).map (fun (k : ℕ) => (k : ℤ) - ((wq : ℤ) - 1))

/-- Score and overlap of one offset: sum of centered entries over the
query positions that land inside the target, and their number. -/
noncomputable def offsetScoreOverlap (D : ℕ → ℕ → ℝ) (wq wt : ℕ) (o : ℤ) :
    ℝ × ℕ :=
  (List.range wq).foldl
    (fun (acc : ℝ × ℕ) (qp : ℕ) =>
      let tp : ℤ := (qp : ℤ) + o
      if 0 ≤ tp ∧ tp < (wt : ℤ) then (acc.1 + D tp.toNat qp, acc.2 + 1)
      else acc)
    (0, 0)

open Classical in
/-- The selection loop over offsets: strictly larger scores replace the
current best, so the first offset attaining the maximum wins.
bestScore starts at -Infinity, bestOffset and bestOverlap at 0. -/
noncomputable def bestAlignment (D : ℕ → ℕ → ℝ) (wq wt : ℕ) :
    WithBot ℝ × ℤ × ℕ :=
  (offsetList wq wt).foldl
    (fun best o =>
      let so := offsetScoreOverlap D wq wt o
      if best.1 < ((so.1 : ℝ) : WithBot ℝ) then (((so.1 : ℝ) : WithBot ℝ), o, so.2)
      else best)
    (⊥, 0, 0)

/-- Result of calculateAlignment; score is the source bestScore, which
starts at -Infinity. -/
structure Alignment where
  score : WithBot ℝ
  offset : ℤ
  overlap : ℕ
  pValue : ℝ

/-- Source calculateAlignment.  nScoreBins is accepted but never read by
the source body.  The placeholder p value is
max(1e-15, exp(-abs(bestScore) / 100)); when bestScore is still
-Infinity (no offset at all), exp evaluates to 0 and the max returns
1e-15. -/
noncomputable def calculateAlignment (query target : List (List ℝ))
    (nScoreBins nMedianBins : ℕ) : Alignment :=
  let wq := (query.getD 0 []).length
  let wt := (target.getD 0 []).length
  let best := bestAlignment (centeredDist query target nMedianBins) wq wt
  { score := best.1
    offset := best.2.1
    overlap := best.2.2
    pValue :=
      match best.1 with
      | ⊥ => (1e-15 : ℝ)
      | (s : ℝ) => max (1e-15 : ℝ) (Real.exp (-|s| / 100)) }

structure TomtomOptions where
  nScoreBins : ℕ
  nMedianBins : ℕ
  nCache : ℕ
  reverseComplement : Bool

def tomtomDefaults : TomtomOptions :=
  { nScoreBins := 100, nMedianBins := 1000, nCache := 100
    reverseComplement := true }

/-- The per-target cell stored by tomtom. -/
structure CellResult where
  pValue : ℝ
  score : WithBot ℝ
  offset : ℤ
  overlap : ℕ
  strand : ℕ

open Classical in
/-- One (query, target) cell of tomtom: start from the initializer
(pValue 1, score 0, offset 0, overlap 0, strand 0), replace it by the
forward alignment when that has pValue < 1, then by the reverse
complement alignment when that has strictly smaller pValue than the
current best. -/
noncomputable def tomtomCell (opts : TomtomOptions)
    (query target : List (List ℝ)) : CellResult :=
  let fwd := calculateAlignment query target opts.nScoreBins opts.nMedianBins
  let best : CellResult :=
    if fwd.pValue < 1 then
      { pValue := fwd.pValue, score := fwd.score, offset := fwd.offset
        overlap := fwd.overlap, strand := 0 }
    else
      { pValue := 1, score := ((0 : ℝ) : WithBot ℝ), offset := 0, overlap := 0
        strand := 0 }
  if opts.reverseComplement then
    let rc := calculateAlignment query (rcPwm target) opts.nScoreBins
      opts.nMedianBins
    if rc.pValue < best.pValue then
      { pValue := rc.pValue, score := rc.score, offset := rc.offset
        overlap := rc.overlap, strand := 1 }
    else best
  else best

structure TomtomResult where
  pValues : List (List ℝ)
  scores : List (List (WithBot ℝ))
  offsets : List (List ℤ)
  overlaps : List (List ℕ)
  strands : List (List ℕ)

/-- Source tomtom: matrices indexed query-major, one cell per original
target holding the best of the forward and reverse complement
orientations. -/
noncomputable def tomtom (queries targets : List (List (List ℝ)))
    (opts : TomtomOptions) : TomtomResult :=
  let cells := queries.map (fun q => targets.map (fun t => tomtomCell opts q t))
  { pValues := cells.map (List.map CellResult.pValue)
    scores := cells.map (List.map CellResult.score)
    offsets := cells.map (List.map CellResult.offset)
    overlaps := cells.map (List.map CellResult.overlap)
    strands := cells.map (List.map CellResult.strand) }

/-! ### MEME file reading and writing

File content is modelled as a list of characters (a JavaScript string
is a sequence of code units).  JavaScript objects mapping motif names
to PWMs are association lists in insertion order.  The JavaScript
number to string conversion and parseFloat are abstracted into a codec
record: they are properties of IEEE doubles and of their decimal
formatting, which the real-number embedding does not reproduce; the
round-trip theorem takes the codec laws it needs as hypotheses, and
concrete runs instantiate the codec with explicit character tables. -/

/-- Abstraction of the JavaScript number formatting used by the MEME
writer and of parseFloat used by the reader (none models NaN). -/
structure NumCodec where
  toStr : ℝ → List Char
  parse : List Char → Option ℝ
  natToStr : ℕ → List Char

/-- Generic splitter at every character satisfying p, the splitting
behaviour of the JavaScript string split. -/
def splitP (p : Char → Bool) : List Char → List (List Char)
  | [] => [[]]
  | c :: rest =>
      if p c then [] :: splitP p rest
      else
        match splitP p rest with
        | [] => [[c]]
        | l :: ls => (c :: l) :: ls

def isWs (c : Char) : Bool := c.isWhitespace

/-- JavaScript String.prototype.trim: strip whitespace from both
ends. -/
def trimChars (cs : List Char) : List Char :=
  ((cs.dropWhile isWs).reverse.dropWhile isWs).reverse

/-- Lines of a content string as the reader sees them: split on every
newline, trim every line. -/
def linesOf (content : List Char) : List (List Char) :=
  (splitP (fun c => c == '\n') content).map trimChars

/-- Concatenate lines, terminating every line with a newline: the shape
in which the writer accumulates its content string. -/
def emit (ls : List (List Char)) : List Char :=
  (ls.map (fun l => l ++ ['\n'])).flatten

/-- The fixed header lines of writeMeme. -/
def headerLines : List (List Char) :=
  ["MEME version 4".toList, [], "ALPHABET= ACGT".toList, [],
   "strands: + -".toList, [], "Background letter frequencies".toList,
   "A 0.25 C 0.25 G 0.25 T 0.25".toList, []]

/-- One data line of the writer: the four cell values of a motif
position, space separated (the row join of the source). -/
def rowLine (codec : NumCodec) (pwm : List (List ℝ)) (pos : ℕ) : List Char :=
  codec.toStr ((pwm.getD 0 []).getD pos 0) ++
    (' ' :: (codec.toStr ((pwm.getD 1 []).getD pos 0) ++
      (' ' :: (codec.toStr ((pwm.getD 2 []).getD pos 0) ++
        (' ' :: codec.toStr ((pwm.getD 3 []).getD pos 0))))))

/-- The lines of one motif block of the writer: the MOTIF line, the
letter-probability header with the width, one line of four
space-separated values per motif position, the URL line and a blank
line. -/
def blockLines (codec : NumCodec) (name : List Char)
    (pwm : List (List ℝ)) : List (List Char) :=
  ("MOTIF ".toList ++ name) ::
  ("letter-probability matrix: alength= 4 w= ".toList ++
    (codec.natToStr (pwm.getD 0 []).length ++ " nsites= 1 E= 0".toList)) ::
  ((List.range (pwm.getD 0 []).length).map (rowLine codec pwm) ++
  ["URL BLANK".toList, []])

/-- Source writeMeme: the fixed header then one block per motif in
insertion order, every line terminated by a newline. -/
def writeMeme (codec : NumCodec) (motifs : List (List Char × List (List ℝ))) :
    List Char :=
  emit (headerLines ++ (motifs.map (fun m => blockLines codec m.1 m.2)).flatten)

/-- Value of a nonempty decimal digit run. -/
def digitsVal (cs : List Char) : ℕ :=
  cs.foldl (fun acc c => acc * 10 + (c.toNat - 48)) 0

/-- The reader regex searching for w= followed by optional whitespace
and at least one digit: scan occurrences of the literal w= from the
left, at each occurrence skip whitespace and take the maximal digit
run, succeed on the first occurrence with a nonempty run.  On a failed
occurrence the regex engine resumes scanning after the w; since the
following character = cannot begin a new match, resuming at the
remainder is the same scan. -/
def extractW : List Char → Option ℕ
  | [] => none
  | [_] => none
  | c :: d :: rest =>
      if c = 'w' ∧ d = '=' then
        let afterWs := rest.dropWhile isWs
        let digits := afterWs.takeWhile (fun e => e.isDigit)
        if digits.isEmpty then extractW rest
        else some (digitsVal digits)
      else extractW (d :: rest)

/-- The floats of one candidate row line: split on whitespace, drop
empty pieces, parse each piece, drop the failures.  (The source splits
on whitespace runs and filters the NaN results of parseFloat; splitting
at every whitespace character and discarding empty pieces, then the
parse failures, is the same composite.) -/
def rowFloats (codec : NumCodec) (line : List Char) : List ℝ :=
  (((splitP isWs line).filter (fun p => p ≠ [])).map codec.parse).reduceOption

/-- The row collection loop: walk lines, keep those parsing to exactly
four floats, stop once width rows are collected. -/
def parseRows (codec : NumCodec) (width : ℕ) :
    List (List Char) → List (List ℝ) → List (List ℝ)
  | [], acc => acc
  | l :: rest, acc =>
      if acc.length < width then
        let vals := rowFloats codec l
        if vals.length = 4 then parseRows codec width rest (acc ++ [vals])
        else parseRows codec width rest acc
      else acc

/-- Transpose the collected width x 4 rows into the 4 x width PWM
(zero-filled where data is missing, as the source allocates). -/
def transpose4 (rows : List (List ℝ)) (width : ℕ) : List (List ℝ) :=
  (List.range 4).map (fun base =>
    (List.range width).map (fun pos => (rows.getD pos []).getD base 0))

/-- True when the maxMotifs cap fires: JavaScript maxMotifs &&
count >= maxMotifs, where null and 0 are falsy. -/
def capReached (maxMotifs : Option ℕ) (count : ℕ) : Bool :=
  match maxMotifs with
  | none => false
  | some m => decide (m ≠ 0) && decide (m ≤ count)

/-- Main reader loop over trimmed lines.  On a MOTIF line: look for the
matrix header within the next 9 lines, extract the width, collect rows
from after the header, and keep the motif only when exactly width rows
parsed; scanning always resumes at the line after the MOTIF line.  The
source takes the name by replacing the first occurrence of the literal
MOTIF-space and trimming; on a line with that prefix this is dropping
the first six characters and trimming. -/
def readMemeLoop (codec : NumCodec) (maxMotifs : Option ℕ) :
    List (List Char) → List (List Char × List (List ℝ)) →
      List (List Char × List (List ℝ))
  | [], acc => acc
  | line :: rest, acc =>
      if "MOTIF ".toList.isPrefixOf line then
        match (rest.take 9).findIdx?
            (fun l => "letter-probability matrix:".toList.isPrefixOf l) with
        | none => readMemeLoop codec maxMotifs rest acc
        | some k =>
            match extractW (rest.getD k []) with
            | none => readMemeLoop codec maxMotifs rest acc
            | some width =>
                let rows := parseRows codec width (rest.drop (k + 1)) []
                if rows.length = width then
                  let acc2 := acc ++
                    [(trimChars (line.drop 6), transpose4 rows width)]
                  if capReached maxMotifs acc2.length then acc2
                  else readMemeLoop codec maxMotifs rest acc2
                else readMemeLoop codec maxMotifs rest acc
      else readMemeLoop codec maxMotifs rest acc

/-- Source readMeme: split on newlines, trim every line, run the loop.
(Duplicate motif names would overwrite in a JavaScript object; the
association list model appends instead, so the round-trip theorem is
read with distinct names as a map provides.) -/
def readMeme (codec : NumCodec) (content : List Char)
    (maxMotifs : Option ℕ) : List (List Char × List (List ℝ)) :=
  readMemeLoop codec maxMotifs (linesOf content) []

/-! ### Generic list fold min and max lemmas -/

theorem foldl_min_le_init {α : Type} [LinearOrder α] (l : List α) (a : α) :
    l.foldl min a ≤ a := by
  induction l generalizing a with
  | nil => exact le_refl a
  | cons h t ih =>
      calc t.foldl min (min a h) ≤ min a h := ih (min a h)
      _ ≤ a := min_le_left a h

theorem foldl_min_le_of_mem {α : Type} [LinearOrder α] {l : List α} {b : α}
    (hb : b ∈ l) (a : α) : l.foldl min a ≤ b := by
  induction l generalizing a with
  | nil => cases hb
  | cons h t ih =>
      rcases List.mem_cons.mp hb with rfl | hmem
      · calc t.foldl min (min a b) ≤ min a b := foldl_min_le_init t _
        _ ≤ b := min_le_right a b
      · exact ih hmem (min a h)

theorem init_le_foldl_max {α : Type} [LinearOrder α] (l : List α) (a : α) :
    a ≤ l.foldl max a := by
  induction l generalizing a with
  | nil => exact le_refl a
  | cons h t ih =>
      calc a ≤ max a h := le_max_left a h
      _ ≤ t.foldl max (max a h) := ih (max a h)

theorem le_foldl_max_of_mem {α : Type} [LinearOrder α] {l : List α} {b : α}
    (hb : b ∈ l) (a : α) : b ≤ l.foldl max a := by
  induction l generalizing a with
  | nil => cases hb
  | cons h t ih =>
      rcases List.mem_cons.mp hb with rfl | hmem
      · calc b ≤ max a b := le_max_right a b
        _ ≤ t.foldl max (max a b) := init_le_foldl_max t _
      · exact ih hmem (max a h)

theorem foldl_min_mem {α : Type} [LinearOrder α] (l : List α) (a : α) :
    l.foldl min a = a ∨ l.foldl min a ∈ l := by
  induction l generalizing a with
  | nil => exact Or.inl rfl
  | cons h t ih =>
      rcases ih (min a h) with heq | hmem
      · rcases min_cases a h with ⟨hm, _⟩ | ⟨hm, _⟩
        · exact Or.inl (by rw [List.foldl_cons, heq, hm])
        · exact Or.inr (by rw [List.foldl_cons, heq, hm]; exact List.mem_cons_self h t)
      · exact Or.inr (List.mem_cons_of_mem h hmem)

theorem listMin_le_of_mem {l : List ℤ} {b : ℤ} (hb : b ∈ l) : listMin l ≤ b := by
  cases l with
  | nil => cases hb
  | cons h t =>
      rcases List.mem_cons.mp hb with rfl | hmem
      · exact foldl_min_le_init t b
      · exact foldl_min_le_of_mem hmem h

theorem le_listMax_of_mem {l : List ℤ} {b : ℤ} (hb : b ∈ l) : b ≤ listMax l := by
  cases l with
  | nil => cases hb
  | cons h t =>
      rcases List.mem_cons.mp hb with rfl | hmem
      · exact init_le_foldl_max t b
      · exact le_foldl_max_of_mem hmem h

theorem listMin_mem {l : List ℤ} (hl : l ≠ []) : listMin l ∈ l := by
  cases l with
  | nil => exact absurd rfl hl
  | cons h t =>
      rcases foldl_min_mem t h with heq | hmem
      · rw [listMin, heq]
        exact List.mem_cons_self h t
      · exact List.mem_cons_of_mem h hmem

/-! ### Claim C10 -/

/-- The ten characters the claim allows, their charMap resolution after
uppercasing, and idempotence of uppercasing on them. -/
theorem charMapGet_allowed :
    ∀ c ∈ ['a', 'c', 'g', 't', 'n', 'A', 'C', 'G', 'T', 'N'],
      (charMapGet dnaAlphabet ['N'] c.toUpper).isSome = true ∧
        Char.toUpper c.toUpper = c.toUpper := by
  decide

theorem mapM_toUpper_eq (s : List Char)
    (h : ∀ c ∈ s, c ∈ ['a', 'c', 'g', 't', 'n', 'A', 'C', 'G', 'T', 'N']) :
    ∃ idxs : List ℤ,
      s.mapM (fun ch =>
        match charMapGet dnaAlphabet ['N'] ch.toUpper with
        | none => (throw "Character not in alphabet or ignore list" :
            Except String ℤ)
        | some i => pure i) = Except.ok idxs ∧
      (s.map Char.toUpper).mapM (fun ch =>
        match charMapGet dnaAlphabet ['N'] ch.toUpper with
        | none => (throw "Character not in alphabet or ignore list" :
            Except String ℤ)
        | some i => pure i) = Except.ok idxs := by
  induction s with
  | nil => exact ⟨[], rfl, rfl⟩
  | cons c t ih =>
      obtain ⟨idxs, h1, h2⟩ := ih (fun x hx => h x (List.mem_cons_of_mem c hx))
      obtain ⟨hsome, hidem⟩ := charMapGet_allowed c (h c (List.mem_cons_self c t))
      obtain ⟨v, hv⟩ := Option.isSome_iff_exists.mp hsome
      refine ⟨v :: idxs, ?_, ?_⟩
      · rw [List.mapM_cons, hv, h1]
        rfl
      · rw [List.map_cons, List.mapM_cons, hidem, hv, h2]
        rfl

/-- C10: for every sequence over the characters a, c, g, t, n and their
uppercase forms, oneHotEncode with the default alphabet and ignore list
succeeds, and returns the same matrix as oneHotEncode on the uppercased
sequence: lowercase letters are treated as their uppercase
counterparts. -/
theorem C10_oneHotEncode_case_insensitive (s : List Char)
    (h : ∀ c ∈ s, c ∈ ['a', 'c', 'g', 't', 'n', 'A', 'C', 'G', 'T', 'N']) :
    ∃ m, oneHotEncode s dnaAlphabet ['N'] = Except.ok m ∧
      oneHotEncode (s.map Char.toUpper) dnaAlphabet ['N'] = Except.ok m := by
  obtain ⟨idxs, h1, h2⟩ := mapM_toUpper_eq s h
  refine ⟨(List.range dnaAlphabet.length).map (fun k =>
    idxs.map (fun idx => if idx = (k : ℤ) then 1 else 0)), ?_, ?_⟩
  all_goals
    simp only [oneHotEncode, h1, h2]
    rfl

theorem C10_witness :
    (∀ c ∈ ['a', 'c', 'G', 't', 'N'],
        c ∈ ['a', 'c', 'g', 't', 'n', 'A', 'C', 'G', 'T', 'N']) ∧
    ∃ m, oneHotEncode ['a', 'c', 'G', 't', 'N'] dnaAlphabet ['N'] =
        Except.ok m ∧
      oneHotEncode (['a', 'c', 'G', 't', 'N'].map Char.toUpper) dnaAlphabet
        ['N'] = Except.ok m :=
  ⟨by decide, C10_oneHotEncode_case_insensitive _ (by decide)⟩

/-! ### Claim C9 -/

/-- C9 counterexample: fimo with a nonempty motif map and an empty
sequence list does not return an empty result list; it returns one
MotifResult for the motif (with an empty hit list). -/
theorem C9_counterexample :
    fimo [("m", [[1], [0], [0], [0]])] [] fimoDefaults ≠ Except.ok [] := by
  have h : fimo [("m", [[1], [0], [0], [0]])] [] fimoDefaults =
      Except.ok [("m", ([] : List Hit))] := rfl
  rw [h]
  intro hcontra
  simpa using hcontra

/-- C9 amended: fimo with an empty motif map returns an empty result
list for every options value and every sequence list; fimo with a
nonempty motif map and an empty sequence list returns one MotifResult
per motif, each carrying an empty hits array (the result list itself is
not empty). -/
theorem C9_fimo_empty_amended :
    (∀ (sequences : List (List Char)) (opts : FimoOptions),
        fimo [] sequences opts = Except.ok []) ∧
    (∀ (motifs : List (String × List (List ℝ))) (opts : FimoOptions),
        fimo motifs [] opts =
          Except.ok (motifs.map (fun m => (m.1, ([] : List Hit))))) := by
  constructor
  · intro sequences opts
    rfl
  · intro motifs opts
    induction motifs with
    | nil => rfl
    | cons m t ih =>
        simp only [fimo, List.mapM_cons, List.map_cons] at ih ⊢
        rw [show fimoMotif opts [] m.1 m.2 = Except.ok (m.1, ([] : List Hit))
          from rfl, ih]
        rfl

/-! ### Claim C3 -/

/-- C3 counterexample: pwmToMapping with binSize = -1 (which is <= 0)
does not fail; it returns a normally populated result, here computed in
full.  The discretized PWM is [[1],[1],[1],[1]], smallest = 1, and the
log survival array has its whole mass at index 0. -/
theorem C3_counterexample :
    (pwmToMapping [[-1], [-1], [-1], [-1]] (-1)).smallest = 1 ∧
    (pwmToMapping [[-1], [-1], [-1], [-1]] (-1)).logPdf =
      [((0 : ℝ) : WithBot ℝ), ⊥] := by
  have hround : intRound [[-1], [-1], [-1], [-1]] (-1) = [[1], [1], [1], [1]] := by
    have : round ((-1 : ℝ) / (-1)) = 1 := by norm_num
    simp [intRound, this]
  constructor
  · show (pwmToMappingInt (intRound [[-1], [-1], [-1], [-1]] (-1))).smallest = 1
    rw [hround]
    show smallestOf [[1], [1], [1], [1]] 1 = 1
    decide
  · show (pwmToMappingInt (intRound [[-1], [-1], [-1], [-1]] (-1))).logPdf = _
    rw [hround, logPdf_eq_qMapping]
    have hq : qMapping [[1], [1], [1], [1]] = [4, 0] := by decide
    rw [hq]
    show [toLogS 1 4, toLogS 1 0] = [((0 : ℝ) : WithBot ℝ), ⊥]
    rw [toLogS_zero, toLogS_pos_eq 1 4 (by norm_num)]
    norm_num

/-- C3 amended: pwmToMapping performs no validation of binSize at all.
For a negative binSize (and any log PWM of width at least 1) it returns
a fully allocated result whose logPdf array has length at least
width + 1, rather than failing with a validation error.  (For
binSize = 0 the JavaScript division produces infinities and the array
allocation itself throws a RangeError, which is not an input-validation
failure either.) -/
theorem minCsum_le_maxCsum (ipwm : List (List ℤ)) (k : ℕ) :
    minCsum ipwm k ≤ maxCsum ipwm k := by
  unfold minCsum maxCsum
  apply List.sum_le_sum
  intro p _
  rcases List.eq_nil_or_concat (colList ipwm p) with hnil | _
  · simp [colMin, colMax, hnil, listMin, listMax]
  · have h1 : colMin ipwm p ∈ colList ipwm p := by
      apply listMin_mem
      intro hc
      simp_all
    exact le_listMax_of_mem h1

/-- The prefix minimum sum is bounded by the largest prefix maximum sum
(over a nonempty range of columns). -/
theorem smallestOf_le_listMax (ipwm : List (List ℤ)) (w : ℕ) (hw : 1 ≤ w) :
    smallestOf ipwm w ≤ listMax ((List.range w).map (maxCsum ipwm)) := by
  have hne : (List.range w).map (minCsum ipwm) ≠ [] := by
    simp [List.map_eq_nil_iff, List.range_eq_nil]
    omega
  obtain ⟨k, hk, hkeq⟩ := List.mem_map.mp (listMin_mem hne)
  have hsm : smallestOf ipwm w = minCsum ipwm k := by
    rw [smallestOf, hkeq]
  calc smallestOf ipwm w = minCsum ipwm k := hsm
  _ ≤ maxCsum ipwm k := minCsum_le_maxCsum ipwm k
  _ ≤ listMax ((List.range w).map (maxCsum ipwm)) :=
      le_listMax_of_mem (List.mem_map.mpr ⟨k, hk, rfl⟩)

/-- The allocated array always has at least w + 1 slots (w >= 1). -/
theorem arraySizeOf_lower (ipwm : List (List ℤ)) (w : ℕ) (hw : 1 ≤ w) :
    w + 1 ≤ arraySizeOf ipwm w := by
  have h := smallestOf_le_listMax ipwm w hw
  rw [arraySizeOf, largestOf]
  omega

theorem C3_no_binSize_validation (logPwm : List (List ℝ)) (binSize : ℝ)
    (hb : binSize < 0) (hw : 1 ≤ (logPwm.getD 0 []).length) :
    1 + (logPwm.getD 0 []).length ≤ (pwmToMapping logPwm binSize).logPdf.length := by
  set ipwm := intRound logPwm binSize with hipwm
  have hlen : (ipwm.getD 0 []).length = (logPwm.getD 0 []).length := by
    rcases logPwm with _ | ⟨row, rows⟩
    · rfl
    · simp [hipwm, intRound]
  set w := (logPwm.getD 0 []).length with hw'
  have hlog : (pwmToMapping logPwm binSize).logPdf.length = arraySizeOf ipwm w := by
    show (pwmToMappingInt ipwm).logPdf.length = _
    rw [logPdf_length, hlen]
  rw [hlog]
  have := arraySizeOf_lower ipwm w (by omega)
  omega

theorem C3_no_binSize_validation_witness :
    ((-1 : ℝ) < 0) ∧ (1 ≤ (([[-1], [-1], [-1], [-1]] :
        List (List ℝ)).getD 0 []).length) ∧
    1 + (([[-1], [-1], [-1], [-1]] : List (List ℝ)).getD 0 []).length ≤
      (pwmToMapping [[-1], [-1], [-1], [-1]] (-1)).logPdf.length :=
  ⟨by norm_num, by norm_num,
    C3_no_binSize_validation [[-1], [-1], [-1], [-1]] (-1) (by norm_num)
      (by norm_num)⟩

/-! ### Claim C7 -/

theorem getD_set_self_nat (l : List ℕ) (m v : ℕ) (h : m < l.length) :
    (l.set m v).getD m 0 = v := by
  simp [List.getD_eq_getElem?_getD, List.getElem?_set_self h]

theorem getD_set_ne_nat (l : List ℕ) (m k v : ℕ) (h : m ≠ k) :
    (l.set m v).getD k 0 = l.getD k 0 := by
  simp [List.getD_eq_getElem?_getD, List.getElem?_set_ne h]

/-- The tail accumulation fold leaves indices it never visits alone. -/
theorem tailFold_untouched (is : List ℕ) (l : List ℕ) (k : ℕ)
    (h : ∀ j ∈ is, j ≠ k) :
    (is.foldl (fun acc i => acc.set i (acc.getD i 0 + acc.getD (i + 1) 0))
      l).getD k 0 = l.getD k 0 := by
  induction is generalizing l with
  | nil => rfl
  | cons j js ih =>
      rw [List.foldl_cons, ih _ (fun x hx => h x (List.mem_cons_of_mem j hx)),
        getD_set_ne_nat _ _ _ _ (h j (List.mem_cons_self j js))]

/-- Closed form of the tail accumulation: after processing indices
m-1 down to 0, entry i (for i at most m, with m inside the list) holds
the sum of the original entries from i through m. -/
theorem tailFold_getD (m : ℕ) :
    ∀ (l : List ℕ), m < l.length → ∀ i ≤ m,
      (((List.range m).reverse).foldl
        (fun acc i => acc.set i (acc.getD i 0 + acc.getD (i + 1) 0)) l).getD i 0 =
      ∑ k ∈ Finset.Icc i m, l.getD k 0 := by
  induction m with
  | zero =>
      intro l _ i hi
      interval_cases i
      simp
  | succ m ih =>
      intro l hm i hi
      rw [List.range_succ, List.reverse_append]
      simp only [List.reverse_cons, List.reverse_nil, List.nil_append,
        List.cons_append, List.foldl_cons]
      have hmlen : m < l.length := by omega
      set l2 := l.set m (l.getD m 0 + l.getD (m + 1) 0) with hl2
      have hlen2 : l2.length = l.length := by simp [hl2]
      rcases Nat.lt_or_ge i (m + 1) with hlt | hge
      · have hi' : i ≤ m := by omega
        rw [ih l2 (by omega) i hi']
        have hIcc : ∀ b : ℕ, i ≤ b → Finset.Icc i b = Finset.Ico i (b + 1) := by
          intro b _
          rw [Nat.Ico_succ_right]
        rw [hIcc m hi', hIcc (m + 1) (by omega),
          Finset.sum_Ico_succ_top hi', Finset.sum_Ico_succ_top (by omega),
          Finset.sum_Ico_succ_top hi']
        have hcongr : ∑ k ∈ Finset.Ico i m, l2.getD k 0 =
            ∑ k ∈ Finset.Ico i m, l.getD k 0 := by
          apply Finset.sum_congr rfl
          intro k hk
          have : k < m := (Finset.mem_Ico.mp hk).2
          exact getD_set_ne_nat l m k _ (by omega)
        rw [hcongr, getD_set_self_nat l m _ hmlen]
        ring
      · have hi' : i = m + 1 := by omega
        subst hi'
        rw [tailFold_untouched _ l2 (m + 1)
          (fun j hj => by
            have : j < m := by
              have := List.mem_reverse.mp hj
              simpa using this
            omega)]
        rw [getD_set_ne_nat l m (m + 1) _ (by omega)]
        simp

theorem toLogS_mono (s : ℕ) {a b : ℕ} (h : a ≤ b) : toLogS s a ≤ toLogS s b := by
  apply toLog_mono
  gcongr

/-- C7: for every PWM and every positive bin size, the logPdf array
returned by the score-distribution mapping is non-increasing in its
index.  (Stated for an arbitrary real log PWM matrix, which covers the
log PWMs fimo builds.) -/
theorem C7_logPdf_nonincreasing (logPwm : List (List ℝ)) (binSize : ℝ)
    (hb : 0 < binSize) (i : ℕ)
    (hi : i + 1 < (pwmToMapping logPwm binSize).logPdf.length) :
    (pwmToMapping logPwm binSize).logPdf.getD (i + 1) ⊥ ≤
      (pwmToMapping logPwm binSize).logPdf.getD i ⊥ := by
  clear hb
  set ipwm := intRound logPwm binSize with hipwm
  show (pwmToMappingInt ipwm).logPdf.getD (i + 1) ⊥ ≤
    (pwmToMappingInt ipwm).logPdf.getD i ⊥
  have hlen : (pwmToMappingInt ipwm).logPdf.length =
      arraySizeOf ipwm (ipwm.getD 0 []).length := logPdf_length ipwm
  have hi' : i + 1 < arraySizeOf ipwm (ipwm.getD 0 []).length := by
    rw [← hlen]
    exact hi
  rw [logPdf_eq_qMapping, getD_map_toLogS, getD_map_toLogS]
  apply toLogS_mono
  unfold qMapping qTail
  set len := (ipwm.getD 0 []).length
  set asize := arraySizeOf ipwm len with hasize
  set l := qDpAll ipwm ipwm.length len asize (smallestOf ipwm len) with hl
  have hllen : l.length = asize := qDpAll_length _ _ _ _ _
  have hm : asize - 1 < l.length := by omega
  rw [tailFold_getD (asize - 1) l hm (i + 1) (by omega),
    tailFold_getD (asize - 1) l hm i (by omega)]
  apply Finset.sum_le_sum_of_subset
  apply Finset.Icc_subset_Icc_left
  omega

theorem C7_witness :
    (0 : ℝ) < 1 ∧
    0 + 1 < (pwmToMapping [[-1], [-1], [-1], [-1]] 1).logPdf.length ∧
    (pwmToMapping [[-1], [-1], [-1], [-1]] 1).logPdf.getD (0 + 1) ⊥ ≤
      (pwmToMapping [[-1], [-1], [-1], [-1]] 1).logPdf.getD 0 ⊥ := by
  have hround : intRound [[-1], [-1], [-1], [-1]] 1 = [[-1], [-1], [-1], [-1]] := by
    have h1 : round ((-1 : ℝ)) = -1 := by
      rw [show (-1 : ℝ) = ((-1 : ℤ) : ℝ) from by norm_num]
      exact round_intCast _
    simp [intRound, h1]
  have hlen : (pwmToMapping [[-1], [-1], [-1], [-1]] 1).logPdf.length = 2 := by
    show (pwmToMappingInt (intRound [[-1], [-1], [-1], [-1]] 1)).logPdf.length = 2
    rw [hround, logPdf_length]
    decide
  refine ⟨by norm_num, by omega, ?_⟩
  exact C7_logPdf_nonincreasing [[-1], [-1], [-1], [-1]] 1 (by norm_num) 0
    (by omega)

/-! ### Claim C6 -/

theorem C6_intRound :
    intRound [[-1, -1, -1], [-1, -1, -1], [-1, -1, -1], [-1, -1, -1]] 0.1 =
      [[-10, -10, -10], [-10, -10, -10], [-10, -10, -10], [-10, -10, -10]] := by
  have h1 : round ((-1 : ℝ) / 0.1) = -10 := by
    rw [show ((-1 : ℝ) / 0.1) = ((-10 : ℤ) : ℝ) from by norm_num]
    exact round_intCast _
  simp only [intRound, List.map_cons, List.map_nil, h1]

theorem C6_qMapping :
    qMapping [[-10, -10, -10], [-10, -10, -10], [-10, -10, -10], [-10, -10, -10]] =
      64 :: List.replicate 23 0 := by
  decide

/-- C6 counterexample: on the all-minus-one 4 x 3 log PWM with bin size
0.1 the last entry of logPdf is negative Infinity, not -6: the whole
probability mass sits in the first bin (every background word attains
the same discretized score), so every later tail entry is empty. -/
theorem C6_counterexample :
    (pwmToMapping [[-1, -1, -1], [-1, -1, -1], [-1, -1, -1], [-1, -1, -1]]
        0.1).logPdf.getD
      ((pwmToMapping [[-1, -1, -1], [-1, -1, -1], [-1, -1, -1], [-1, -1, -1]]
        0.1).logPdf.length - 1) ⊥ ≠ ((-6 : ℝ) : WithBot ℝ) := by
  show (pwmToMappingInt (intRound _ 0.1)).logPdf.getD
    ((pwmToMappingInt (intRound _ 0.1)).logPdf.length - 1) ⊥ ≠ _
  rw [C6_intRound, logPdf_length, logPdf_eq_qMapping, C6_qMapping,
    getD_map_toLogS]
  rw [show arraySizeOf
      [[-10, -10, -10], [-10, -10, -10], [-10, -10, -10], [-10, -10, -10]]
      (([[-10, -10, -10], [-10, -10, -10], [-10, -10, -10],
        [-10, -10, -10]] : List (List ℤ)).getD 0 []).length - 1 = 23 from by decide]
  rw [show ((64 :: List.replicate 23 0).getD 23 0) = 0 from by decide, toLogS_zero]
  simp

/-- C6 amended: pwmToMapping on the all-minus-one 4 x 3 log PWM with
bin size 0.1 returns logPdf of length 24 (which is at least 4) with
logPdf[0] = 0, but its last entry is negative Infinity rather than -6:
all 64 background words share the same discretized score, so the tail
above the first bin is empty. -/
theorem C6_mapping_all_minus_one :
    (pwmToMapping [[-1, -1, -1], [-1, -1, -1], [-1, -1, -1], [-1, -1, -1]]
        0.1).logPdf.length = 24 ∧
    (pwmToMapping [[-1, -1, -1], [-1, -1, -1], [-1, -1, -1], [-1, -1, -1]]
        0.1).logPdf.getD 0 ⊥ = ((0 : ℝ) : WithBot ℝ) ∧
    (pwmToMapping [[-1, -1, -1], [-1, -1, -1], [-1, -1, -1], [-1, -1, -1]]
        0.1).logPdf.getD 23 ⊥ = ⊥ := by
  have hbase : (pwmToMapping [[-1, -1, -1], [-1, -1, -1], [-1, -1, -1],
      [-1, -1, -1]] 0.1).logPdf =
      (64 :: List.replicate 23 0).map
        (toLogS (1 + ((([[-10, -10, -10], [-10, -10, -10], [-10, -10, -10],
          [-10, -10, -10]] : List (List ℤ)).getD 0 []).length - 1))) := by
    show (pwmToMappingInt (intRound _ 0.1)).logPdf = _
    rw [C6_intRound, logPdf_eq_qMapping, C6_qMapping]
  refine ⟨?_, ?_, ?_⟩
  · rw [hbase, List.length_map]
    decide
  · rw [hbase, getD_map_toLogS,
      show ((64 :: List.replicate 23 0).getD 0 0) = 64 from by decide,
      show (1 + ((([[-10, -10, -10], [-10, -10, -10], [-10, -10, -10],
        [-10, -10, -10]] : List (List ℤ)).getD 0 []).length - 1)) = 3 from by decide,
      toLogS_pos_eq 3 64 (by norm_num)]
    have h64 : (((((64 : ℕ) : ℚ≥0) / 4 ^ 3) : ℚ≥0) : ℝ) = 1 := by
      push_cast
      norm_num
    rw [h64, Real.logb_one]
  · rw [hbase, getD_map_toLogS,
      show ((64 :: List.replicate 23 0).getD 23 0) = 0 from by decide, toLogS_zero]

/-! ### Claim C2

The key fact: the highest slots of the allocated pdf array can never
receive probability mass, because the reachable integer scores are
bounded by the running column maxima while the array extends w slots
further.  In particular the very last slot always holds negative
Infinity, so a hit whose bin index falls past the end of the array
(reachable when ignored bases skip strongly negative columns) receives
p value 0 = 2 pow (-Infinity), exactly the value the clamped lookup the
claim describes would produce. -/

/-- All entries strictly above an integer bound are zero. -/
def ZeroAbove (b : ℤ) (l : List ℕ) : Prop :=
  ∀ i : ℕ, b < (i : ℤ) → l.getD i 0 = 0

theorem getD_mem_of_lt {α : Type} (l : List α) (c : ℕ) (d : α)
    (h : c < l.length) : l.getD c d ∈ l := by
  rw [List.getD_eq_getElem?_getD, List.getElem?_eq_getElem h]
  exact List.getElem_mem h

theorem zeroAbove_replicate (b : ℤ) (n : ℕ) :
    ZeroAbove b (List.replicate n 0) := by
  intro i _
  rcases Nat.lt_or_ge i n with h | h
  · simp [List.getD_eq_getElem?_getD, List.getElem?_replicate_of_lt h]
  · have hlen : (List.replicate n (0 : ℕ)).length ≤ i := by simpa using h
    simp [List.getD_eq_getElem?_getD, List.getElem?_eq_none hlen]

theorem zeroAbove_set {b : ℤ} {l : List ℕ} (hP : ZeroAbove b l) {idx : ℕ}
    (hidx : (idx : ℤ) ≤ b) (v : ℕ) : ZeroAbove b (l.set idx v) := by
  intro i hi
  have hne : idx ≠ i := by
    intro hcontra
    subst hcontra
    omega
  rw [getD_set_ne_nat l idx i v hne]
  exact hP i hi

/-- Column entries are bounded by the column maximum (for character
rows inside the matrix). -/
theorem col_entry_le_colMax (ipwm : List (List ℤ)) (pos c : ℕ)
    (hc : c < ipwm.length) :
    (ipwm.getD c []).getD pos 0 ≤ colMax ipwm pos := by
  apply le_listMax_of_mem
  exact List.mem_map.mpr ⟨ipwm.getD c [], getD_mem_of_lt ipwm c [] hc, rfl⟩

theorem qInit_zeroAbove (ipwm : List (List ℤ)) (w : ℕ) (hw : 1 ≤ w)
    (asize : ℕ) :
    ZeroAbove (colMax ipwm 0 - smallestOf ipwm w)
      (qInit ipwm ipwm.length (smallestOf ipwm w) asize) := by
  have hb0 : 0 ≤ colMax ipwm 0 - smallestOf ipwm w := by
    have h1 : smallestOf ipwm w ≤ minCsum ipwm 0 := by
      apply listMin_le_of_mem
      exact List.mem_map.mpr ⟨0, by simp [List.mem_range]; omega, rfl⟩
    have h2 : minCsum ipwm 0 = colMin ipwm 0 := by
      unfold minCsum
      rw [show List.range 1 = [0] from rfl]
      simp
    have h3 : colMin ipwm 0 ≤ colMax ipwm 0 := by
      rcases List.eq_nil_or_concat (colList ipwm 0) with hnil | _
      · simp [colMin, colMax, hnil, listMin, listMax]
      · have := listMin_mem (l := colList ipwm 0) (by intro hc; simp_all)
        exact le_listMax_of_mem this
    omega
  unfold qInit
  have hsub : ∀ cs : List ℕ, (∀ c ∈ cs, c < ipwm.length) →
      ZeroAbove (colMax ipwm 0 - smallestOf ipwm w)
        (cs.foldl (fun l c =>
          let idx := (((ipwm.getD c []).getD 0 0) - smallestOf ipwm w).toNat
          l.set idx (l.getD idx 0 + 1)) (List.replicate asize 0)) := by
    intro cs hcs
    induction cs using List.reverseRecOn with
    | nil => exact zeroAbove_replicate _ _
    | append_singleton cs c ih =>
        rw [List.foldl_append]
        simp only [List.foldl_cons, List.foldl_nil]
        apply zeroAbove_set
        · exact ih (fun x hx => hcs x (List.mem_append_left _ hx))
        · have hc : c < ipwm.length := hcs c (List.mem_append_right _ (by simp))
          have hv := col_entry_le_colMax ipwm 0 c hc
          rw [Int.toNat_eq_max]
          omega
  exact hsub (List.range ipwm.length) (fun c hc => List.mem_range.mp hc)

theorem qColInner_zeroAbove (ipwm : List (List ℤ)) (numChars pos asize j : ℕ)
    (oj : ℕ) {b2 : ℤ} {acc : List ℕ} (hacc : ZeroAbove b2 acc)
    (hnum : numChars ≤ ipwm.length)
    (hj : (j : ℤ) + colMax ipwm pos ≤ b2) :
    ZeroAbove b2 (qColInner ipwm numChars pos asize j oj acc) := by
  unfold qColInner
  have hsub : ∀ cs : List ℕ, (∀ c ∈ cs, c < numChars) →
      ∀ a : List ℕ, ZeroAbove b2 a →
      ZeroAbove b2 (cs.foldl (fun acc c =>
        let ni : ℤ := (j : ℤ) + (ipwm.getD c []).getD pos 0
        if 0 ≤ ni ∧ ni < (asize : ℤ) then
          acc.set ni.toNat (acc.getD ni.toNat 0 + oj)
        else acc) a) := by
    intro cs hcs
    induction cs with
    | nil => intro a ha; exact ha
    | cons c cs ih =>
        intro a ha
        rw [List.foldl_cons]
        apply ih (fun x hx => hcs x (List.mem_cons_of_mem c hx))
        by_cases hcond : 0 ≤ (j : ℤ) + (ipwm.getD c []).getD pos 0 ∧
            (j : ℤ) + (ipwm.getD c []).getD pos 0 < (asize : ℤ)
        · simp only [if_pos hcond]
          apply zeroAbove_set ha
          have hc : c < ipwm.length :=
            lt_of_lt_of_le (hcs c (List.mem_cons_self c cs)) hnum
          have hv := col_entry_le_colMax ipwm pos c hc
          rw [Int.toNat_of_nonneg hcond.1]
          omega
        · simp only [if_neg hcond]
          exact ha
  exact hsub (List.range numChars) (fun c hc => List.mem_range.mp hc) acc hacc

theorem qCol_zeroAbove (ipwm : List (List ℤ)) (numChars pos asize : ℕ)
    {b : ℤ} {old : List ℕ} (hold : ZeroAbove b old)
    (hnum : numChars ≤ ipwm.length) :
    ZeroAbove (b + colMax ipwm pos) (qCol ipwm numChars pos asize old) := by
  unfold qCol
  have hsub : ∀ js : List ℕ, ∀ a : List ℕ,
      ZeroAbove (b + colMax ipwm pos) a →
      ZeroAbove (b + colMax ipwm pos) (js.foldl (fun new j =>
        let oj := old.getD j 0
        if oj = 0 then new else qColInner ipwm numChars pos asize j oj new) a) := by
    intro js
    induction js with
    | nil => intro a ha; exact ha
    | cons j js ih =>
        intro a ha
        rw [List.foldl_cons]
        apply ih
        show ZeroAbove (b + colMax ipwm pos)
          (if old.getD j 0 = 0 then a
            else qColInner ipwm numChars pos asize j (old.getD j 0) a)
        by_cases hoj : old.getD j 0 = 0
        · rw [if_pos hoj]
          exact ha
        · rw [if_neg hoj]
          apply qColInner_zeroAbove ipwm numChars pos asize j _ ha hnum
          have hjb : (j : ℤ) ≤ b := by
            by_contra hcontra
            exact hoj (hold j (by omega))
          omega
  exact hsub (List.range asize) _ (zeroAbove_replicate _ _)

theorem maxCsum_succ (ipwm : List (List ℤ)) (n : ℕ) :
    maxCsum ipwm (n + 1) = maxCsum ipwm n + colMax ipwm (n + 1) := by
  unfold maxCsum
  rw [List.range_succ, List.map_append, List.sum_append]
  simp

theorem qDpAll_zeroAbove (ipwm : List (List ℤ)) (w : ℕ) (hw : 1 ≤ w)
    (asize : ℕ) :
    ZeroAbove (maxCsum ipwm (w - 1) - smallestOf ipwm w)
      (qDpAll ipwm ipwm.length w asize (smallestOf ipwm w)) := by
  unfold qDpAll
  have hgen : ∀ n : ℕ,
      ZeroAbove (maxCsum ipwm n - smallestOf ipwm w)
        ((List.range n).foldl
          (fun old k => qCol ipwm ipwm.length (k + 1) asize old)
          (qInit ipwm ipwm.length (smallestOf ipwm w) asize)) := by
    intro n
    induction n with
    | zero =>
        have h0 : maxCsum ipwm 0 = colMax ipwm 0 := by
          unfold maxCsum
          rw [show List.range 1 = [0] from rfl]
          simp
        rw [h0]
        exact qInit_zeroAbove ipwm w hw asize
    | succ n ih =>
        rw [List.range_succ, List.foldl_append]
        simp only [List.foldl_cons, List.foldl_nil]
        have hstep := qCol_zeroAbove ipwm ipwm.length (n + 1) asize ih (le_refl _)
        have heq : maxCsum ipwm n - smallestOf ipwm w + colMax ipwm (n + 1) =
            maxCsum ipwm (n + 1) - smallestOf ipwm w := by
          rw [maxCsum_succ]
          ring
        rw [← heq]
        exact hstep
  exact hgen (w - 1)

/-- The last slot of the mass array is always empty (w >= 1). -/
theorem qMapping_last_zero (ipwm : List (List ℤ))
    (hw : 1 ≤ (ipwm.getD 0 []).length) :
    (qMapping ipwm).getD
      (arraySizeOf ipwm (ipwm.getD 0 []).length - 1) 0 = 0 := by
  set w := (ipwm.getD 0 []).length with hwdef
  set asize := arraySizeOf ipwm w with hadef
  have hasize : w + 1 ≤ asize := arraySizeOf_lower ipwm w hw
  show ((((List.range (asize - 1)).reverse).foldl
      (fun acc i => acc.set i (acc.getD i 0 + acc.getD (i + 1) 0))
      (qDpAll ipwm ipwm.length w asize (smallestOf ipwm w)))).getD
    (asize - 1) 0 = 0
  rw [tailFold_untouched _ _ _ (fun j hj => by
    have hj' : j < asize - 1 := by
      have := List.mem_reverse.mp hj
      simpa using this
    omega)]
  apply qDpAll_zeroAbove ipwm w hw asize
  -- (asize - 1 : N) cast to Z equals largest - smallest, which strictly
  -- exceeds the reachable bound maxCsum (w-1) - smallest
  have hmem : maxCsum ipwm (w - 1) ≤
      listMax ((List.range w).map (maxCsum ipwm)) := by
    apply le_listMax_of_mem
    exact List.mem_map.mpr ⟨w - 1, List.mem_range.mpr (by omega), rfl⟩
  have hsm := smallestOf_le_listMax ipwm w hw
  have hpos : (0 : ℤ) ≤ largestOf ipwm w - smallestOf ipwm w + 1 := by
    rw [largestOf]
    omega
  have hcast : ((asize - 1 : ℕ) : ℤ) =
      largestOf ipwm w - smallestOf ipwm w := by
    have h1 : (asize : ℤ) = largestOf ipwm w - smallestOf ipwm w + 1 := by
      rw [hadef, arraySizeOf, Int.toNat_of_nonneg hpos]
    omega
  rw [hcast, largestOf]
  omega

/-- Inversion of scanSequence membership: every emitted hit comes from
a window position whose score strictly exceeded the threshold, and its
fields are exactly the ones the source fills in. -/
theorem scanSequence_mem {oneHot : List (List ℕ)} {logPwm : List (List ℝ)}
    {st : WithTop ℝ}
    {binSize : ℝ} {smallest : ℤ} {logPdf : List (WithBot ℝ)} {seqIdx : ℕ}
    {strand : Char} {h : Hit}
    (hmem : h ∈ scanSequence oneHot logPwm st binSize smallest logPdf seqIdx
      strand) :
    ∃ pos, pos < (oneHot.getD 0 []).length + 1 - (logPwm.getD 0 []).length ∧
      st < ((scanScore oneHot logPwm pos : ℝ) : WithTop ℝ) ∧
      h = { sequence_idx := seqIdx, start := pos,
            endPos := pos + (logPwm.getD 0 []).length, strand := strand,
            score := scanScore oneHot logPwm pos,
            p_value := pValueOf (scanScore oneHot logPwm pos) binSize smallest
              logPdf } := by
  unfold scanSequence at hmem
  obtain ⟨pos, hpos, hf⟩ := List.mem_filterMap.mp hmem
  refine ⟨pos, List.mem_range.mp hpos, ?_, ?_⟩
  · by_cases hc : st < ((scanScore oneHot logPwm pos : ℝ) : WithTop ℝ)
    · exact hc
    · rw [if_neg hc] at hf
      cases hf
  · by_cases hc : st < ((scanScore oneHot logPwm pos : ℝ) : WithTop ℝ)
    · rw [if_pos hc] at hf
      exact (Option.some.inj hf).symm
    · rw [if_neg hc] at hf
      cases hf

/-- C2: in the FIMO scan, every hit whose window score exceeded the
score threshold carries a p value equal to 2 pow logPdf[kHit] with
kHit = floor(score / binSize) - smallest clamped into [0, size - 1].
For kHit inside the array the clamp is the identity (kHit is provably
nonnegative because the score exceeded a finite threshold of the form
(i + smallest) * binSize), and for kHit past the end the emitted p
value is 0, which equals 2 pow logPdf[size - 1] because the last slot
of the array always holds negative Infinity. -/
theorem C2_scan_pvalue_clamped (logPwm scanPwm : List (List ℝ))
    (oneHot : List (List ℕ)) (binSize logThreshold : ℝ) (hb : 0 < binSize)
    (hw : 1 ≤ ((intRound logPwm binSize).getD 0 []).length)
    (seqIdx : ℕ) (strand : Char) (h : Hit)
    (hmem : h ∈ scanSequence oneHot scanPwm
      (scoreThresholdOf (pwmToMapping logPwm binSize) binSize logThreshold)
      binSize (pwmToMapping logPwm binSize).smallest
      (pwmToMapping logPwm binSize).logPdf seqIdx strand) :
    h.p_value = pow2 ((pwmToMapping logPwm binSize).logPdf.getD
      (min (max (⌊h.score / binSize⌋ - (pwmToMapping logPwm binSize).smallest) 0)
        (((pwmToMapping logPwm binSize).logPdf.length : ℤ) - 1)).toNat ⊥) := by
  set ipwm := intRound logPwm binSize with hipwm
  set w := (ipwm.getD 0 []).length with hwdef
  set mp := pwmToMapping logPwm binSize with hmp
  have hsmall : mp.smallest = smallestOf ipwm w := rfl
  have hlen : mp.logPdf.length = arraySizeOf ipwm w := logPdf_length ipwm
  have hlen2 : w + 1 ≤ arraySizeOf ipwm w := arraySizeOf_lower ipwm w hw
  obtain ⟨pos, hposlt, hst, hh⟩ := scanSequence_mem hmem
  subst hh
  dsimp only
  show pValueOf (scanScore oneHot scanPwm pos) binSize mp.smallest mp.logPdf = _
  set score := scanScore oneHot scanPwm pos with hscore
  -- the threshold is finite of the shape (i + smallest) * binSize
  obtain ⟨i, hi⟩ : ∃ i : ℕ,
      scoreThresholdOf mp binSize logThreshold =
        ((((i : ℤ) + mp.smallest : ℤ) : ℝ) * binSize : ℝ) := by
    unfold scoreThresholdOf at hst ⊢
    cases hfind : findThresholdIdx logThreshold mp.logPdf with
    | none =>
        rw [hfind] at hst
        exact absurd hst (not_top_lt)
    | some i => exact ⟨i, rfl⟩
  rw [hi] at hst
  have hst' : (((i : ℤ) + mp.smallest : ℤ) : ℝ) * binSize < score :=
    WithTop.coe_lt_coe.mp hst
  -- kHit is nonnegative
  have hk0 : 0 ≤ ⌊score / binSize⌋ - mp.smallest := by
    have hlt : (((i : ℤ) + mp.smallest : ℤ) : ℝ) < score / binSize :=
      (lt_div_iff hb).mpr hst'
    have hfl : ((i : ℤ) + mp.smallest) ≤ ⌊score / binSize⌋ :=
      Int.le_floor.mpr (le_of_lt hlt)
    omega
  rw [pValueOf]
  by_cases hkc : ⌊score / binSize⌋ - mp.smallest < (mp.logPdf.length : ℤ)
  · rw [if_pos hkc]
    congr 2
    omega
  · rw [if_neg hkc]
    have hclamp : (min (max (⌊score / binSize⌋ - mp.smallest) 0)
        ((mp.logPdf.length : ℤ) - 1)).toNat = mp.logPdf.length - 1 := by
      omega
    rw [hclamp]
    have hlast : mp.logPdf.getD (mp.logPdf.length - 1) ⊥ = ⊥ := by
      have hbridge : mp.logPdf =
          (qMapping ipwm).map (toLogS (1 + ((ipwm.getD 0 []).length - 1))) :=
        logPdf_eq_qMapping ipwm
      rw [hbridge, getD_map_toLogS, List.length_map, qMapping_length, ← hwdef]
      have hq := qMapping_last_zero ipwm hw
      rw [← hwdef] at hq
      rw [hq, toLogS_zero]
    rw [hlast]
    rfl

/-! ### A concrete fimo run

Motif pwm [[1],[1/4],[1/4],[1/4]] with eps 0 gives log PWM
[[2],[0],[0],[0]]; with binSize 1 the discretized PWM is the same, the
mapping has smallest 0 and logPdf [0, -2, -2, -Infinity], and with
threshold 1/2 the score threshold is 1.  These evaluations feed the
concrete witnesses and counterexamples below. -/

theorem logb_two_zpow (k : ℤ) : Real.logb 2 ((2 : ℝ) ^ k) = (k : ℝ) := by
  rw [← Real.rpow_intCast]
  exact Real.logb_rpow (by norm_num) (by norm_num)

theorem logb_quarter : Real.logb 2 (0.25 : ℝ) = -2 := by
  rw [show (0.25 : ℝ) = (2 : ℝ) ^ (-2 : ℤ) from by norm_num, logb_two_zpow]
  norm_num

theorem logb_half : Real.logb 2 ((1 / 2 : ℝ)) = -1 := by
  rw [show ((1 / 2 : ℝ)) = (2 : ℝ) ^ (-1 : ℤ) from by norm_num, logb_two_zpow]
  norm_num

theorem toLogS_one_four : toLogS 1 4 = ((0 : ℝ) : WithBot ℝ) := by
  rw [toLogS_pos_eq 1 4 (by norm_num)]
  have h : (((((4 : ℕ) : ℚ≥0) / 4 ^ 1) : ℚ≥0) : ℝ) = 1 := by
    push_cast
    norm_num
  rw [h, Real.logb_one]

theorem toLogS_one_one : toLogS 1 1 = ((-2 : ℝ) : WithBot ℝ) := by
  rw [toLogS_pos_eq 1 1 (by norm_num)]
  have h : (((((1 : ℕ) : ℚ≥0) / 4 ^ 1) : ℚ≥0) : ℝ) = (2 : ℝ) ^ (-2 : ℤ) := by
    push_cast
    norm_num
  rw [h, logb_two_zpow]
  norm_num

theorem c1_logPwm_eval :
    logPwmOf [[1], [1 / 4], [1 / 4], [1 / 4]] 0 = [[(2 : ℝ)], [0], [0], [0]] := by
  have hA : Real.logb 2 ((1 : ℝ) + 0) - Real.logb 2 0.25 = 2 := by
    rw [show ((1 : ℝ) + 0) = 1 from by norm_num, Real.logb_one, logb_quarter]
    norm_num
  have hC : Real.logb 2 ((1 / 4 : ℝ) + 0) - Real.logb 2 0.25 = 0 := by
    rw [show ((1 / 4 : ℝ) + 0) = (0.25 : ℝ) from by norm_num, logb_quarter]
    norm_num
  simp only [logPwmOf, List.map_cons, List.map_nil, hA, hC]

theorem c1_intRound :
    intRound [[(2 : ℝ)], [0], [0], [0]] 1 = [[2], [0], [0], [0]] := by
  have h2 : round ((2 : ℝ) / 1) = 2 := by
    rw [show ((2 : ℝ) / 1) = ((2 : ℤ) : ℝ) from by norm_num]
    exact round_intCast _
  have h0 : round ((0 : ℝ) / 1) = 0 := by
    norm_num
  simp only [intRound, List.map_cons, List.map_nil, h2, h0]

theorem c1_qMapping : qMapping [[2], [0], [0], [0]] = [4, 1, 1, 0] := by
  decide

theorem c1_smallest : (pwmToMapping [[(2 : ℝ)], [0], [0], [0]] 1).smallest = 0 := by
  show (pwmToMappingInt (intRound [[(2 : ℝ)], [0], [0], [0]] 1)).smallest = 0
  rw [c1_intRound]
  show smallestOf [[2], [0], [0], [0]] 1 = 0
  decide

/-- The concrete logPdf array of the run. -/
noncomputable def c1logPdf : List (WithBot ℝ) :=
  [((0 : ℝ) : WithBot ℝ), ((-2 : ℝ) : WithBot ℝ), ((-2 : ℝ) : WithBot ℝ), ⊥]

theorem c1_logPdf : (pwmToMapping [[(2 : ℝ)], [0], [0], [0]] 1).logPdf = c1logPdf := by
  show (pwmToMappingInt (intRound [[(2 : ℝ)], [0], [0], [0]] 1)).logPdf = _
  rw [c1_intRound, logPdf_eq_qMapping, c1_qMapping]
  show [toLogS 1 4, toLogS 1 1, toLogS 1 1, toLogS 1 0] = c1logPdf
  rw [toLogS_one_four, toLogS_one_one, toLogS_zero]
  rfl

open Classical in
theorem findThresholdIdx_nil (t : ℝ) : findThresholdIdx t [] = none := rfl

open Classical in
theorem findThresholdIdx_cons (t : ℝ) (x : WithBot ℝ) (rest : List (WithBot ℝ)) :
    findThresholdIdx t (x :: rest) =
      if x < ((t : ℝ) : WithBot ℝ) then some 0
      else (findThresholdIdx t rest).map (· + 1) := rfl

theorem c1_findIdx : findThresholdIdx (-1) c1logPdf = some 1 := by
  rw [c1logPdf, findThresholdIdx_cons,
    if_neg (by
      intro hcontra
      have := WithBot.coe_lt_coe.mp hcontra
      norm_num at this),
    findThresholdIdx_cons,
    if_pos (by
      apply WithBot.coe_lt_coe.mpr
      norm_num)]
  rfl

theorem c1_st :
    scoreThresholdOf (pwmToMapping [[(2 : ℝ)], [0], [0], [0]] 1) 1 (-1) =
      ((1 : ℝ) : WithTop ℝ) := by
  unfold scoreThresholdOf
  rw [c1_logPdf, c1_smallest, c1_findIdx]
  norm_num

theorem scanScore_eval1 :
    scanScore [[1], [0], [0], [0]] [[(2 : ℝ)], [0], [0], [0]] 0 = 2 := by
  show (0 : ℝ) + 2 = 2
  norm_num

theorem pValueOf_eval14 : pValueOf 2 1 0 c1logPdf = 1 / 4 := by
  unfold pValueOf
  rw [show ((2 : ℝ) / 1) = ((2 : ℤ) : ℝ) from by norm_num, Int.floor_intCast]
  have hlen : c1logPdf.length = 4 := rfl
  rw [if_pos (by rw [hlen]; norm_num)]
  show pow2 (c1logPdf.getD (Int.toNat 2) ⊥) = 1 / 4
  rw [show c1logPdf.getD (Int.toNat 2) ⊥ = ((-2 : ℝ) : WithBot ℝ) from rfl]
  show (2 : ℝ) ^ (-2 : ℝ) = 1 / 4
  rw [show ((-2 : ℝ)) = ((-2 : ℤ) : ℝ) from by norm_num, Real.rpow_intCast]
  norm_num

/-- The hit of the single-window witness scan. -/
noncomputable def c2hit : Hit :=
  { sequence_idx := 7, start := 0, endPos := 1, strand := '+',
    score := 2, p_value := 1 / 4 }

theorem c2_scan_eval :
    scanSequence [[1], [0], [0], [0]] [[(2 : ℝ)], [0], [0], [0]]
      ((1 : ℝ) : WithTop ℝ) 1 0 c1logPdf 7 '+' = [c2hit] := by
  unfold scanSequence
  show List.filterMap
      (fun pos =>
        let score := scanScore [[1], [0], [0], [0]] [[(2 : ℝ)], [0], [0], [0]] pos
        if ((1 : ℝ) : WithTop ℝ) < (score : WithTop ℝ) then
          some { sequence_idx := 7, start := pos, endPos := pos + 1, strand := '+',
                 score := score, p_value := pValueOf score 1 0 c1logPdf }
        else none)
      (List.range 1) = [c2hit]
  rw [show List.range 1 = [0] from rfl]
  simp only [List.filterMap_cons, List.filterMap_nil, scanScore_eval1]
  rw [if_pos (WithTop.coe_lt_coe.mpr (by norm_num : (1 : ℝ) < 2)),
    pValueOf_eval14]
  rfl

theorem C2_scan_pvalue_clamped_witness :
    (0 : ℝ) < 1 ∧
    1 ≤ ((intRound [[(2 : ℝ)], [0], [0], [0]] 1).getD 0 []).length ∧
    c2hit.p_value = pow2 ((pwmToMapping [[(2 : ℝ)], [0], [0], [0]] 1).logPdf.getD
      (min (max (⌊c2hit.score / 1⌋ -
          (pwmToMapping [[(2 : ℝ)], [0], [0], [0]] 1).smallest) 0)
        (((pwmToMapping [[(2 : ℝ)], [0], [0], [0]] 1).logPdf.length : ℤ) - 1)).toNat
      ⊥) := by
  have hw : 1 ≤ ((intRound [[(2 : ℝ)], [0], [0], [0]] 1).getD 0 []).length := by
    rw [c1_intRound]
    decide
  have hmem : c2hit ∈ scanSequence [[1], [0], [0], [0]] [[(2 : ℝ)], [0], [0], [0]]
      (scoreThresholdOf (pwmToMapping [[(2 : ℝ)], [0], [0], [0]] 1) 1 (-1))
      1 (pwmToMapping [[(2 : ℝ)], [0], [0], [0]] 1).smallest
      (pwmToMapping [[(2 : ℝ)], [0], [0], [0]] 1).logPdf 7 '+' := by
    rw [c1_st, c1_smallest, c1_logPdf, c2_scan_eval]
    exact List.mem_singleton.mpr rfl
  exact ⟨by norm_num, hw,
    C2_scan_pvalue_clamped [[(2 : ℝ)], [0], [0], [0]] [[(2 : ℝ)], [0], [0], [0]]
      [[1], [0], [0], [0]] 1 (-1) (by norm_num) hw 7 '+' c2hit hmem⟩

/-! ### Claim C1: coordinates of minus strand hits -/

/-- Matrix oneHotEncode builds once every character of the sequence has
resolved to its charMap index: row k of the 4 x n result holds a 1
exactly at the positions whose resolved index equals k. -/
def encInt (idxs : List ℤ) : List (List ℕ) :=
  (List.range 4).map (fun k => idxs.map (fun idx => if idx = (k : ℤ) then 1 else 0))

/-- Range of the charMap under the default DNA alphabet: every resolved
index is -1 (ignored character) or one of the four alphabet indices. -/
theorem charMapGet_dna_range (c : Char) (v : ℤ)
    (h : charMapGet dnaAlphabet ['N'] c = some v) :
    v = -1 ∨ v = 0 ∨ v = 1 ∨ v = 2 ∨ v = 3 := by
  unfold charMapGet at h
  by_cases hn : c ∈ ['N']
  · rw [if_pos hn] at h
    left
    exact (Option.some.inj h).symm
  · rw [if_neg hn] at h
    rw [show dnaAlphabet.reverse = ['T', 'G', 'C', 'A'] from rfl] at h
    by_cases hT : (('T' : Char) == c) = true <;>
      by_cases hG : (('G' : Char) == c) = true <;>
        by_cases hC : (('C' : Char) == c) = true <;>
          by_cases hA : (('A' : Char) == c) = true <;>
            simp only [List.findIdx?_cons, List.findIdx?_nil, hT, hG, hC, hA,
              if_true, if_false, Bool.false_eq_true, dnaAlphabet,
              List.length_cons, List.length_nil] at h <;>
            first
              | exact Option.noConfusion h
              | · have hv := Option.some.inj h
                  omega

/-- A successful Except valued mapM produces a list of the same
length. -/
theorem mapM_ok_length {α β : Type} (f : α → Except String β) :
    ∀ (l : List α) (ys : List β), l.mapM f = Except.ok ys →
      ys.length = l.length
  | [], ys, h => by
      cases Except.ok.inj h
      rfl
  | a :: l, ys, h => by
      rw [List.mapM_cons] at h
      cases hfa : f a with
      | error e =>
          rw [hfa] at h
          exact Except.noConfusion h
      | ok b =>
          rw [hfa] at h
          cases hbs : l.mapM f with
          | error e =>
              rw [hbs] at h
              exact Except.noConfusion h
          | ok bs =>
              rw [hbs] at h
              cases Except.ok.inj h
              rw [List.length_cons, List.length_cons,
                mapM_ok_length f l bs hbs]

/-- Every element of a successful Except valued mapM output is the image
of an element of the input. -/
theorem mapM_ok_mem {α β : Type} (f : α → Except String β) :
    ∀ (l : List α) (ys : List β), l.mapM f = Except.ok ys →
      ∀ y ∈ ys, ∃ x ∈ l, f x = Except.ok y
  | [], ys, h => by
      cases Except.ok.inj h
      intro y hy
      cases hy
  | a :: l, ys, h => by
      rw [List.mapM_cons] at h
      cases hfa : f a with
      | error e =>
          rw [hfa] at h
          exact Except.noConfusion h
      | ok b =>
          rw [hfa] at h
          cases hbs : l.mapM f with
          | error e =>
              rw [hbs] at h
              exact Except.noConfusion h
          | ok bs =>
              rw [hbs] at h
              cases Except.ok.inj h
              intro y hy
              rcases List.mem_cons.mp hy with hyb | hym
              · exact ⟨a, List.mem_cons_self a l, by rw [hfa, hyb]⟩
              · obtain ⟨x, hx, hfx⟩ := mapM_ok_mem f l bs hbs y hym
                exact ⟨x, List.mem_cons_of_mem a hx, hfx⟩

/-- Inversion of a successful oneHotEncode under the default DNA
alphabet: the output is encInt of a resolved index list of the same
length as the input whose entries all lie in the charMap range. -/
theorem oneHotEncode_dna_ok (s : List Char) (oh : List (List ℕ))
    (h : oneHotEncode s dnaAlphabet ['N'] = Except.ok oh) :
    ∃ idxs : List ℤ, idxs.length = s.length ∧
      (∀ v ∈ idxs, v = -1 ∨ v = 0 ∨ v = 1 ∨ v = 2 ∨ v = 3) ∧
      oh = encInt idxs := by
  unfold oneHotEncode at h
  rw [show (['N'].any (fun c => dnaAlphabet.contains c)) = false from rfl] at h
  simp only [Bool.false_eq_true, if_false] at h
  cases hix : s.mapM (fun ch =>
      match charMapGet dnaAlphabet ['N'] ch.toUpper with
      | none => (throw "Character not in alphabet or ignore list" :
          Except String ℤ)
      | some i => pure i) with
  | error e =>
      rw [hix] at h
      exact Except.noConfusion h
  | ok idxs =>
      rw [hix] at h
      refine ⟨idxs, mapM_ok_length _ s idxs hix, ?_, ?_⟩
      · intro v hv
        obtain ⟨x, _, hfx⟩ := mapM_ok_mem _ s idxs hix v hv
        cases hcm : charMapGet dnaAlphabet ['N'] x.toUpper with
        | none =>
            rw [hcm] at hfx
            exact Except.noConfusion hfx
        | some i =>
            rw [hcm] at hfx
            cases Except.ok.inj hfx
            exact charMapGet_dna_range x.toUpper v (by rw [hcm])
      · cases Except.ok.inj h
        rfl

theorem encInt_getD (idxs : List ℤ) (c : ℕ) (hc : c < 4) :
    (encInt idxs).getD c [] =
      idxs.map (fun idx => if idx = (c : ℤ) then 1 else 0) := by
  interval_cases c <;> rfl

theorem getD_reverse {α : Type} (l : List α) (d : α) (i : ℕ)
    (hi : i < l.length) :
    l.reverse.getD i d = l.getD (l.length - 1 - i) d := by
  rw [List.getD_eq_getElem?_getD, List.getD_eq_getElem?_getD,
    List.getElem?_reverse hi]

theorem encInt_entry (idxs : List ℤ) (c j : ℕ) (hc : c < 4)
    (hj : j < idxs.length) :
    ((encInt idxs).getD c []).getD j 0 =
      if idxs.getD j 0 = (c : ℤ) then 1 else 0 := by
  rw [encInt_getD idxs c hc]
  rw [List.getD_eq_getElem?_getD, List.getElem?_map,
    List.getElem?_eq_getElem hj]
  rw [show idxs.getD j 0 = idxs[j] from by
    rw [List.getD_eq_getElem?_getD, List.getElem?_eq_getElem hj]; rfl]
  rfl

theorem rc_encInt_getD (idxs : List ℤ) (c : ℕ) (hc : c < 4) :
    (reverseComplementOneHot (encInt idxs)).getD c [] =
      (idxs.map (fun idx => if idx = ((3 - c : ℕ) : ℤ) then 1 else 0)).reverse := by
  interval_cases c <;> rfl

theorem rc_encInt_entry (idxs : List ℤ) (c j : ℕ) (hc : c < 4)
    (hj : j < idxs.length) :
    ((reverseComplementOneHot (encInt idxs)).getD c []).getD j 0 =
      if idxs.getD (idxs.length - 1 - j) 0 = ((3 - c : ℕ) : ℤ) then 1 else 0 := by
  rw [rc_encInt_getD idxs c hc]
  have hjm : j < (idxs.map
      (fun idx => if idx = ((3 - c : ℕ) : ℤ) then (1 : ℕ) else 0)).length := by
    rw [List.length_map]
    exact hj
  rw [getD_reverse _ _ _ hjm, List.length_map]
  have hj2 : idxs.length - 1 - j < idxs.length := by omega
  rw [List.getD_eq_getElem?_getD, List.getElem?_map,
    List.getElem?_eq_getElem hj2]
  rw [show idxs.getD (idxs.length - 1 - j) 0 = idxs[idxs.length - 1 - j] from by
    rw [List.getD_eq_getElem?_getD, List.getElem?_eq_getElem hj2]; rfl]
  rfl

theorem columnChar_encInt (idxs : List ℤ) (j : ℕ) (hj : j < idxs.length) :
    columnChar (encInt idxs) j =
      if idxs.getD j 0 = 0 then some 0
      else if idxs.getD j 0 = 1 then some 1
      else if idxs.getD j 0 = 2 then some 2
      else if idxs.getD j 0 = 3 then some 3
      else none := by
  have e0 := encInt_entry idxs 0 j (by norm_num) hj
  have e1 := encInt_entry idxs 1 j (by norm_num) hj
  have e2 := encInt_entry idxs 2 j (by norm_num) hj
  have e3 := encInt_entry idxs 3 j (by norm_num) hj
  unfold columnChar
  by_cases h0 : idxs.getD j 0 = 0
  · rw [List.find?_cons_of_pos _ (by rw [e0, if_pos (by exact_mod_cast h0)]; rfl),
      if_pos h0]
  · rw [List.find?_cons_of_neg _ (by rw [e0, if_neg (by exact_mod_cast h0)]; decide),
      if_neg h0]
    by_cases h1 : idxs.getD j 0 = 1
    · rw [List.find?_cons_of_pos _ (by rw [e1, if_pos (by exact_mod_cast h1)]; rfl),
        if_pos h1]
    · rw [List.find?_cons_of_neg _ (by rw [e1, if_neg (by exact_mod_cast h1)]; decide),
        if_neg h1]
      by_cases h2 : idxs.getD j 0 = 2
      · rw [List.find?_cons_of_pos _ (by rw [e2, if_pos (by exact_mod_cast h2)]; rfl),
          if_pos h2]
      · rw [List.find?_cons_of_neg _ (by rw [e2, if_neg (by exact_mod_cast h2)]; decide),
          if_neg h2]
        by_cases h3 : idxs.getD j 0 = 3
        · rw [List.find?_cons_of_pos _ (by rw [e3, if_pos (by exact_mod_cast h3)]; rfl),
            if_pos h3]
        · rw [List.find?_cons_of_neg _ (by rw [e3, if_neg (by exact_mod_cast h3)]; decide),
            if_neg h3]
          rfl

theorem columnChar_rc_encInt (idxs : List ℤ) (j : ℕ) (hj : j < idxs.length) :
    columnChar (reverseComplementOneHot (encInt idxs)) j =
      if idxs.getD (idxs.length - 1 - j) 0 = 3 then some 0
      else if idxs.getD (idxs.length - 1 - j) 0 = 2 then some 1
      else if idxs.getD (idxs.length - 1 - j) 0 = 1 then some 2
      else if idxs.getD (idxs.length - 1 - j) 0 = 0 then some 3
      else none := by
  have e0 := rc_encInt_entry idxs 0 j (by norm_num) hj
  have e1 := rc_encInt_entry idxs 1 j (by norm_num) hj
  have e2 := rc_encInt_entry idxs 2 j (by norm_num) hj
  have e3 := rc_encInt_entry idxs 3 j (by norm_num) hj
  rw [show ((3 - 0 : ℕ) : ℤ) = 3 from rfl] at e0
  rw [show ((3 - 1 : ℕ) : ℤ) = 2 from rfl] at e1
  rw [show ((3 - 2 : ℕ) : ℤ) = 1 from rfl] at e2
  rw [show ((3 - 3 : ℕ) : ℤ) = 0 from rfl] at e3
  unfold columnChar
  by_cases h0 : idxs.getD (idxs.length - 1 - j) 0 = 3
  · rw [List.find?_cons_of_pos _ (by rw [e0, if_pos h0]; rfl), if_pos h0]
  · rw [List.find?_cons_of_neg _ (by rw [e0, if_neg h0]; decide), if_neg h0]
    by_cases h1 : idxs.getD (idxs.length - 1 - j) 0 = 2
    · rw [List.find?_cons_of_pos _ (by rw [e1, if_pos h1]; rfl), if_pos h1]
    · rw [List.find?_cons_of_neg _ (by rw [e1, if_neg h1]; decide), if_neg h1]
      by_cases h2 : idxs.getD (idxs.length - 1 - j) 0 = 1
      · rw [List.find?_cons_of_pos _ (by rw [e2, if_pos h2]; rfl), if_pos h2]
      · rw [List.find?_cons_of_neg _ (by rw [e2, if_neg h2]; decide), if_neg h2]
        by_cases h3 : idxs.getD (idxs.length - 1 - j) 0 = 0
        · rw [List.find?_cons_of_pos _ (by rw [e3, if_pos h3]; rfl), if_pos h3]
        · rw [List.find?_cons_of_neg _ (by rw [e3, if_neg h3]; decide), if_neg h3]
          rfl

/-- One summand of a window score: the log PWM entry of the character
found at motif column mp, or 0 for an all zero one-hot column. -/
noncomputable def scanTerm (oneHot : List (List ℕ)) (logPwm : List (List ℝ))
    (pos mp : ℕ) : ℝ :=
  match columnChar oneHot (pos + mp) with
  | some c => (logPwm.getD c []).getD mp 0
  | none => 0

theorem foldl_add_eq_sum (f : ℕ → ℝ) (a : ℝ) (n : ℕ) :
    (List.range n).foldl (fun s i => s + f i) a =
      a + ∑ i ∈ Finset.range n, f i := by
  induction n generalizing a with
  | zero => simp
  | succ m ih =>
      rw [List.range_succ, List.foldl_append, List.foldl_cons, List.foldl_nil,
        ih, Finset.sum_range_succ]
      ring

theorem scanScore_eq_sum (oneHot : List (List ℕ)) (logPwm : List (List ℝ))
    (pos : ℕ) :
    scanScore oneHot logPwm pos =
      ∑ mp ∈ Finset.range (logPwm.getD 0 []).length,
        scanTerm oneHot logPwm pos mp := by
  unfold scanScore
  have hf : (fun (s : ℝ) (mp : ℕ) =>
      match columnChar oneHot (pos + mp) with
      | some c => s + (logPwm.getD c []).getD mp 0
      | none => s) = fun s mp => s + scanTerm oneHot logPwm pos mp := by
    funext s mp
    unfold scanTerm
    cases h : columnChar oneHot (pos + mp) <;> simp [h]
  rw [hf, foldl_add_eq_sum, zero_add]

theorem rcPwm_getD (lp : List (List ℝ)) (hl : lp.length = 4) (c : ℕ)
    (hc : c < 4) :
    (rcPwm lp).getD c [] = (lp.getD (3 - c) []).reverse := by
  unfold rcPwm
  have hcr : c < lp.reverse.length := by
    rw [List.length_reverse, hl]
    exact hc
  rw [List.getD_eq_getElem?_getD, List.getElem?_map,
    List.getElem?_reverse (by omega : c < lp.length)]
  rw [show lp.length - 1 - c = 3 - c from by omega]
  rw [List.getElem?_eq_getElem (show 3 - c < lp.length from by omega)]
  rw [show lp.getD (3 - c) [] = lp[3 - c] from by
    rw [List.getD_eq_getElem?_getD,
      List.getElem?_eq_getElem (show 3 - c < lp.length from by omega)]; rfl]
  rfl

theorem scanTerm_rc (idxs : List ℤ) (lp : List (List ℝ)) (w : ℕ)
    (hl : lp.length = 4) (hw : ∀ r ∈ lp, r.length = w)
    (hrange : ∀ v ∈ idxs, v = -1 ∨ v = 0 ∨ v = 1 ∨ v = 2 ∨ v = 3)
    (pos mp : ℕ) (hmp : mp < w) (hpw : pos + w ≤ idxs.length) :
    scanTerm (reverseComplementOneHot (encInt idxs)) (rcPwm lp) pos mp =
      scanTerm (encInt idxs) lp (idxs.length - pos - w) (w - 1 - mp) := by
  have hj : pos + mp < idxs.length := by omega
  have hL1 : idxs.length - 1 - (pos + mp) < idxs.length := by omega
  have hidx : (idxs.length - pos - w) + (w - 1 - mp) =
      idxs.length - 1 - (pos + mp) := by omega
  have hrow : ∀ c : ℕ, c < 4 → (lp.getD c []).length = w := fun c hc =>
    hw _ (getD_mem_of_lt lp c [] (by omega))
  unfold scanTerm
  rw [columnChar_rc_encInt idxs (pos + mp) hj, hidx,
    columnChar_encInt idxs (idxs.length - 1 - (pos + mp)) hL1]
  have hvr := hrange _ (getD_mem_of_lt idxs (idxs.length - 1 - (pos + mp)) 0 hL1)
  rcases hvr with h | h | h | h | h <;> rw [h]
  · show (0 : ℝ) = 0
    rfl
  · show ((rcPwm lp).getD 3 []).getD mp 0 = (lp.getD 0 []).getD (w - 1 - mp) 0
    rw [rcPwm_getD lp hl 3 (by norm_num)]
    rw [show (3 - 3 : ℕ) = 0 from rfl]
    rw [getD_reverse _ _ _ (by rw [hrow 0 (by norm_num)]; exact hmp),
      hrow 0 (by norm_num)]
  · show ((rcPwm lp).getD 2 []).getD mp 0 = (lp.getD 1 []).getD (w - 1 - mp) 0
    rw [rcPwm_getD lp hl 2 (by norm_num)]
    rw [show (3 - 2 : ℕ) = 1 from rfl]
    rw [getD_reverse _ _ _ (by rw [hrow 1 (by norm_num)]; exact hmp),
      hrow 1 (by norm_num)]
  · show ((rcPwm lp).getD 1 []).getD mp 0 = (lp.getD 2 []).getD (w - 1 - mp) 0
    rw [rcPwm_getD lp hl 1 (by norm_num)]
    rw [show (3 - 1 : ℕ) = 2 from rfl]
    rw [getD_reverse _ _ _ (by rw [hrow 2 (by norm_num)]; exact hmp),
      hrow 2 (by norm_num)]
  · show ((rcPwm lp).getD 0 []).getD mp 0 = (lp.getD 3 []).getD (w - 1 - mp) 0
    rw [rcPwm_getD lp hl 0 (by norm_num)]
    rw [show (3 - 0 : ℕ) = 3 from rfl]
    rw [getD_reverse _ _ _ (by rw [hrow 3 (by norm_num)]; exact hmp),
      hrow 3 (by norm_num)]

/-- Double reverse complement locality: the score of the minus strand
scan at reverse complement position pos equals the score of the forward
motif against the forward sequence at position len - pos - w. -/
theorem scanScore_rc_eq (idxs : List ℤ) (lp : List (List ℝ)) (w : ℕ)
    (hl : lp.length = 4) (hw : ∀ r ∈ lp, r.length = w)
    (hrange : ∀ v ∈ idxs, v = -1 ∨ v = 0 ∨ v = 1 ∨ v = 2 ∨ v = 3)
    (pos : ℕ) (hpw : pos + w ≤ idxs.length) :
    scanScore (reverseComplementOneHot (encInt idxs)) (rcPwm lp) pos =
      scanScore (encInt idxs) lp (idxs.length - pos - w) := by
  have hw0 : (lp.getD 0 []).length = w :=
    hw _ (getD_mem_of_lt lp 0 [] (by omega))
  have hwrc : ((rcPwm lp).getD 0 []).length = w := by
    rw [rcPwm_getD lp hl 0 (by norm_num), List.length_reverse]
    exact hw _ (getD_mem_of_lt lp 3 [] (by omega))
  rw [scanScore_eq_sum, scanScore_eq_sum, hw0, hwrc]
  rw [← Finset.sum_range_reflect
    (fun mp => scanTerm (encInt idxs) lp (idxs.length - pos - w) mp) w]
  exact Finset.sum_congr rfl (fun mp hmp =>
    scanTerm_rc idxs lp w hl hw hrange pos mp (Finset.mem_range.mp hmp) hpw)

theorem foldlM_acc_mem {β : Type} (g : ℕ → Except String (List β)) :
    ∀ (l : List ℕ) (init out : List β),
      List.foldlM (fun acc i => do
        let hs ← g i
        pure (acc ++ hs)) init l = Except.ok out →
      ∀ h ∈ out, h ∈ init ∨ ∃ i ∈ l, ∃ hs, g i = Except.ok hs ∧ h ∈ hs
  | [], init, out, heq, h, hmem => by
      rw [List.foldlM_nil] at heq
      cases Except.ok.inj heq
      exact Or.inl hmem
  | a :: l, init, out, heq, h, hmem => by
      rw [List.foldlM_cons] at heq
      cases hga : g a with
      | error e =>
          rw [show ((do
              let hs ← g a
              pure (init ++ hs) : Except String (List β))) =
            Except.error e from by rw [hga]; rfl] at heq
          exact Except.noConfusion heq
      | ok hs =>
          rw [show ((do
              let hs ← g a
              pure (init ++ hs) : Except String (List β))) =
            Except.ok (init ++ hs) from by rw [hga]; rfl] at heq
          have hrec := foldlM_acc_mem g l (init ++ hs) out heq h hmem
          rcases hrec with hin | ⟨i, hi, hs2, hgi, hhs⟩
          · rcases List.mem_append.mp hin with hin1 | hin2
            · exact Or.inl hin1
            · exact Or.inr ⟨a, List.mem_cons_self a l, hs, hga, hin2⟩
          · exact Or.inr ⟨i, List.mem_cons_of_mem a hi, hs2, hgi, hhs⟩

/-- C1 amended: every minus strand hit of fimoMotif reports its window
in the coordinate frame of the reverse complemented sequence, not in
forward coordinates: end = start + w with end <= len, and because the
code reverse complements both the one-hot sequence and the log PWM, the
score is the forward motif window score at forward position len - end;
the matched forward window is therefore the mirror window
[len - end, len - start), not [start, end). -/
theorem C1_minus_hits_rc_frame
    (opts : FimoOptions) (sequences : List (List Char))
    (name : String) (pwm : List (List ℝ)) (nm : String) (hits : List Hit)
    (w : ℕ) (halph : opts.alphabet = dnaAlphabet)
    (hl : pwm.length = 4) (hw : ∀ r ∈ pwm, r.length = w)
    (hok : fimoMotif opts sequences name pwm = Except.ok (nm, hits))
    (h : Hit) (hmem : h ∈ hits) (hstrand : h.strand = '-') :
    ∃ seqIdx < sequences.length,
      h.sequence_idx = seqIdx ∧
      h.endPos = h.start + w ∧
      h.endPos ≤ (sequences.getD seqIdx []).length ∧
      ∃ oneHot,
        oneHotEncode ((sequences.getD seqIdx []).map Char.toUpper)
          opts.alphabet ['N'] = Except.ok oneHot ∧
        h.score = scanScore oneHot (logPwmOf pwm opts.eps)
          ((sequences.getD seqIdx []).length - h.endPos) := by
  have hll : (logPwmOf pwm opts.eps).length = 4 := by
    rw [logPwmOf, List.length_map, hl]
  have hlw : ∀ r ∈ logPwmOf pwm opts.eps, r.length = w := by
    intro r hr
    obtain ⟨row, hrow, hr2⟩ := List.mem_map.mp hr
    rw [← hr2, List.length_map]
    exact hw row hrow
  unfold fimoMotif at hok
  simp only [] at hok
  cases hfold : (List.range sequences.length).foldlM
      (fun acc seqIdx => do
        let hs ← fimoSeqHits (logPwmOf pwm opts.eps)
          (pwmToMapping (logPwmOf pwm opts.eps) opts.binSize)
          (scoreThresholdOf (pwmToMapping (logPwmOf pwm opts.eps) opts.binSize)
            opts.binSize (Real.logb 2 opts.threshold))
          opts seqIdx (sequences.getD seqIdx [])
        pure (acc ++ hs))
      ([] : List Hit) with
  | error e =>
      rw [hfold] at hok
      exact Except.noConfusion hok
  | ok hlist =>
      rw [hfold] at hok
      have hpair := Except.ok.inj hok
      have hhits : hlist = hits := congrArg Prod.snd hpair
      subst hhits
      have hinv := foldlM_acc_mem _ _ ([] : List Hit) hlist hfold h hmem
      rcases hinv with hnil | ⟨seqIdx, hsi, hs, hgok, hhs⟩
      · cases hnil
      · refine ⟨seqIdx, List.mem_range.mp hsi, ?_⟩
        set seq := sequences.getD seqIdx [] with hseq
        cases hoh : oneHotEncode (seq.map Char.toUpper) opts.alphabet ['N'] with
        | error e =>
            have herr : fimoSeqHits (logPwmOf pwm opts.eps)
                (pwmToMapping (logPwmOf pwm opts.eps) opts.binSize)
                (scoreThresholdOf
                  (pwmToMapping (logPwmOf pwm opts.eps) opts.binSize)
                  opts.binSize (Real.logb 2 opts.threshold))
                opts seqIdx seq = Except.error e := by
              unfold fimoSeqHits
              rw [hoh] <;> rfl
            rw [herr] at hgok
            exact Except.noConfusion hgok
        | ok oh =>
            obtain ⟨idxs, hilen, hirange, hohe⟩ := oneHotEncode_dna_ok
              (seq.map Char.toUpper) oh (by rw [← halph]; exact hoh)
            have hLlen : idxs.length = seq.length := by
              rw [hilen, List.length_map]
            rw [show (fimoSeqHits (logPwmOf pwm opts.eps)
                (pwmToMapping (logPwmOf pwm opts.eps) opts.binSize)
                (scoreThresholdOf
                  (pwmToMapping (logPwmOf pwm opts.eps) opts.binSize)
                  opts.binSize (Real.logb 2 opts.threshold))
                opts seqIdx seq) =
              (if opts.reverseComplement then
                Except.ok (scanSequence oh (logPwmOf pwm opts.eps)
                  (scoreThresholdOf
                    (pwmToMapping (logPwmOf pwm opts.eps) opts.binSize)
                    opts.binSize (Real.logb 2 opts.threshold))
                  opts.binSize
                  (pwmToMapping (logPwmOf pwm opts.eps) opts.binSize).smallest
                  (pwmToMapping (logPwmOf pwm opts.eps) opts.binSize).logPdf
                  seqIdx '+' ++
                  scanSequence (reverseComplementOneHot oh)
                    (rcPwm (logPwmOf pwm opts.eps))
                    (scoreThresholdOf
                      (pwmToMapping (logPwmOf pwm opts.eps) opts.binSize)
                      opts.binSize (Real.logb 2 opts.threshold))
                    opts.binSize
                    (pwmToMapping (logPwmOf pwm opts.eps) opts.binSize).smallest
                    (pwmToMapping (logPwmOf pwm opts.eps) opts.binSize).logPdf
                    seqIdx '-')
              else
                Except.ok (scanSequence oh (logPwmOf pwm opts.eps)
                  (scoreThresholdOf
                    (pwmToMapping (logPwmOf pwm opts.eps) opts.binSize)
                    opts.binSize (Real.logb 2 opts.threshold))
                  opts.binSize
                  (pwmToMapping (logPwmOf pwm opts.eps) opts.binSize).smallest
                  (pwmToMapping (logPwmOf pwm opts.eps) opts.binSize).logPdf
                  seqIdx '+')) from by
              unfold fimoSeqHits
              rw [hoh] <;> rfl] at hgok
            by_cases hrc : opts.reverseComplement
            · rw [if_pos hrc] at hgok
              have hhs2 := hhs
              rw [← Except.ok.inj hgok] at hhs2
              rcases List.mem_append.mp hhs2 with hfwd | hrcm
              · obtain ⟨pos, _, _, hrec⟩ := scanSequence_mem hfwd
                rw [hrec] at hstrand
                simp at hstrand
              · obtain ⟨pos, hposlt, _, hrec⟩ := scanSequence_mem hrcm
                have hwrc : ((rcPwm (logPwmOf pwm opts.eps)).getD 0 []).length
                    = w := by
                  rw [rcPwm_getD _ hll 0 (by norm_num), List.length_reverse]
                  exact hlw _ (getD_mem_of_lt _ 3 [] (by omega))
                have hseqlen :
                    ((reverseComplementOneHot oh).getD 0 []).length =
                      idxs.length := by
                  rw [hohe, rc_encInt_getD idxs 0 (by norm_num),
                    List.length_reverse, List.length_map]
                rw [hwrc] at hposlt hrec
                rw [hseqlen] at hposlt
                have hposw : pos + w ≤ idxs.length := by omega
                refine ⟨?_, ?_, ?_, oh, rfl, ?_⟩
                · rw [hrec]
                · rw [hrec]
                · rw [hrec]
                  dsimp only
                  omega
                · rw [hrec]
                  show scanScore (reverseComplementOneHot oh)
                      (rcPwm (logPwmOf pwm opts.eps)) pos =
                    scanScore oh (logPwmOf pwm opts.eps) (seq.length - (pos + w))
                  rw [hohe, scanScore_rc_eq idxs (logPwmOf pwm opts.eps) w hll
                    hlw hirange pos hposw, hLlen]
                  rw [show seq.length - pos - w = seq.length - (pos + w) from by
                    omega]
            · rw [if_neg hrc] at hgok
              have hhs2 := hhs
              rw [← Except.ok.inj hgok] at hhs2
              obtain ⟨pos, _, _, hrec⟩ := scanSequence_mem hhs2
              rw [hrec] at hstrand
              simp at hstrand

/-- Options used in the concrete C1 run: default DNA alphabet, bin size
1, eps 0, threshold one half, reverse complement scanning on. -/
noncomputable def c1opts : FimoOptions :=
  { alphabet := dnaAlphabet, binSize := 1, eps := 0, threshold := 1 / 2,
    reverseComplement := true }

/-- The plus strand hit of the concrete C1 run. -/
noncomputable def c1plusHit : Hit :=
  { sequence_idx := 0, start := 0, endPos := 1, strand := '+',
    score := 2, p_value := 1 / 4 }

/-- The minus strand hit of the concrete C1 run. -/
noncomputable def c1minusHit : Hit :=
  { sequence_idx := 0, start := 1, endPos := 2, strand := '-',
    score := 2, p_value := 1 / 4 }

theorem c1_oneHot :
    oneHotEncode (['A', 'C'].map Char.toUpper) c1opts.alphabet ['N'] =
      Except.ok [[1, 0], [0, 1], [0, 0], [0, 0]] := rfl

theorem c1_scanScore_f0 :
    scanScore [[1, 0], [0, 1], [0, 0], [0, 0]] [[(2 : ℝ)], [0], [0], [0]] 0
      = 2 := by
  show (0 : ℝ) + 2 = 2
  norm_num

theorem c1_scanScore_f1 :
    scanScore [[1, 0], [0, 1], [0, 0], [0, 0]] [[(2 : ℝ)], [0], [0], [0]] 1
      = 0 := by
  show (0 : ℝ) + 0 = 0
  norm_num

theorem c1_scanScore_r0 :
    scanScore (reverseComplementOneHot [[1, 0], [0, 1], [0, 0], [0, 0]])
      (rcPwm [[(2 : ℝ)], [0], [0], [0]]) 0 = 0 := by
  show (0 : ℝ) + 0 = 0
  norm_num

theorem c1_scanScore_r1 :
    scanScore (reverseComplementOneHot [[1, 0], [0, 1], [0, 0], [0, 0]])
      (rcPwm [[(2 : ℝ)], [0], [0], [0]]) 1 = 2 := by
  show (0 : ℝ) + 2 = 2
  norm_num

theorem c1_fwd_scan :
    scanSequence [[1, 0], [0, 1], [0, 0], [0, 0]] [[(2 : ℝ)], [0], [0], [0]]
      ((1 : ℝ) : WithTop ℝ) 1 0 c1logPdf 0 '+' = [c1plusHit] := by
  unfold scanSequence
  show List.filterMap
      (fun pos =>
        let score := scanScore [[1, 0], [0, 1], [0, 0], [0, 0]]
          [[(2 : ℝ)], [0], [0], [0]] pos
        if ((1 : ℝ) : WithTop ℝ) < (score : WithTop ℝ) then
          some { sequence_idx := 0, start := pos, endPos := pos + 1,
                 strand := '+', score := score,
                 p_value := pValueOf score 1 0 c1logPdf }
        else none)
      (List.range 2) = [c1plusHit]
  rw [show List.range 2 = [0, 1] from rfl]
  simp only [List.filterMap_cons, List.filterMap_nil, c1_scanScore_f0,
    c1_scanScore_f1]
  rw [if_pos (WithTop.coe_lt_coe.mpr (by norm_num : (1 : ℝ) < 2)),
    if_neg (by rw [WithTop.coe_lt_coe]; norm_num), pValueOf_eval14]
  rfl

theorem c1_rc_scan :
    scanSequence (reverseComplementOneHot [[1, 0], [0, 1], [0, 0], [0, 0]])
      (rcPwm [[(2 : ℝ)], [0], [0], [0]])
      ((1 : ℝ) : WithTop ℝ) 1 0 c1logPdf 0 '-' = [c1minusHit] := by
  unfold scanSequence
  show List.filterMap
      (fun pos =>
        let score := scanScore
          (reverseComplementOneHot [[1, 0], [0, 1], [0, 0], [0, 0]])
          (rcPwm [[(2 : ℝ)], [0], [0], [0]]) pos
        if ((1 : ℝ) : WithTop ℝ) < (score : WithTop ℝ) then
          some { sequence_idx := 0, start := pos, endPos := pos + 1,
                 strand := '-', score := score,
                 p_value := pValueOf score 1 0 c1logPdf }
        else none)
      (List.range 2) = [c1minusHit]
  rw [show List.range 2 = [0, 1] from rfl]
  simp only [List.filterMap_cons, List.filterMap_nil, c1_scanScore_r0,
    c1_scanScore_r1]
  rw [if_neg (by rw [WithTop.coe_lt_coe]; norm_num),
    if_pos (WithTop.coe_lt_coe.mpr (by norm_num : (1 : ℝ) < 2)), pValueOf_eval14]
  rfl

theorem c1_seqHits :
    fimoSeqHits [[(2 : ℝ)], [0], [0], [0]]
      (pwmToMapping [[(2 : ℝ)], [0], [0], [0]] 1) ((1 : ℝ) : WithTop ℝ)
      c1opts 0 ['A', 'C'] = Except.ok [c1plusHit, c1minusHit] := by
  unfold fimoSeqHits
  rw [c1_oneHot]
  show Except.ok
      (scanSequence [[1, 0], [0, 1], [0, 0], [0, 0]] [[(2 : ℝ)], [0], [0], [0]]
        ((1 : ℝ) : WithTop ℝ) c1opts.binSize
        (pwmToMapping [[(2 : ℝ)], [0], [0], [0]] 1).smallest
        (pwmToMapping [[(2 : ℝ)], [0], [0], [0]] 1).logPdf 0 '+' ++
      scanSequence (reverseComplementOneHot [[1, 0], [0, 1], [0, 0], [0, 0]])
        (rcPwm [[(2 : ℝ)], [0], [0], [0]])
        ((1 : ℝ) : WithTop ℝ) c1opts.binSize
        (pwmToMapping [[(2 : ℝ)], [0], [0], [0]] 1).smallest
        (pwmToMapping [[(2 : ℝ)], [0], [0], [0]] 1).logPdf 0 '-') =
    Except.ok [c1plusHit, c1minusHit]
  rw [show c1opts.binSize = (1 : ℝ) from rfl, c1_smallest, c1_logPdf,
    c1_fwd_scan, c1_rc_scan]
  rfl

theorem c1_fimoMotif :
    fimoMotif c1opts [['A', 'C']] "m" [[1], [1 / 4], [1 / 4], [1 / 4]] =
      Except.ok ("m", [c1plusHit, c1minusHit]) := by
  unfold fimoMotif
  simp only [show c1opts.eps = (0 : ℝ) from rfl,
    show c1opts.binSize = (1 : ℝ) from rfl,
    show c1opts.threshold = (1 / 2 : ℝ) from rfl]
  rw [c1_logPwm_eval, logb_half, c1_st]
  rw [show List.range ([['A', 'C']] : List (List Char)).length = [0] from rfl]
  simp only [List.foldlM_cons, List.foldlM_nil,
    show ([['A', 'C']] : List (List Char)).getD 0 [] = ['A', 'C'] from rfl]
  rw [c1_seqHits]
  rfl

/-- Modelled from the spec: the spec states that for a minus strand hit
the start and end fields still index the original forward sequence.
The window matched by the minus strand scan at reverse complement
position rcStart with motif width w in a sequence of length len starts,
in forward sequence coordinates, at len - rcStart - w. -/
def specForwardStart (len w rcStart : ℕ) : ℕ := len - rcStart - w

/-- C1 counterexample: fimo on the single motif preferring A and the
forward sequence AC (reverse complement scanning on) emits the plus
strand hit [0, 1) and the minus strand hit with start 1, end 2.  Both
hits cover the same forward base A at forward position 0; the minus
strand hit's start field is the reverse complement frame position 1,
not the forward coordinate 0 the spec asserts. -/
theorem C1_counterexample :
    fimo [("m", [[1], [1 / 4], [1 / 4], [1 / 4]])] [['A', 'C']] c1opts =
      Except.ok [("m", [c1plusHit, c1minusHit])] ∧
    c1minusHit.strand = '-' ∧ c1minusHit.start = 1 ∧ c1minusHit.endPos = 2 ∧
    c1plusHit.strand = '+' ∧ c1plusHit.start = 0 ∧ c1plusHit.endPos = 1 ∧
    specForwardStart 2 1 c1minusHit.start ≠ c1minusHit.start := by
  refine ⟨?_, rfl, rfl, rfl, rfl, rfl, rfl, by decide⟩
  unfold fimo
  rw [List.mapM_cons]
  rw [show fimoMotif c1opts [['A', 'C']] ("m", [[1], [1 / 4], [1 / 4], [1 / 4]]).1
      ("m", [[1], [1 / 4], [1 / 4], [1 / 4]]).2 =
    Except.ok ("m", [c1plusHit, c1minusHit]) from c1_fimoMotif]
  rfl

theorem C1_minus_hits_rc_frame_witness :
    c1opts.alphabet = dnaAlphabet ∧ c1minusHit.strand = '-' ∧
    ∃ seqIdx < ([[ 'A', 'C' ]] : List (List Char)).length,
      c1minusHit.sequence_idx = seqIdx ∧
      c1minusHit.endPos = c1minusHit.start + 1 ∧
      c1minusHit.endPos ≤ (([[ 'A', 'C' ]] : List (List Char)).getD seqIdx []).length ∧
      ∃ oneHot,
        oneHotEncode ((([[ 'A', 'C' ]] : List (List Char)).getD seqIdx []).map
          Char.toUpper) c1opts.alphabet ['N'] = Except.ok oneHot ∧
        c1minusHit.score = scanScore oneHot
          (logPwmOf [[1], [1 / 4], [1 / 4], [1 / 4]] c1opts.eps)
          ((([[ 'A', 'C' ]] : List (List Char)).getD seqIdx []).length -
            c1minusHit.endPos) :=
  ⟨rfl, rfl,
    C1_minus_hits_rc_frame c1opts [['A', 'C']] "m"
      [[1], [1 / 4], [1 / 4], [1 / 4]] "m" [c1plusHit, c1minusHit] 1 rfl rfl
      (by intro r hr; fin_cases hr <;> rfl) c1_fimoMotif c1minusHit
      (by simp) rfl⟩

/-! ### Claim C5: self comparison in tomtom -/

theorem binnedMedian_range_zero (values counts : List ℝ) (minVal maxVal : ℝ)
    (n : ℕ) (h : maxVal - minVal = 0) :
    binnedMedian values minVal maxVal counts n = minVal := by
  unfold binnedMedian
  rw [if_pos h]

theorem binsOf_fold_bounds (minVal range : ℝ) (nBins : ℕ) (b : ℤ) :
    ∀ (l : List (ℝ × ℝ)) (acc : ℝ × ℝ),
      (∀ p ∈ l, p.1 ≤ 0 ∧ 0 ≤ p.2) → 0 ≤ acc.1 → acc.2 ≤ 0 →
      0 ≤ (l.foldl (fun acc vc =>
          if binIdxOf minVal range nBins vc.1 = b then
            (acc.1 + vc.2, acc.2 + vc.1 * vc.2)
          else acc) acc).1 ∧
        (l.foldl (fun acc vc =>
          if binIdxOf minVal range nBins vc.1 = b then
            (acc.1 + vc.2, acc.2 + vc.1 * vc.2)
          else acc) acc).2 ≤ 0
  | [], acc, _, h1, h2 => ⟨h1, h2⟩
  | p :: l, acc, hl, h1, h2 => by
      rw [List.foldl_cons]
      refine binsOf_fold_bounds minVal range nBins b l _
        (fun x hx => hl x (List.mem_cons_of_mem p hx)) ?_ ?_
      · show 0 ≤ (if binIdxOf minVal range nBins p.1 = b then
          (acc.1 + p.2, acc.2 + p.1 * p.2) else acc).1
        by_cases hb : binIdxOf minVal range nBins p.1 = b
        · rw [if_pos hb]
          exact add_nonneg h1 (hl p (List.mem_cons_self p l)).2
        · rw [if_neg hb]
          exact h1
      · show (if binIdxOf minVal range nBins p.1 = b then
          (acc.1 + p.2, acc.2 + p.1 * p.2) else acc).2 ≤ 0
        by_cases hb : binIdxOf minVal range nBins p.1 = b
        · rw [if_pos hb]
          exact add_nonpos h2
            (mul_nonpos_of_nonpos_of_nonneg (hl p (List.mem_cons_self p l)).1
              (hl p (List.mem_cons_self p l)).2)
        · rw [if_neg hb]
          exact h2

theorem binsOf_bounds (values counts : List ℝ) (minVal range : ℝ) (nBins : ℕ)
    (b : ℤ) (h : ∀ p ∈ values.zip counts, p.1 ≤ 0 ∧ 0 ≤ p.2) :
    0 ≤ (binsOf values counts minVal range nBins b).1 ∧
      (binsOf values counts minVal range nBins b).2 ≤ 0 := by
  unfold binsOf
  exact binsOf_fold_bounds minVal range nBins b (values.zip counts) (0, 0) h
    le_rfl le_rfl

theorem medianWalk_nonpos (bins : ℤ → ℝ × ℝ) (hw minVal maxVal : ℝ)
    (hmin : minVal ≤ 0) (hmax : maxVal ≤ 0)
    (hbins : ∀ b : ℤ, 0 ≤ (bins b).1 ∧ (bins b).2 ≤ 0) :
    ∀ (fuel i : ℕ) (cum : ℝ),
      medianWalk bins hw minVal maxVal fuel i cum ≤ 0
  | 0, _, _ => hmax
  | fuel + 1, i, cum => by
      show (if hw ≤ cum + (bins (i : ℤ)).1 then
          if 0 < (bins (i : ℤ)).1 then (bins (i : ℤ)).2 / (bins (i : ℤ)).1
          else minVal
        else medianWalk bins hw minVal maxVal fuel (i + 1)
          (cum + (bins (i : ℤ)).1)) ≤ 0
      by_cases h1 : hw ≤ cum + (bins (i : ℤ)).1
      · rw [if_pos h1]
        by_cases h2 : 0 < (bins (i : ℤ)).1
        · rw [if_pos h2]
          exact div_nonpos_iff.mpr (Or.inr ⟨(hbins (i : ℤ)).2, (hbins (i : ℤ)).1⟩)
        · rw [if_neg h2]
          exact hmin
      · rw [if_neg h1]
        exact medianWalk_nonpos bins hw minVal maxVal hmin hmax hbins fuel
          (i + 1) (cum + (bins (i : ℤ)).1)

theorem binnedMedian_nonpos (values counts : List ℝ) (minVal maxVal : ℝ)
    (n : ℕ) (hv : ∀ v ∈ values, v ≤ 0) (hc : ∀ c ∈ counts, 0 ≤ c)
    (hmin : minVal ≤ 0) (hmax : maxVal ≤ 0) :
    binnedMedian values minVal maxVal counts n ≤ 0 := by
  unfold binnedMedian
  by_cases h : maxVal - minVal = 0
  · rw [if_pos h]
    exact hmin
  · rw [if_neg h]
    exact medianWalk_nonpos _ _ _ _ hmin hmax
      (fun b => binsOf_bounds values counts minVal (maxVal - minVal) n b
        (fun p hp => ⟨hv p.1 (List.of_mem_zip hp).1, hc p.2 (List.of_mem_zip hp).2⟩))
      n 0 0

theorem foldl_max_le {α : Type} [LinearOrder α] :
    ∀ (l : List α) (a B : α), a ≤ B → (∀ x ∈ l, x ≤ B) → l.foldl max a ≤ B
  | [], a, B, ha, _ => ha
  | x :: l, a, B, ha, hl => by
      rw [List.foldl_cons]
      exact foldl_max_le l (max a x) B
        (max_le ha (hl x (List.mem_cons_self x l)))
        (fun y hy => hl y (List.mem_cons_of_mem x hy))

theorem distEntry_nonpos (query target : List (List ℝ)) (tp qp : ℕ) :
    distEntry query target tp qp ≤ 0 :=
  neg_nonpos.mpr (Real.sqrt_nonneg _)

theorem distEntry_self_diag (q : List (List ℝ)) (p : ℕ) :
    distEntry q q p p = 0 := by
  unfold distEntry
  rw [show List.range 4 = [0, 1, 2, 3] from rfl]
  simp [sub_self]

theorem colMedian_nonpos (q t : List (List ℝ)) (nb qp : ℕ) :
    colMedian q t nb qp ≤ 0 := by
  unfold colMedian
  have hv : ∀ v ∈ (List.range (t.getD 0 []).length).map
      (fun tp => distEntry q t tp qp), v ≤ 0 := by
    intro v hvm
    obtain ⟨tp, _, hvd⟩ := List.mem_map.mp hvm
    rw [← hvd]
    exact distEntry_nonpos q t tp qp
  refine binnedMedian_nonpos _ _ _ _ _ hv ?_ ?_ ?_
  · intro c hcm
    rw [List.eq_of_mem_replicate hcm]
    norm_num
  · cases hl : (List.range (t.getD 0 []).length).map
        (fun tp => distEntry q t tp qp) with
    | nil => exact le_rfl
    | cons h tl =>
        show listMinR (h :: tl) ≤ 0
        have hh : h ≤ 0 := hv h (by rw [hl]; exact List.mem_cons_self h tl)
        calc listMinR (h :: tl) = tl.foldl min h := rfl
          _ ≤ h := foldl_min_le_init tl h
          _ ≤ 0 := hh
  · cases hl : (List.range (t.getD 0 []).length).map
        (fun tp => distEntry q t tp qp) with
    | nil => exact le_rfl
    | cons h tl =>
        show listMaxR (h :: tl) ≤ 0
        refine foldl_max_le tl h 0
          (hv h (by rw [hl]; exact List.mem_cons_self h tl)) ?_
        intro x hx
        exact hv x (by rw [hl]; exact List.mem_cons_of_mem h hx)

theorem centeredDist_le_diag (q : List (List ℝ)) (nb tp qp : ℕ) :
    centeredDist q q nb tp qp ≤ centeredDist q q nb qp qp := by
  unfold centeredDist
  apply sub_le_sub_right
  rw [distEntry_self_diag]
  exact distEntry_nonpos q q tp qp

theorem centeredDist_diag_nonneg (q : List (List ℝ)) (nb qp : ℕ) :
    0 ≤ centeredDist q q nb qp qp := by
  unfold centeredDist
  rw [distEntry_self_diag, zero_sub]
  exact neg_nonneg.mpr (colMedian_nonpos q q nb qp)

theorem offsetScoreOverlap_eq (D : ℕ → ℕ → ℝ) (wt : ℕ) (o : ℤ) :
    ∀ wq, offsetScoreOverlap D wq wt o =
      (∑ qp ∈ Finset.range wq,
        (if 0 ≤ (qp : ℤ) + o ∧ (qp : ℤ) + o < (wt : ℤ) then
          D ((qp : ℤ) + o).toNat qp else 0),
       ∑ qp ∈ Finset.range wq,
        (if 0 ≤ (qp : ℤ) + o ∧ (qp : ℤ) + o < (wt : ℤ) then 1 else 0))
  | 0 => by
      unfold offsetScoreOverlap
      simp
  | wq + 1 => by
      have ih := offsetScoreOverlap_eq D wt o wq
      unfold offsetScoreOverlap at ih ⊢
      rw [List.range_succ, List.foldl_append, List.foldl_cons, List.foldl_nil,
        ih]
      show (if 0 ≤ (wq : ℤ) + o ∧ (wq : ℤ) + o < (wt : ℤ) then
          ((∑ qp ∈ Finset.range wq,
            (if 0 ≤ (qp : ℤ) + o ∧ (qp : ℤ) + o < (wt : ℤ) then
              D ((qp : ℤ) + o).toNat qp else 0)) + D ((wq : ℤ) + o).toNat wq,
           (∑ qp ∈ Finset.range wq,
            (if 0 ≤ (qp : ℤ) + o ∧ (qp : ℤ) + o < (wt : ℤ) then 1 else 0)) + 1)
        else _) = _
      by_cases hc : 0 ≤ (wq : ℤ) + o ∧ (wq : ℤ) + o < (wt : ℤ)
      · rw [if_pos hc, Finset.sum_range_succ, Finset.sum_range_succ,
          if_pos hc, if_pos hc]
      · rw [if_neg hc, Finset.sum_range_succ, Finset.sum_range_succ,
          if_neg hc, if_neg hc, add_zero, add_zero]

theorem offsetScoreOverlap_self_zero (D : ℕ → ℕ → ℝ) (wq : ℕ) :
    offsetScoreOverlap D wq wq 0 =
      (∑ qp ∈ Finset.range wq, D qp qp, wq) := by
  rw [offsetScoreOverlap_eq, Prod.mk.injEq]
  constructor
  · apply Finset.sum_congr rfl
    intro qp hqp
    have hqp2 := Finset.mem_range.mp hqp
    rw [if_pos (by constructor <;> omega), add_zero, Int.toNat_natCast]
  · rw [show ∑ qp ∈ Finset.range wq,
        (if 0 ≤ (qp : ℤ) + 0 ∧ (qp : ℤ) + 0 < (wq : ℤ) then 1 else 0) =
      ∑ qp ∈ Finset.range wq, 1 from Finset.sum_congr rfl (fun qp hqp => by
        have hqp2 := Finset.mem_range.mp hqp
        rw [if_pos (by constructor <;> omega)])]
    rw [Finset.sum_const, Finset.card_range, smul_eq_mul, mul_one]

/-- Core of the C5 claim: the offset 0 self alignment score dominates
the score of every offset, over the centered distance matrix the code
builds for the self comparison. -/
theorem selfScore_dominates (q : List (List ℝ)) (nb wq : ℕ) (o : ℤ) :
    (offsetScoreOverlap (centeredDist q q nb) wq wq o).1 ≤
      (offsetScoreOverlap (centeredDist q q nb) wq wq 0).1 := by
  rw [offsetScoreOverlap_self_zero, offsetScoreOverlap_eq]
  dsimp only
  apply Finset.sum_le_sum
  intro qp hqp
  by_cases hc : 0 ≤ (qp : ℤ) + o ∧ (qp : ℤ) + o < (wq : ℤ)
  · rw [if_pos hc]
    exact centeredDist_le_diag q nb ((qp : ℤ) + o).toNat qp
  · rw [if_neg hc]
    exact centeredDist_diag_nonneg q nb qp

theorem bestFold_lt (D : ℕ → ℕ → ℝ) (wq wt : ℕ) (s0 : ℝ) :
    ∀ (l : List ℤ) (best : WithBot ℝ × ℤ × ℕ),
      best.1 < ((s0 : ℝ) : WithBot ℝ) →
      (∀ o ∈ l, (offsetScoreOverlap D wq wt o).1 < s0) →
      (l.foldl (fun best o =>
        let so := offsetScoreOverlap D wq wt o
        if best.1 < ((so.1 : ℝ) : WithBot ℝ) then
          (((so.1 : ℝ) : WithBot ℝ), o, so.2)
        else best) best).1 < ((s0 : ℝ) : WithBot ℝ)
  | [], best, hb, _ => hb
  | o :: l, best, hb, hl => by
      rw [List.foldl_cons]
      refine bestFold_lt D wq wt s0 l _ ?_
        (fun x hx => hl x (List.mem_cons_of_mem o hx))
      show ((if best.1 <
          (((offsetScoreOverlap D wq wt o).1 : ℝ) : WithBot ℝ) then
          ((((offsetScoreOverlap D wq wt o).1 : ℝ) : WithBot ℝ), o,
            (offsetScoreOverlap D wq wt o).2)
        else best) : WithBot ℝ × ℤ × ℕ).1 < ((s0 : ℝ) : WithBot ℝ)
      by_cases hc : best.1 <
          (((offsetScoreOverlap D wq wt o).1 : ℝ) : WithBot ℝ)
      · rw [if_pos hc]
        exact WithBot.coe_lt_coe.mpr (hl o (List.mem_cons_self o l))
      · rw [if_neg hc]
        exact hb

theorem bestFold_keep (D : ℕ → ℕ → ℝ) (wq wt : ℕ) (s0 : ℝ) (o0 : ℤ)
    (ov0 : ℕ) :
    ∀ l : List ℤ, (∀ o ∈ l, (offsetScoreOverlap D wq wt o).1 ≤ s0) →
      l.foldl (fun best o =>
        let so := offsetScoreOverlap D wq wt o
        if best.1 < ((so.1 : ℝ) : WithBot ℝ) then
          (((so.1 : ℝ) : WithBot ℝ), o, so.2)
        else best) (((s0 : ℝ) : WithBot ℝ), o0, ov0) =
      (((s0 : ℝ) : WithBot ℝ), o0, ov0)
  | [], _ => rfl
  | o :: l, hl => by
      rw [List.foldl_cons]
      dsimp only
      rw [if_neg (not_lt.mpr (WithBot.coe_le_coe.mpr
        (hl o (List.mem_cons_self o l))))]
      exact bestFold_keep D wq wt s0 o0 ov0 l
        (fun x hx => hl x (List.mem_cons_of_mem o hx))

theorem offsetList_split (wq wt : ℕ) (hq : 1 ≤ wq) (ht : 1 ≤ wt) :
    ∃ l2 : List ℤ, offsetList wq wt =
      ((List.range (wq - 1)).map (fun (k : ℕ) => (k : ℤ) - ((wq : ℤ) - 1))) ++
        (0 : ℤ) :: l2 ∧
      ∀ o ∈ l2, ∃ k : ℕ, o = ((k : ℤ) + 1) := by
  unfold offsetList
  refine ⟨((List.range (wt - 1)).map (fun (k : ℕ) => (k : ℤ) + 1)), ?_, ?_⟩
  · rw [show wq - 1 + wt = (wq - 1) + ((wt - 1) + 1) from by omega,
      List.range_add, List.map_append]
    congr 1
    rw [List.map_map, List.range_succ_eq_map, List.map_cons, List.map_map]
    congr 1
    · show ((wq - 1 + 0 : ℕ) : ℤ) - ((wq : ℤ) - 1) = 0
      omega
    · refine List.map_congr_left ?_
      intro k _
      show ((wq - 1 + Nat.succ k : ℕ) : ℤ) - ((wq : ℤ) - 1) = (k : ℤ) + 1
      omega
  · intro o ho
    obtain ⟨k, _, hk⟩ := List.mem_map.mp ho
    exact ⟨k, hk.symm⟩

theorem bestAlignment_of_strict (D : ℕ → ℕ → ℝ) (wq wt : ℕ)
    (hq : 1 ≤ wq) (ht : 1 ≤ wt)
    (hstrict : ∀ o : ℤ, o ≠ 0 →
      (offsetScoreOverlap D wq wt o).1 < (offsetScoreOverlap D wq wt 0).1)
    (hle : ∀ o : ℤ,
      (offsetScoreOverlap D wq wt o).1 ≤ (offsetScoreOverlap D wq wt 0).1) :
    bestAlignment D wq wt =
      ((((offsetScoreOverlap D wq wt 0).1 : ℝ) : WithBot ℝ), 0,
        (offsetScoreOverlap D wq wt 0).2) := by
  obtain ⟨l2, hsplit, hl2⟩ := offsetList_split wq wt hq ht
  unfold bestAlignment
  rw [hsplit, List.foldl_append, List.foldl_cons]
  have hp1 := bestFold_lt D wq wt (offsetScoreOverlap D wq wt 0).1
    ((List.range (wq - 1)).map (fun (k : ℕ) => (k : ℤ) - ((wq : ℤ) - 1)))
    (⊥, 0, 0) (WithBot.bot_lt_coe _)
    (fun o ho => by
      obtain ⟨k, hk, hko⟩ := List.mem_map.mp ho
      have hklt := List.mem_range.mp hk
      exact hstrict o (by rw [← hko]; omega))
  dsimp only
  rw [if_pos hp1]
  exact bestFold_keep D wq wt _ 0 _ l2 (fun o ho => hle o)

theorem calculateAlignment_self (q : List (List ℝ)) (ns nb : ℕ)
    (hq : 1 ≤ (q.getD 0 []).length)
    (hstrict : ∀ o : ℤ, o ≠ 0 →
      (offsetScoreOverlap (centeredDist q q nb) (q.getD 0 []).length
        (q.getD 0 []).length o).1 <
      (offsetScoreOverlap (centeredDist q q nb) (q.getD 0 []).length
        (q.getD 0 []).length 0).1) :
    calculateAlignment q q ns nb =
      { score := (((offsetScoreOverlap (centeredDist q q nb)
            (q.getD 0 []).length (q.getD 0 []).length 0).1 : ℝ) : WithBot ℝ)
        offset := 0
        overlap := (q.getD 0 []).length
        pValue := max (1e-15 : ℝ)
          (Real.exp (-|(offsetScoreOverlap (centeredDist q q nb)
            (q.getD 0 []).length (q.getD 0 []).length 0).1| / 100)) } := by
  have hov : (offsetScoreOverlap (centeredDist q q nb) (q.getD 0 []).length
      (q.getD 0 []).length 0).2 = (q.getD 0 []).length := by
    rw [offsetScoreOverlap_self_zero]
  unfold calculateAlignment
  dsimp only
  rw [bestAlignment_of_strict (centeredDist q q nb) _ _ hq hq hstrict
    (fun o => selfScore_dominates q nb _ o), hov]

/-- C5, amended.  First part (unconditional): the offset 0 self
alignment score dominates every offset's score over the centered
distance matrix of the self comparison.  Second part: the (0, 0) cell
of tomtom([q], [q]) reports offset 0 and overlap wq only under three
further conditions the original claim omits: the dominance at offset 0
is strict (otherwise an earlier, negative offset with the same score is
selected), the self score is nonzero (otherwise the placeholder p value
is 1 and the loop keeps its initializer cell with overlap 0), and the
forward placeholder p value does not exceed the reverse complement one
(otherwise the reverse complement alignment is stored instead). -/
theorem C5_self_alignment (q : List (List ℝ)) (opts : TomtomOptions) :
    (∀ o : ℤ, (offsetScoreOverlap (centeredDist q q opts.nMedianBins)
        (q.getD 0 []).length (q.getD 0 []).length o).1 ≤
      (offsetScoreOverlap (centeredDist q q opts.nMedianBins)
        (q.getD 0 []).length (q.getD 0 []).length 0).1) ∧
    (1 ≤ (q.getD 0 []).length →
      (∀ o : ℤ, o ≠ 0 →
        (offsetScoreOverlap (centeredDist q q opts.nMedianBins)
          (q.getD 0 []).length (q.getD 0 []).length o).1 <
        (offsetScoreOverlap (centeredDist q q opts.nMedianBins)
          (q.getD 0 []).length (q.getD 0 []).length 0).1) →
      (offsetScoreOverlap (centeredDist q q opts.nMedianBins)
        (q.getD 0 []).length (q.getD 0 []).length 0).1 ≠ 0 →
      (calculateAlignment q q opts.nScoreBins opts.nMedianBins).pValue ≤
        (calculateAlignment q (rcPwm q) opts.nScoreBins
          opts.nMedianBins).pValue →
      (tomtomCell opts q q).offset = 0 ∧
      (tomtomCell opts q q).overlap = (q.getD 0 []).length ∧
      (tomtomCell opts q q).score =
        (((offsetScoreOverlap (centeredDist q q opts.nMedianBins)
          (q.getD 0 []).length (q.getD 0 []).length 0).1 : ℝ) : WithBot ℝ) ∧
      (tomtomCell opts q q).strand = 0) := by
  constructor
  · exact fun o => selfScore_dominates q opts.nMedianBins _ o
  · intro hq hstrict hS0 hrcp
    have hca := calculateAlignment_self q opts.nScoreBins opts.nMedianBins hq
      hstrict
    have habs : 0 < |(offsetScoreOverlap (centeredDist q q opts.nMedianBins)
        (q.getD 0 []).length (q.getD 0 []).length 0).1| := abs_pos.mpr hS0
    have hp1 : max (1e-15 : ℝ)
        (Real.exp (-|(offsetScoreOverlap (centeredDist q q opts.nMedianBins)
          (q.getD 0 []).length (q.getD 0 []).length 0).1| / 100)) < 1 := by
      apply max_lt (by norm_num)
      rw [Real.exp_lt_one_iff]
      linarith
    rw [hca] at hrcp
    unfold tomtomCell
    rw [hca]
    dsimp only
    rw [if_pos hp1]
    cases hrcb : opts.reverseComplement with
    | false =>
        rw [if_neg (by simp)]
        exact ⟨rfl, rfl, rfl, rfl⟩
    | true =>
        rw [if_pos rfl]
        rw [if_neg (not_lt.mpr hrcp)]
        exact ⟨rfl, rfl, rfl, rfl⟩

theorem offsetScoreOverlap_oob (D : ℕ → ℕ → ℝ) (wq wt : ℕ) (o : ℤ)
    (h : (wt : ℤ) ≤ o ∨ o + (wq : ℤ) ≤ 0) :
    offsetScoreOverlap D wq wt o = (0, 0) := by
  rw [offsetScoreOverlap_eq, Prod.mk.injEq]
  constructor
  · rw [Finset.sum_congr rfl (fun qp hqp => if_neg (by
      have := Finset.mem_range.mp hqp
      omega)), Finset.sum_const_zero]
  · rw [Finset.sum_congr rfl (fun qp hqp => if_neg (by
      have := Finset.mem_range.mp hqp
      omega)), Finset.sum_const_zero]

/-! Concrete evaluations for the C5 counterexample (width 1 motif). -/

theorem c5a_d_rc : distEntry [[(1 : ℝ)], [0], [0], [0]]
    [[(0 : ℝ)], [0], [0], [1]] 0 0 = -Real.sqrt 2 := by
  unfold distEntry
  rw [show List.range 4 = [0, 1, 2, 3] from rfl]
  show -Real.sqrt ((((1 : ℝ) - 0) ^ 2) + ((((0 : ℝ) - 0) ^ 2) +
    ((((0 : ℝ) - 0) ^ 2) + ((((0 : ℝ) - 1) ^ 2) + 0))) ) = -Real.sqrt 2
  norm_num

theorem c5a_med_fwd : colMedian [[(1 : ℝ)], [0], [0], [0]]
    [[(1 : ℝ)], [0], [0], [0]] 1000 0 = 0 := by
  unfold colMedian
  show binnedMedian
      ((List.range 1).map (fun tp =>
        distEntry [[(1 : ℝ)], [0], [0], [0]] [[(1 : ℝ)], [0], [0], [0]] tp 0))
      (listMinR ((List.range 1).map (fun tp =>
        distEntry [[(1 : ℝ)], [0], [0], [0]] [[(1 : ℝ)], [0], [0], [0]] tp 0)))
      (listMaxR ((List.range 1).map (fun tp =>
        distEntry [[(1 : ℝ)], [0], [0], [0]] [[(1 : ℝ)], [0], [0], [0]] tp 0)))
      (List.replicate ((List.range 1).map (fun tp =>
        distEntry [[(1 : ℝ)], [0], [0], [0]]
          [[(1 : ℝ)], [0], [0], [0]] tp 0)).length 1) 1000 = 0
  have hv : (List.range 1).map (fun tp =>
      distEntry [[(1 : ℝ)], [0], [0], [0]] [[(1 : ℝ)], [0], [0], [0]] tp 0) =
      [(0 : ℝ)] := by
    rw [show List.range 1 = [0] from rfl, List.map_cons, List.map_nil,
      distEntry_self_diag]
  rw [hv, show listMinR [(0 : ℝ)] = 0 from rfl,
    show listMaxR [(0 : ℝ)] = 0 from rfl]
  exact binnedMedian_range_zero _ _ _ _ _ (by norm_num)

theorem c5a_med_rc : colMedian [[(1 : ℝ)], [0], [0], [0]]
    [[(0 : ℝ)], [0], [0], [1]] 1000 0 = -Real.sqrt 2 := by
  unfold colMedian
  show binnedMedian
      ((List.range 1).map (fun tp =>
        distEntry [[(1 : ℝ)], [0], [0], [0]] [[(0 : ℝ)], [0], [0], [1]] tp 0))
      (listMinR ((List.range 1).map (fun tp =>
        distEntry [[(1 : ℝ)], [0], [0], [0]] [[(0 : ℝ)], [0], [0], [1]] tp 0)))
      (listMaxR ((List.range 1).map (fun tp =>
        distEntry [[(1 : ℝ)], [0], [0], [0]] [[(0 : ℝ)], [0], [0], [1]] tp 0)))
      (List.replicate ((List.range 1).map (fun tp =>
        distEntry [[(1 : ℝ)], [0], [0], [0]]
          [[(0 : ℝ)], [0], [0], [1]] tp 0)).length 1) 1000 = -Real.sqrt 2
  have hv : (List.range 1).map (fun tp =>
      distEntry [[(1 : ℝ)], [0], [0], [0]] [[(0 : ℝ)], [0], [0], [1]] tp 0) =
      [-Real.sqrt 2] := by
    rw [show List.range 1 = [0] from rfl, List.map_cons, List.map_nil,
      c5a_d_rc]
  rw [hv, show listMinR [-Real.sqrt 2] = -Real.sqrt 2 from rfl,
    show listMaxR [-Real.sqrt 2] = -Real.sqrt 2 from rfl]
  exact binnedMedian_range_zero _ _ _ _ _ (by ring)

theorem c5a_cd_fwd : centeredDist [[(1 : ℝ)], [0], [0], [0]]
    [[(1 : ℝ)], [0], [0], [0]] 1000 0 0 = 0 := by
  unfold centeredDist
  rw [distEntry_self_diag, c5a_med_fwd, sub_zero]

theorem c5a_cd_rc : centeredDist [[(1 : ℝ)], [0], [0], [0]]
    [[(0 : ℝ)], [0], [0], [1]] 1000 0 0 = 0 := by
  unfold centeredDist
  rw [c5a_d_rc, c5a_med_rc, sub_self]

theorem c5a_best_fwd : bestAlignment
    (centeredDist [[(1 : ℝ)], [0], [0], [0]] [[(1 : ℝ)], [0], [0], [0]] 1000)
    1 1 = (((0 : ℝ) : WithBot ℝ), 0, 1) := by
  unfold bestAlignment
  rw [show offsetList 1 1 = [(0 : ℤ)] from by decide, List.foldl_cons,
    List.foldl_nil]
  dsimp only
  rw [if_pos (WithBot.bot_lt_coe _), offsetScoreOverlap_self_zero,
    Finset.sum_range_one, c5a_cd_fwd]

theorem c5a_best_rc : bestAlignment
    (centeredDist [[(1 : ℝ)], [0], [0], [0]] [[(0 : ℝ)], [0], [0], [1]] 1000)
    1 1 = (((0 : ℝ) : WithBot ℝ), 0, 1) := by
  unfold bestAlignment
  rw [show offsetList 1 1 = [(0 : ℤ)] from by decide, List.foldl_cons,
    List.foldl_nil]
  dsimp only
  rw [if_pos (WithBot.bot_lt_coe _), offsetScoreOverlap_eq]
  dsimp only
  rw [Finset.sum_range_one, Finset.sum_range_one]
  simp only [Nat.cast_zero, Nat.cast_one]
  norm_num
  rw [c5a_cd_rc]

theorem c5a_calc_fwd : calculateAlignment [[(1 : ℝ)], [0], [0], [0]]
    [[(1 : ℝ)], [0], [0], [0]] 100 1000 =
    { score := ((0 : ℝ) : WithBot ℝ), offset := 0, overlap := 1,
      pValue := 1 } := by
  unfold calculateAlignment
  dsimp only
  rw [show (([[(1 : ℝ)], [0], [0], [0]] : List (List ℝ)).getD 0 []).length = 1
    from rfl, c5a_best_fwd]
  rw [Alignment.mk.injEq]
  refine ⟨rfl, rfl, rfl, ?_⟩
  show max (1e-15 : ℝ) (Real.exp (-|(0 : ℝ)| / 100)) = 1
  rw [abs_zero, neg_zero, zero_div, Real.exp_zero]
  norm_num

theorem c5a_calc_rc : calculateAlignment [[(1 : ℝ)], [0], [0], [0]]
    (rcPwm [[(1 : ℝ)], [0], [0], [0]]) 100 1000 =
    { score := ((0 : ℝ) : WithBot ℝ), offset := 0, overlap := 1,
      pValue := 1 } := by
  rw [show rcPwm [[(1 : ℝ)], [0], [0], [0]] = [[(0 : ℝ)], [0], [0], [1]]
    from rfl]
  unfold calculateAlignment
  dsimp only
  rw [show (([[(1 : ℝ)], [0], [0], [0]] : List (List ℝ)).getD 0 []).length = 1
    from rfl,
    show (([[(0 : ℝ)], [0], [0], [1]] : List (List ℝ)).getD 0 []).length = 1
    from rfl, c5a_best_rc]
  rw [Alignment.mk.injEq]
  refine ⟨rfl, rfl, rfl, ?_⟩
  show max (1e-15 : ℝ) (Real.exp (-|(0 : ℝ)| / 100)) = 1
  rw [abs_zero, neg_zero, zero_div, Real.exp_zero]
  norm_num

theorem c5a_cell : tomtomCell tomtomDefaults [[(1 : ℝ)], [0], [0], [0]]
    [[(1 : ℝ)], [0], [0], [0]] =
    { pValue := 1, score := ((0 : ℝ) : WithBot ℝ), offset := 0, overlap := 0,
      strand := 0 } := by
  unfold tomtomCell
  rw [show tomtomDefaults.nScoreBins = 100 from rfl,
    show tomtomDefaults.nMedianBins = 1000 from rfl, c5a_calc_fwd,
    c5a_calc_rc]
  dsimp only
  rw [if_neg (lt_irrefl (1 : ℝ)),
    show tomtomDefaults.reverseComplement = true from rfl,
    if_pos (Eq.refl true), if_neg (lt_irrefl (1 : ℝ))]

/-- C5 counterexample: for the width 1 motif preferring A, the (0, 0)
cell of tomtom([q], [q]) reports overlap 0, not the motif width 1: the
self alignment score is 0, so the placeholder p value is 1, the
strict comparison against the initializer cell (p value 1) fails, and
the initializer values offset 0, overlap 0 are stored. -/
theorem C5_counterexample :
    (tomtom [[[(1 : ℝ)], [0], [0], [0]]] [[[(1 : ℝ)], [0], [0], [0]]]
      tomtomDefaults).overlaps = [[0]] ∧
    (([[(1 : ℝ)], [0], [0], [0]] : List (List ℝ)).getD 0 []).length = 1 ∧
    (0 : ℕ) ≠ 1 := by
  refine ⟨?_, rfl, by decide⟩
  unfold tomtom
  dsimp only
  simp only [List.map_cons, List.map_nil]
  rw [c5a_cell]

/-! Concrete evaluations for the C5 witness (width 2 motif). -/

/-- The width 2 query of the C5 witness run. -/
noncomputable def c5q : List (List ℝ) := [[1, 0], [0, 1], [0, 0], [0, 0]]

/-- Reverse complement of the C5 witness query. -/
noncomputable def c5rcq : List (List ℝ) := [[0, 0], [0, 0], [1, 0], [0, 1]]

theorem c5q_rc : rcPwm c5q = c5rcq := rfl

/-- Options of the C5 witness run: two median bins keep the bucket walk
short. -/
def c5opts : TomtomOptions :=
  { nScoreBins := 2, nMedianBins := 2, nCache := 0, reverseComplement := true }

theorem c5w_d10 : distEntry c5q c5q 1 0 = -Real.sqrt 2 := by
  unfold distEntry
  rw [show List.range 4 = [0, 1, 2, 3] from rfl]
  show -Real.sqrt ((((1 : ℝ) - 0) ^ 2) + ((((0 : ℝ) - 1) ^ 2) +
    ((((0 : ℝ) - 0) ^ 2) + ((((0 : ℝ) - 0) ^ 2) + 0)))) = -Real.sqrt 2
  norm_num

theorem c5w_d01 : distEntry c5q c5q 0 1 = -Real.sqrt 2 := by
  unfold distEntry
  rw [show List.range 4 = [0, 1, 2, 3] from rfl]
  show -Real.sqrt ((((0 : ℝ) - 1) ^ 2) + ((((1 : ℝ) - 0) ^ 2) +
    ((((0 : ℝ) - 0) ^ 2) + ((((0 : ℝ) - 0) ^ 2) + 0)))) = -Real.sqrt 2
  norm_num

theorem c5w_bi_hi : binIdxOf (-Real.sqrt 2) (Real.sqrt 2) 2 0 = 1 := by
  have hs2 : (0 : ℝ) < Real.sqrt 2 := Real.sqrt_pos.mpr (by norm_num)
  unfold binIdxOf
  rw [show ((0 : ℝ) - -Real.sqrt 2) = Real.sqrt 2 from by ring,
    div_self (ne_of_gt hs2)]
  norm_num

theorem c5w_bi_lo : binIdxOf (-Real.sqrt 2) (Real.sqrt 2) 2 (-Real.sqrt 2)
    = 0 := by
  unfold binIdxOf
  rw [sub_self, zero_div, zero_mul]
  norm_num

theorem c5w_bins1 : binsOf [(0 : ℝ), -Real.sqrt 2] [(1 : ℝ), 1]
    (-Real.sqrt 2) (Real.sqrt 2) 2 0 = (1, -Real.sqrt 2) := by
  unfold binsOf
  rw [show ([(0 : ℝ), -Real.sqrt 2].zip [(1 : ℝ), 1]) =
    [((0 : ℝ), (1 : ℝ)), (-Real.sqrt 2, 1)] from rfl]
  rw [List.foldl_cons, List.foldl_cons, List.foldl_nil]
  dsimp only
  rw [c5w_bi_hi, if_neg (by decide : ¬((1 : ℤ) = 0)), c5w_bi_lo,
    if_pos (Eq.refl (0 : ℤ)), Prod.mk.injEq]
  constructor <;> norm_num

theorem c5w_bins2 : binsOf [-Real.sqrt 2, (0 : ℝ)] [(1 : ℝ), 1]
    (-Real.sqrt 2) (Real.sqrt 2) 2 0 = (1, -Real.sqrt 2) := by
  unfold binsOf
  rw [show ([-Real.sqrt 2, (0 : ℝ)].zip [(1 : ℝ), 1]) =
    [(-Real.sqrt 2, (1 : ℝ)), ((0 : ℝ), 1)] from rfl]
  rw [List.foldl_cons, List.foldl_cons, List.foldl_nil]
  dsimp only
  rw [c5w_bi_lo, if_pos (Eq.refl (0 : ℤ)), c5w_bi_hi,
    if_neg (by decide : ¬((1 : ℤ) = 0)), Prod.mk.injEq]
  constructor <;> norm_num

theorem c5w_med1 : binnedMedian [(0 : ℝ), -Real.sqrt 2] (-Real.sqrt 2) 0
    [(1 : ℝ), 1] 2 = -Real.sqrt 2 := by
  have hs2 : (0 : ℝ) < Real.sqrt 2 := Real.sqrt_pos.mpr (by norm_num)
  unfold binnedMedian
  rw [show ((0 : ℝ) - -Real.sqrt 2) = Real.sqrt 2 from by ring]
  dsimp only
  rw [if_neg (ne_of_gt hs2)]
  rw [show (((([(0 : ℝ), -Real.sqrt 2].zip [(1 : ℝ), 1]).map
      (fun vc => vc.2)).sum)) = 2 from by
    rw [show ([(0 : ℝ), -Real.sqrt 2].zip [(1 : ℝ), 1]) =
      [((0 : ℝ), (1 : ℝ)), (-Real.sqrt 2, 1)] from rfl]
    rw [List.map_cons, List.map_cons, List.map_nil]
    norm_num]
  show (if (2 : ℝ) / 2 ≤ 0 + (binsOf [(0 : ℝ), -Real.sqrt 2] [(1 : ℝ), 1]
      (-Real.sqrt 2) (Real.sqrt 2) 2 ((0 : ℕ) : ℤ)).1 then
      if 0 < (binsOf [(0 : ℝ), -Real.sqrt 2] [(1 : ℝ), 1]
          (-Real.sqrt 2) (Real.sqrt 2) 2 ((0 : ℕ) : ℤ)).1 then
        (binsOf [(0 : ℝ), -Real.sqrt 2] [(1 : ℝ), 1]
          (-Real.sqrt 2) (Real.sqrt 2) 2 ((0 : ℕ) : ℤ)).2 /
        (binsOf [(0 : ℝ), -Real.sqrt 2] [(1 : ℝ), 1]
          (-Real.sqrt 2) (Real.sqrt 2) 2 ((0 : ℕ) : ℤ)).1
      else -Real.sqrt 2
    else medianWalk (binsOf [(0 : ℝ), -Real.sqrt 2] [(1 : ℝ), 1]
      (-Real.sqrt 2) (Real.sqrt 2) 2) ((2 : ℝ) / 2) (-Real.sqrt 2) 0 1 1
      (0 + (binsOf [(0 : ℝ), -Real.sqrt 2] [(1 : ℝ), 1]
        (-Real.sqrt 2) (Real.sqrt 2) 2 ((0 : ℕ) : ℤ)).1)) = -Real.sqrt 2
  rw [show (((0 : ℕ)) : ℤ) = (0 : ℤ) from rfl, c5w_bins1]
  norm_num

theorem c5w_med2 : binnedMedian [-Real.sqrt 2, (0 : ℝ)] (-Real.sqrt 2) 0
    [(1 : ℝ), 1] 2 = -Real.sqrt 2 := by
  have hs2 : (0 : ℝ) < Real.sqrt 2 := Real.sqrt_pos.mpr (by norm_num)
  unfold binnedMedian
  rw [show ((0 : ℝ) - -Real.sqrt 2) = Real.sqrt 2 from by ring]
  dsimp only
  rw [if_neg (ne_of_gt hs2)]
  rw [show (((([-Real.sqrt 2, (0 : ℝ)].zip [(1 : ℝ), 1]).map
      (fun vc => vc.2)).sum)) = 2 from by
    rw [show ([-Real.sqrt 2, (0 : ℝ)].zip [(1 : ℝ), 1]) =
      [(-Real.sqrt 2, (1 : ℝ)), ((0 : ℝ), 1)] from rfl]
    rw [List.map_cons, List.map_cons, List.map_nil]
    norm_num]
  show (if (2 : ℝ) / 2 ≤ 0 + (binsOf [-Real.sqrt 2, (0 : ℝ)] [(1 : ℝ), 1]
      (-Real.sqrt 2) (Real.sqrt 2) 2 ((0 : ℕ) : ℤ)).1 then
      if 0 < (binsOf [-Real.sqrt 2, (0 : ℝ)] [(1 : ℝ), 1]
          (-Real.sqrt 2) (Real.sqrt 2) 2 ((0 : ℕ) : ℤ)).1 then
        (binsOf [-Real.sqrt 2, (0 : ℝ)] [(1 : ℝ), 1]
          (-Real.sqrt 2) (Real.sqrt 2) 2 ((0 : ℕ) : ℤ)).2 /
        (binsOf [-Real.sqrt 2, (0 : ℝ)] [(1 : ℝ), 1]
          (-Real.sqrt 2) (Real.sqrt 2) 2 ((0 : ℕ) : ℤ)).1
      else -Real.sqrt 2
    else medianWalk (binsOf [-Real.sqrt 2, (0 : ℝ)] [(1 : ℝ), 1]
      (-Real.sqrt 2) (Real.sqrt 2) 2) ((2 : ℝ) / 2) (-Real.sqrt 2) 0 1 1
      (0 + (binsOf [-Real.sqrt 2, (0 : ℝ)] [(1 : ℝ), 1]
        (-Real.sqrt 2) (Real.sqrt 2) 2 ((0 : ℕ) : ℤ)).1)) = -Real.sqrt 2
  rw [show (((0 : ℕ)) : ℤ) = (0 : ℤ) from rfl, c5w_bins2]
  norm_num

theorem c5w_m0 : colMedian c5q c5q 2 0 = -Real.sqrt 2 := by
  unfold colMedian
  show binnedMedian ((List.range 2).map (fun tp => distEntry c5q c5q tp 0))
      (listMinR ((List.range 2).map (fun tp => distEntry c5q c5q tp 0)))
      (listMaxR ((List.range 2).map (fun tp => distEntry c5q c5q tp 0)))
      (List.replicate ((List.range 2).map
        (fun tp => distEntry c5q c5q tp 0)).length 1) 2 = -Real.sqrt 2
  have hv : (List.range 2).map (fun tp => distEntry c5q c5q tp 0) =
      [(0 : ℝ), -Real.sqrt 2] := by
    rw [show List.range 2 = [0, 1] from rfl, List.map_cons, List.map_cons,
      List.map_nil, distEntry_self_diag, c5w_d10]
  rw [hv]
  rw [show listMinR [(0 : ℝ), -Real.sqrt 2] = -Real.sqrt 2 from
    min_eq_right (neg_nonpos.mpr (Real.sqrt_nonneg 2))]
  rw [show listMaxR [(0 : ℝ), -Real.sqrt 2] = 0 from
    max_eq_left (neg_nonpos.mpr (Real.sqrt_nonneg 2))]
  exact c5w_med1

theorem c5w_m1 : colMedian c5q c5q 2 1 = -Real.sqrt 2 := by
  unfold colMedian
  show binnedMedian ((List.range 2).map (fun tp => distEntry c5q c5q tp 1))
      (listMinR ((List.range 2).map (fun tp => distEntry c5q c5q tp 1)))
      (listMaxR ((List.range 2).map (fun tp => distEntry c5q c5q tp 1)))
      (List.replicate ((List.range 2).map
        (fun tp => distEntry c5q c5q tp 1)).length 1) 2 = -Real.sqrt 2
  have hv : (List.range 2).map (fun tp => distEntry c5q c5q tp 1) =
      [-Real.sqrt 2, (0 : ℝ)] := by
    rw [show List.range 2 = [0, 1] from rfl, List.map_cons, List.map_cons,
      List.map_nil, distEntry_self_diag, c5w_d01]
  rw [hv]
  rw [show listMinR [-Real.sqrt 2, (0 : ℝ)] = -Real.sqrt 2 from
    min_eq_left (neg_nonpos.mpr (Real.sqrt_nonneg 2))]
  rw [show listMaxR [-Real.sqrt 2, (0 : ℝ)] = 0 from
    max_eq_right (neg_nonpos.mpr (Real.sqrt_nonneg 2))]
  exact c5w_med2

theorem c5w_cd00 : centeredDist c5q c5q 2 0 0 = Real.sqrt 2 := by
  unfold centeredDist
  rw [distEntry_self_diag, c5w_m0]
  ring

theorem c5w_cd11 : centeredDist c5q c5q 2 1 1 = Real.sqrt 2 := by
  unfold centeredDist
  rw [distEntry_self_diag, c5w_m1]
  ring

theorem c5w_cd10 : centeredDist c5q c5q 2 1 0 = 0 := by
  unfold centeredDist
  rw [c5w_d10, c5w_m0]
  ring

theorem c5w_cd01 : centeredDist c5q c5q 2 0 1 = 0 := by
  unfold centeredDist
  rw [c5w_d01, c5w_m1]
  ring

theorem c5w_f0 : (offsetScoreOverlap (centeredDist c5q c5q 2) 2 2 0).1 =
    Real.sqrt 2 + Real.sqrt 2 := by
  rw [offsetScoreOverlap_self_zero]
  show ∑ qp ∈ Finset.range 2, centeredDist c5q c5q 2 qp qp =
    Real.sqrt 2 + Real.sqrt 2
  rw [Finset.sum_range_succ, Finset.sum_range_one, c5w_cd00, c5w_cd11]

theorem c5w_fm1 : (offsetScoreOverlap (centeredDist c5q c5q 2) 2 2 (-1)).1
    = 0 := by
  rw [offsetScoreOverlap_eq]
  show (∑ qp ∈ Finset.range 2,
      (if 0 ≤ (qp : ℤ) + (-1) ∧ (qp : ℤ) + (-1) < ((2 : ℕ) : ℤ) then
        centeredDist c5q c5q 2 ((qp : ℤ) + (-1)).toNat qp else 0)) = 0
  rw [Finset.sum_range_succ, Finset.sum_range_one]
  simp only [Nat.cast_zero, Nat.cast_one, Nat.cast_ofNat]
  rw [if_neg (by decide : ¬((0 : ℤ) ≤ 0 + (-1) ∧ (0 : ℤ) + (-1) < 2)),
    if_pos (by decide : (0 : ℤ) ≤ 1 + (-1) ∧ (1 : ℤ) + (-1) < 2),
    show ((1 : ℤ) + (-1)).toNat = 0 from rfl, c5w_cd01]
  norm_num

theorem c5w_f1 : (offsetScoreOverlap (centeredDist c5q c5q 2) 2 2 1).1
    = 0 := by
  rw [offsetScoreOverlap_eq]
  show (∑ qp ∈ Finset.range 2,
      (if 0 ≤ (qp : ℤ) + 1 ∧ (qp : ℤ) + 1 < ((2 : ℕ) : ℤ) then
        centeredDist c5q c5q 2 ((qp : ℤ) + 1).toNat qp else 0)) = 0
  rw [Finset.sum_range_succ, Finset.sum_range_one]
  simp only [Nat.cast_zero, Nat.cast_one, Nat.cast_ofNat]
  rw [if_pos (by decide : (0 : ℤ) ≤ 0 + 1 ∧ (0 : ℤ) + 1 < 2),
    if_neg (by decide : ¬((0 : ℤ) ≤ 1 + 1 ∧ (1 : ℤ) + 1 < 2)),
    show ((0 : ℤ) + 1).toNat = 1 from rfl, c5w_cd10]
  norm_num

theorem c5w_strict : ∀ o : ℤ, o ≠ 0 →
    (offsetScoreOverlap (centeredDist c5q c5q 2) 2 2 o).1 <
      (offsetScoreOverlap (centeredDist c5q c5q 2) 2 2 0).1 := by
  intro o ho
  have hs2 : (0 : ℝ) < Real.sqrt 2 := Real.sqrt_pos.mpr (by norm_num)
  rw [c5w_f0]
  have hcase : o ≤ -2 ∨ o = -1 ∨ o = 1 ∨ 2 ≤ o := by omega
  rcases hcase with h | h | h | h
  · rw [offsetScoreOverlap_oob _ _ _ o (Or.inr (by push_cast; omega))]
    dsimp only
    linarith
  · rw [h, c5w_fm1]
    linarith
  · rw [h, c5w_f1]
    linarith
  · rw [offsetScoreOverlap_oob _ _ _ o (Or.inl (by push_cast; omega))]
    dsimp only
    linarith

theorem c5w_e00 : distEntry c5q c5rcq 0 0 = -Real.sqrt 2 := by
  unfold distEntry
  rw [show List.range 4 = [0, 1, 2, 3] from rfl]
  show -Real.sqrt ((((1 : ℝ) - 0) ^ 2) + ((((0 : ℝ) - 0) ^ 2) +
    ((((0 : ℝ) - 1) ^ 2) + ((((0 : ℝ) - 0) ^ 2) + 0)))) = -Real.sqrt 2
  norm_num

theorem c5w_e10 : distEntry c5q c5rcq 1 0 = -Real.sqrt 2 := by
  unfold distEntry
  rw [show List.range 4 = [0, 1, 2, 3] from rfl]
  show -Real.sqrt ((((1 : ℝ) - 0) ^ 2) + ((((0 : ℝ) - 0) ^ 2) +
    ((((0 : ℝ) - 0) ^ 2) + ((((0 : ℝ) - 1) ^ 2) + 0)))) = -Real.sqrt 2
  norm_num

theorem c5w_e01 : distEntry c5q c5rcq 0 1 = -Real.sqrt 2 := by
  unfold distEntry
  rw [show List.range 4 = [0, 1, 2, 3] from rfl]
  show -Real.sqrt ((((0 : ℝ) - 0) ^ 2) + ((((1 : ℝ) - 0) ^ 2) +
    ((((0 : ℝ) - 1) ^ 2) + ((((0 : ℝ) - 0) ^ 2) + 0)))) = -Real.sqrt 2
  norm_num

theorem c5w_e11 : distEntry c5q c5rcq 1 1 = -Real.sqrt 2 := by
  unfold distEntry
  rw [show List.range 4 = [0, 1, 2, 3] from rfl]
  show -Real.sqrt ((((0 : ℝ) - 0) ^ 2) + ((((1 : ℝ) - 0) ^ 2) +
    ((((0 : ℝ) - 0) ^ 2) + ((((0 : ℝ) - 1) ^ 2) + 0)))) = -Real.sqrt 2
  norm_num

theorem c5w_rcm0 : colMedian c5q c5rcq 2 0 = -Real.sqrt 2 := by
  unfold colMedian
  show binnedMedian ((List.range 2).map (fun tp => distEntry c5q c5rcq tp 0))
      (listMinR ((List.range 2).map (fun tp => distEntry c5q c5rcq tp 0)))
      (listMaxR ((List.range 2).map (fun tp => distEntry c5q c5rcq tp 0)))
      (List.replicate ((List.range 2).map
        (fun tp => distEntry c5q c5rcq tp 0)).length 1) 2 = -Real.sqrt 2
  have hv : (List.range 2).map (fun tp => distEntry c5q c5rcq tp 0) =
      [-Real.sqrt 2, -Real.sqrt 2] := by
    rw [show List.range 2 = [0, 1] from rfl, List.map_cons, List.map_cons,
      List.map_nil, c5w_e00, c5w_e10]
  rw [hv]
  rw [show listMinR [-Real.sqrt 2, -Real.sqrt 2] = -Real.sqrt 2 from
    min_self _]
  rw [show listMaxR [-Real.sqrt 2, -Real.sqrt 2] = -Real.sqrt 2 from
    max_self _]
  exact binnedMedian_range_zero _ _ _ _ _ (by ring)

theorem c5w_rcm1 : colMedian c5q c5rcq 2 1 = -Real.sqrt 2 := by
  unfold colMedian
  show binnedMedian ((List.range 2).map (fun tp => distEntry c5q c5rcq tp 1))
      (listMinR ((List.range 2).map (fun tp => distEntry c5q c5rcq tp 1)))
      (listMaxR ((List.range 2).map (fun tp => distEntry c5q c5rcq tp 1)))
      (List.replicate ((List.range 2).map
        (fun tp => distEntry c5q c5rcq tp 1)).length 1) 2 = -Real.sqrt 2
  have hv : (List.range 2).map (fun tp => distEntry c5q c5rcq tp 1) =
      [-Real.sqrt 2, -Real.sqrt 2] := by
    rw [show List.range 2 = [0, 1] from rfl, List.map_cons, List.map_cons,
      List.map_nil, c5w_e01, c5w_e11]
  rw [hv]
  rw [show listMinR [-Real.sqrt 2, -Real.sqrt 2] = -Real.sqrt 2 from
    min_self _]
  rw [show listMaxR [-Real.sqrt 2, -Real.sqrt 2] = -Real.sqrt 2 from
    max_self _]
  exact binnedMedian_range_zero _ _ _ _ _ (by ring)

theorem c5w_rccd00 : centeredDist c5q c5rcq 2 0 0 = 0 := by
  unfold centeredDist
  rw [c5w_e00, c5w_rcm0]
  ring

theorem c5w_rccd10 : centeredDist c5q c5rcq 2 1 0 = 0 := by
  unfold centeredDist
  rw [c5w_e10, c5w_rcm0]
  ring

theorem c5w_rccd01 : centeredDist c5q c5rcq 2 0 1 = 0 := by
  unfold centeredDist
  rw [c5w_e01, c5w_rcm1]
  ring

theorem c5w_rccd11 : centeredDist c5q c5rcq 2 1 1 = 0 := by
  unfold centeredDist
  rw [c5w_e11, c5w_rcm1]
  ring

theorem c5w_rcfm1 : offsetScoreOverlap (centeredDist c5q c5rcq 2) 2 2 (-1)
    = (0, 1) := by
  rw [offsetScoreOverlap_eq]
  rw [Prod.mk.injEq]
  constructor
  · show (∑ qp ∈ Finset.range 2,
        (if 0 ≤ (qp : ℤ) + (-1) ∧ (qp : ℤ) + (-1) < ((2 : ℕ) : ℤ) then
          centeredDist c5q c5rcq 2 ((qp : ℤ) + (-1)).toNat qp else 0)) = 0
    rw [Finset.sum_range_succ, Finset.sum_range_one]
    simp only [Nat.cast_zero, Nat.cast_one, Nat.cast_ofNat]
    rw [if_neg (by decide : ¬((0 : ℤ) ≤ 0 + (-1) ∧ (0 : ℤ) + (-1) < 2)),
      if_pos (by decide : (0 : ℤ) ≤ 1 + (-1) ∧ (1 : ℤ) + (-1) < 2),
      show ((1 : ℤ) + (-1)).toNat = 0 from rfl, c5w_rccd01]
    norm_num
  · show (∑ qp ∈ Finset.range 2,
        (if 0 ≤ (qp : ℤ) + (-1) ∧ (qp : ℤ) + (-1) < ((2 : ℕ) : ℤ) then 1
          else 0)) = 1
    rw [Finset.sum_range_succ, Finset.sum_range_one]
    simp only [Nat.cast_zero, Nat.cast_one, Nat.cast_ofNat]
    rw [if_neg (by decide : ¬((0 : ℤ) ≤ 0 + (-1) ∧ (0 : ℤ) + (-1) < 2)),
      if_pos (by decide : (0 : ℤ) ≤ 1 + (-1) ∧ (1 : ℤ) + (-1) < 2)]

theorem c5w_rcf0 : offsetScoreOverlap (centeredDist c5q c5rcq 2) 2 2 0
    = (0, 2) := by
  rw [offsetScoreOverlap_self_zero, Prod.mk.injEq]
  constructor
  · show (∑ qp ∈ Finset.range 2, centeredDist c5q c5rcq 2 qp qp) = 0
    rw [Finset.sum_range_succ, Finset.sum_range_one, c5w_rccd00, c5w_rccd11]
    norm_num
  · rfl

theorem c5w_rcf1 : offsetScoreOverlap (centeredDist c5q c5rcq 2) 2 2 1
    = (0, 1) := by
  rw [offsetScoreOverlap_eq]
  rw [Prod.mk.injEq]
  constructor
  · show (∑ qp ∈ Finset.range 2,
        (if 0 ≤ (qp : ℤ) + 1 ∧ (qp : ℤ) + 1 < ((2 : ℕ) : ℤ) then
          centeredDist c5q c5rcq 2 ((qp : ℤ) + 1).toNat qp else 0)) = 0
    rw [Finset.sum_range_succ, Finset.sum_range_one]
    simp only [Nat.cast_zero, Nat.cast_one, Nat.cast_ofNat]
    rw [if_pos (by decide : (0 : ℤ) ≤ 0 + 1 ∧ (0 : ℤ) + 1 < 2),
      if_neg (by decide : ¬((0 : ℤ) ≤ 1 + 1 ∧ (1 : ℤ) + 1 < 2)),
      show ((0 : ℤ) + 1).toNat = 1 from rfl, c5w_rccd10]
    norm_num
  · show (∑ qp ∈ Finset.range 2,
        (if 0 ≤ (qp : ℤ) + 1 ∧ (qp : ℤ) + 1 < ((2 : ℕ) : ℤ) then 1
          else 0)) = 1
    rw [Finset.sum_range_succ, Finset.sum_range_one]
    simp only [Nat.cast_zero, Nat.cast_one, Nat.cast_ofNat]
    rw [if_pos (by decide : (0 : ℤ) ≤ 0 + 1 ∧ (0 : ℤ) + 1 < 2),
      if_neg (by decide : ¬((0 : ℤ) ≤ 1 + 1 ∧ (1 : ℤ) + 1 < 2))]

theorem c5w_best_rc : bestAlignment (centeredDist c5q c5rcq 2) 2 2 =
    (((0 : ℝ) : WithBot ℝ), -1, 1) := by
  unfold bestAlignment
  rw [show offsetList 2 2 = [(-1 : ℤ), 0, 1] from by decide]
  rw [List.foldl_cons, List.foldl_cons, List.foldl_cons, List.foldl_nil]
  dsimp only
  rw [c5w_rcfm1, c5w_rcf0, c5w_rcf1]
  dsimp only
  rw [if_pos (WithBot.bot_lt_coe _), if_neg (lt_irrefl _),
    if_neg (lt_irrefl _)]

theorem c5w_rc_pv : (calculateAlignment c5q (rcPwm c5q) 2 2).pValue = 1 := by
  rw [c5q_rc]
  unfold calculateAlignment
  dsimp only
  rw [show ((c5q.getD 0 []).length) = 2 from rfl,
    show ((c5rcq.getD 0 []).length) = 2 from rfl, c5w_best_rc]
  show max (1e-15 : ℝ) (Real.exp (-|(0 : ℝ)| / 100)) = 1
  rw [abs_zero, neg_zero, zero_div, Real.exp_zero]
  norm_num

theorem C5_self_alignment_witness :
    (1 ≤ ((c5q.getD 0 []).length)) ∧
    ((offsetScoreOverlap (centeredDist c5q c5q c5opts.nMedianBins)
      (c5q.getD 0 []).length (c5q.getD 0 []).length 0).1 ≠ 0) ∧
    (calculateAlignment c5q c5q c5opts.nScoreBins c5opts.nMedianBins).pValue ≤
      (calculateAlignment c5q (rcPwm c5q) c5opts.nScoreBins
        c5opts.nMedianBins).pValue ∧
    (tomtomCell c5opts c5q c5q).offset = 0 ∧
    (tomtomCell c5opts c5q c5q).overlap = (c5q.getD 0 []).length ∧
    (tomtomCell c5opts c5q c5q).strand = 0 := by
  have hs2 : (0 : ℝ) < Real.sqrt 2 := Real.sqrt_pos.mpr (by norm_num)
  have hq : 1 ≤ ((c5q.getD 0 []).length) := by
    rw [show ((c5q.getD 0 []).length) = 2 from rfl]
    norm_num
  have hstrict : ∀ o : ℤ, o ≠ 0 →
      (offsetScoreOverlap (centeredDist c5q c5q c5opts.nMedianBins)
        (c5q.getD 0 []).length (c5q.getD 0 []).length o).1 <
      (offsetScoreOverlap (centeredDist c5q c5q c5opts.nMedianBins)
        (c5q.getD 0 []).length (c5q.getD 0 []).length 0).1 := c5w_strict
  have hS0 : (offsetScoreOverlap (centeredDist c5q c5q c5opts.nMedianBins)
      (c5q.getD 0 []).length (c5q.getD 0 []).length 0).1 ≠ 0 := by
    show (offsetScoreOverlap (centeredDist c5q c5q 2) 2 2 0).1 ≠ 0
    rw [c5w_f0]
    linarith
  have hrcp : (calculateAlignment c5q c5q c5opts.nScoreBins
      c5opts.nMedianBins).pValue ≤
      (calculateAlignment c5q (rcPwm c5q) c5opts.nScoreBins
        c5opts.nMedianBins).pValue := by
    show (calculateAlignment c5q c5q 2 2).pValue ≤
      (calculateAlignment c5q (rcPwm c5q) 2 2).pValue
    rw [c5w_rc_pv,
      calculateAlignment_self c5q 2 2 hq (by exact c5w_strict)]
    show max (1e-15 : ℝ)
      (Real.exp (-|(offsetScoreOverlap (centeredDist c5q c5q 2)
        (c5q.getD 0 []).length (c5q.getD 0 []).length 0).1| / 100)) ≤ 1
    apply max_le (by norm_num)
    rw [Real.exp_le_one_iff]
    exact div_nonpos_iff.mpr (Or.inr ⟨neg_nonpos.mpr (abs_nonneg _),
      by norm_num⟩)
  obtain ⟨hoff, hov, hsc, hstr⟩ :=
    (C5_self_alignment c5q c5opts).2 hq hstrict hS0 hrcp
  exact ⟨hq, hS0, hrcp, hoff, hov, hstr⟩

/-! ### Claim C4: strand selection in tomtom -/

theorem calculateAlignment_pValue_le_one (q t : List (List ℝ)) (ns nb : ℕ) :
    (calculateAlignment q t ns nb).pValue ≤ 1 := by
  unfold calculateAlignment
  dsimp only
  cases hb : (bestAlignment (centeredDist q t nb) (q.getD 0 []).length
      (t.getD 0 []).length).1 with
  | bot =>
      show (1e-15 : ℝ) ≤ 1
      norm_num
  | coe s =>
      show max (1e-15 : ℝ) (Real.exp (-|s| / 100)) ≤ 1
      apply max_le (by norm_num)
      rw [Real.exp_le_one_iff]
      exact div_nonpos_iff.mpr (Or.inr ⟨neg_nonpos.mpr (abs_nonneg _),
        by norm_num⟩)

/-- C4, amended: with reverseComplement on, the comparisons in tomtom
are between the placeholder p values of the two orientations, not
between their scores.  strand = 1 exactly when the reverse complement
alignment has a strictly smaller placeholder p value than the forward
one (both p values are clamped below at 1e-15, so two large scores of
either order compare as equal); the stored cell is the reverse
complement alignment in that case, the forward alignment when its p
value is below 1, and otherwise the initializer cell pValue 1, score 0,
offset 0, overlap 0, strand 0. -/
theorem C4_strand_rule (opts : TomtomOptions) (q t : List (List ℝ))
    (hrc : opts.reverseComplement = true) :
    ((tomtomCell opts q t).strand = 1 ↔
      (calculateAlignment q (rcPwm t) opts.nScoreBins opts.nMedianBins).pValue
        < (calculateAlignment q t opts.nScoreBins opts.nMedianBins).pValue) ∧
    ((calculateAlignment q (rcPwm t) opts.nScoreBins opts.nMedianBins).pValue
        < (calculateAlignment q t opts.nScoreBins opts.nMedianBins).pValue →
      tomtomCell opts q t =
        { pValue := (calculateAlignment q (rcPwm t) opts.nScoreBins
            opts.nMedianBins).pValue
          score := (calculateAlignment q (rcPwm t) opts.nScoreBins
            opts.nMedianBins).score
          offset := (calculateAlignment q (rcPwm t) opts.nScoreBins
            opts.nMedianBins).offset
          overlap := (calculateAlignment q (rcPwm t) opts.nScoreBins
            opts.nMedianBins).overlap
          strand := 1 }) ∧
    (¬ (calculateAlignment q (rcPwm t) opts.nScoreBins
        opts.nMedianBins).pValue <
        (calculateAlignment q t opts.nScoreBins opts.nMedianBins).pValue →
      (calculateAlignment q t opts.nScoreBins opts.nMedianBins).pValue < 1 →
      tomtomCell opts q t =
        { pValue := (calculateAlignment q t opts.nScoreBins
            opts.nMedianBins).pValue
          score := (calculateAlignment q t opts.nScoreBins
            opts.nMedianBins).score
          offset := (calculateAlignment q t opts.nScoreBins
            opts.nMedianBins).offset
          overlap := (calculateAlignment q t opts.nScoreBins
            opts.nMedianBins).overlap
          strand := 0 }) ∧
    (¬ (calculateAlignment q (rcPwm t) opts.nScoreBins
        opts.nMedianBins).pValue <
        (calculateAlignment q t opts.nScoreBins opts.nMedianBins).pValue →
      ¬ (calculateAlignment q t opts.nScoreBins opts.nMedianBins).pValue
        < 1 →
      tomtomCell opts q t =
        { pValue := 1, score := ((0 : ℝ) : WithBot ℝ), offset := 0,
          overlap := 0, strand := 0 }) := by
  have hfle := calculateAlignment_pValue_le_one q t opts.nScoreBins
    opts.nMedianBins
  by_cases hf : (calculateAlignment q t opts.nScoreBins
      opts.nMedianBins).pValue < 1
  · by_cases hr : (calculateAlignment q (rcPwm t) opts.nScoreBins
        opts.nMedianBins).pValue <
        (calculateAlignment q t opts.nScoreBins opts.nMedianBins).pValue
    · have hcell : tomtomCell opts q t =
          { pValue := (calculateAlignment q (rcPwm t) opts.nScoreBins
              opts.nMedianBins).pValue
            score := (calculateAlignment q (rcPwm t) opts.nScoreBins
              opts.nMedianBins).score
            offset := (calculateAlignment q (rcPwm t) opts.nScoreBins
              opts.nMedianBins).offset
            overlap := (calculateAlignment q (rcPwm t) opts.nScoreBins
              opts.nMedianBins).overlap
            strand := 1 } := by
        unfold tomtomCell
        rw [hrc, if_pos (Eq.refl true), if_pos hf]
        dsimp only
        rw [if_pos hr]
      rw [hcell]
      exact ⟨⟨fun _ => hr, fun _ => rfl⟩, fun _ => rfl,
        fun hcon _ => absurd hr hcon, fun hcon _ => absurd hr hcon⟩
    · have hcell : tomtomCell opts q t =
          { pValue := (calculateAlignment q t opts.nScoreBins
              opts.nMedianBins).pValue
            score := (calculateAlignment q t opts.nScoreBins
              opts.nMedianBins).score
            offset := (calculateAlignment q t opts.nScoreBins
              opts.nMedianBins).offset
            overlap := (calculateAlignment q t opts.nScoreBins
              opts.nMedianBins).overlap
            strand := 0 } := by
        unfold tomtomCell
        rw [hrc, if_pos (Eq.refl true), if_pos hf]
        dsimp only
        rw [if_neg hr]
      rw [hcell]
      refine ⟨⟨fun h0 => absurd h0 (by simp), fun h0 => absurd h0 hr⟩,
        fun h0 => absurd h0 hr, fun _ _ => rfl, fun _ hcon => absurd hf hcon⟩
  · have hfe : (calculateAlignment q t opts.nScoreBins
        opts.nMedianBins).pValue = 1 := le_antisymm hfle (not_lt.mp hf)
    by_cases hr : (calculateAlignment q (rcPwm t) opts.nScoreBins
        opts.nMedianBins).pValue <
        (calculateAlignment q t opts.nScoreBins opts.nMedianBins).pValue
    · have hcell : tomtomCell opts q t =
          { pValue := (calculateAlignment q (rcPwm t) opts.nScoreBins
              opts.nMedianBins).pValue
            score := (calculateAlignment q (rcPwm t) opts.nScoreBins
              opts.nMedianBins).score
            offset := (calculateAlignment q (rcPwm t) opts.nScoreBins
              opts.nMedianBins).offset
            overlap := (calculateAlignment q (rcPwm t) opts.nScoreBins
              opts.nMedianBins).overlap
            strand := 1 } := by
        unfold tomtomCell
        rw [hrc, if_pos (Eq.refl true), if_neg hf]
        dsimp only
        rw [if_pos (by rw [hfe] at hr; exact hr)]
      rw [hcell]
      exact ⟨⟨fun _ => hr, fun _ => rfl⟩, fun _ => rfl,
        fun hcon _ => absurd hr hcon, fun hcon _ => absurd hr hcon⟩
    · have hcell : tomtomCell opts q t =
          { pValue := 1, score := ((0 : ℝ) : WithBot ℝ), offset := 0,
            overlap := 0, strand := 0 } := by
        unfold tomtomCell
        rw [hrc, if_pos (Eq.refl true), if_neg hf]
        dsimp only
        rw [if_neg (by rw [hfe] at hr; exact hr)]
      rw [hcell]
      refine ⟨⟨fun h0 => absurd h0 (by simp), fun h0 => absurd h0 hr⟩,
        fun h0 => absurd h0 hr, fun _ hcon => absurd hcon hf,
        fun _ _ => rfl⟩

theorem binIdxOf_min (x y : ℝ) (hxy : x < y) : binIdxOf x (y - x) 2 x = 0 := by
  unfold binIdxOf
  rw [sub_self, zero_div, zero_mul]
  norm_num

theorem binIdxOf_max (x y : ℝ) (hxy : x < y) : binIdxOf x (y - x) 2 y = 1 := by
  unfold binIdxOf
  rw [div_self (ne_of_gt (sub_pos.mpr hxy))]
  norm_num

theorem binsOf_pair1 (x y : ℝ) (hxy : x < y) :
    binsOf [x, y] [(1 : ℝ), 1] x (y - x) 2 0 = (1, x) := by
  unfold binsOf
  rw [show ([x, y].zip [(1 : ℝ), 1]) = [(x, (1 : ℝ)), (y, 1)] from rfl]
  rw [List.foldl_cons, List.foldl_cons, List.foldl_nil]
  dsimp only
  rw [binIdxOf_min x y hxy, if_pos (Eq.refl (0 : ℤ)), binIdxOf_max x y hxy,
    if_neg (by decide : ¬((1 : ℤ) = 0)), Prod.mk.injEq]
  constructor <;> ring

theorem binsOf_pair2 (x y : ℝ) (hxy : x < y) :
    binsOf [y, x] [(1 : ℝ), 1] x (y - x) 2 0 = (1, x) := by
  unfold binsOf
  rw [show ([y, x].zip [(1 : ℝ), 1]) = [(y, (1 : ℝ)), (x, 1)] from rfl]
  rw [List.foldl_cons, List.foldl_cons, List.foldl_nil]
  dsimp only
  rw [binIdxOf_max x y hxy, if_neg (by decide : ¬((1 : ℤ) = 0)),
    binIdxOf_min x y hxy, if_pos (Eq.refl (0 : ℤ)), Prod.mk.injEq]
  constructor <;> ring

theorem binnedMedian_pair1 (x y : ℝ) (hxy : x < y) :
    binnedMedian [x, y] x y [(1 : ℝ), 1] 2 = x := by
  unfold binnedMedian
  dsimp only
  rw [if_neg (show ¬(y - x = 0) from ne_of_gt (sub_pos.mpr hxy))]
  rw [show (((([x, y].zip [(1 : ℝ), 1]).map (fun vc => vc.2)).sum)) = 2
    from by
      rw [show ([x, y].zip [(1 : ℝ), 1]) = [(x, (1 : ℝ)), (y, 1)] from rfl,
        List.map_cons, List.map_cons, List.map_nil]
      norm_num]
  show (if (2 : ℝ) / 2 ≤ 0 + (binsOf [x, y] [(1 : ℝ), 1] x (y - x) 2
      ((0 : ℕ) : ℤ)).1 then
      if 0 < (binsOf [x, y] [(1 : ℝ), 1] x (y - x) 2 ((0 : ℕ) : ℤ)).1 then
        (binsOf [x, y] [(1 : ℝ), 1] x (y - x) 2 ((0 : ℕ) : ℤ)).2 /
        (binsOf [x, y] [(1 : ℝ), 1] x (y - x) 2 ((0 : ℕ) : ℤ)).1
      else x
    else medianWalk (binsOf [x, y] [(1 : ℝ), 1] x (y - x) 2) ((2 : ℝ) / 2)
      x y 1 1 (0 + (binsOf [x, y] [(1 : ℝ), 1] x (y - x) 2
        ((0 : ℕ) : ℤ)).1)) = x
  rw [show (((0 : ℕ)) : ℤ) = (0 : ℤ) from rfl, binsOf_pair1 x y hxy]
  norm_num

theorem binnedMedian_pair2 (x y : ℝ) (hxy : x < y) :
    binnedMedian [y, x] x y [(1 : ℝ), 1] 2 = x := by
  unfold binnedMedian
  dsimp only
  rw [if_neg (show ¬(y - x = 0) from ne_of_gt (sub_pos.mpr hxy))]
  rw [show (((([y, x].zip [(1 : ℝ), 1]).map (fun vc => vc.2)).sum)) = 2
    from by
      rw [show ([y, x].zip [(1 : ℝ), 1]) = [(y, (1 : ℝ)), (x, 1)] from rfl,
        List.map_cons, List.map_cons, List.map_nil]
      norm_num]
  show (if (2 : ℝ) / 2 ≤ 0 + (binsOf [y, x] [(1 : ℝ), 1] x (y - x) 2
      ((0 : ℕ) : ℤ)).1 then
      if 0 < (binsOf [y, x] [(1 : ℝ), 1] x (y - x) 2 ((0 : ℕ) : ℤ)).1 then
        (binsOf [y, x] [(1 : ℝ), 1] x (y - x) 2 ((0 : ℕ) : ℤ)).2 /
        (binsOf [y, x] [(1 : ℝ), 1] x (y - x) 2 ((0 : ℕ) : ℤ)).1
      else x
    else medianWalk (binsOf [y, x] [(1 : ℝ), 1] x (y - x) 2) ((2 : ℝ) / 2)
      x y 1 1 (0 + (binsOf [y, x] [(1 : ℝ), 1] x (y - x) 2
        ((0 : ℕ) : ℤ)).1)) = x
  rw [show (((0 : ℕ)) : ℤ) = (0 : ℤ) from rfl, binsOf_pair2 x y hxy]
  norm_num

theorem exp_le_clamp (x : ℝ) (hx : x ≤ -200) : Real.exp x ≤ 1e-15 := by
  have h1 : Real.exp x ≤ Real.exp (-200) := Real.exp_le_exp.mpr hx
  have h3 : (11 : ℝ) ≤ Real.exp 10 := by
    have := Real.add_one_le_exp (10 : ℝ)
    linarith
  have h2 : (11 : ℝ) ^ (20 : ℕ) ≤ Real.exp 200 := by
    calc (11 : ℝ) ^ (20 : ℕ) ≤ (Real.exp 10) ^ (20 : ℕ) :=
          pow_le_pow_left (by norm_num) h3 20
      _ = Real.exp ((20 : ℕ) * 10) := (Real.exp_nat_mul 10 20).symm
      _ = Real.exp 200 := by norm_num
  have h5 : (0 : ℝ) < (11 : ℝ) ^ (20 : ℕ) := by positivity
  have h6 : Real.exp (-200) ≤ 1 / (11 : ℝ) ^ (20 : ℕ) := by
    rw [Real.exp_neg, inv_eq_one_div]
    exact one_div_le_one_div_of_le h5 h2
  have h7 : (1 : ℝ) / (11 : ℝ) ^ (20 : ℕ) ≤ 1e-15 := by norm_num
  linarith

/-- Query of the C4 counterexample. -/
noncomputable def c4q : List (List ℝ) :=
  [[30000, 0], [0, 30000], [0, 0], [0, 0]]

/-- Target of the C4 counterexample. -/
noncomputable def c4t : List (List ℝ) :=
  [[0, 0], [0, 0], [40000, 0], [0, 0]]

/-- Reverse complement of the C4 target. -/
noncomputable def c4rct : List (List ℝ) :=
  [[0, 0], [0, 40000], [0, 0], [0, 0]]

theorem c4t_rc : rcPwm c4t = c4rct := rfl

/-- Options of the C4 counterexample run. -/
def c4opts : TomtomOptions :=
  { nScoreBins := 2, nMedianBins := 2, nCache := 0, reverseComplement := true }

theorem c4_d00 : distEntry c4q c4t 0 0 = -50000 := by
  unfold distEntry
  rw [show List.range 4 = [0, 1, 2, 3] from rfl]
  show -Real.sqrt ((((30000 : ℝ) - 0) ^ 2) + ((((0 : ℝ) - 0) ^ 2) +
    ((((0 : ℝ) - 40000) ^ 2) + ((((0 : ℝ) - 0) ^ 2) + 0)))) = -(50000 : ℝ)
  rw [show (((30000 : ℝ) - 0) ^ 2) + ((((0 : ℝ) - 0) ^ 2) +
      ((((0 : ℝ) - 40000) ^ 2) + ((((0 : ℝ) - 0) ^ 2) + 0))) =
    ((50000 : ℝ)) ^ 2 from by norm_num,
    Real.sqrt_sq (by norm_num : (0 : ℝ) ≤ 50000)]

theorem c4_d10 : distEntry c4q c4t 1 0 = -30000 := by
  unfold distEntry
  rw [show List.range 4 = [0, 1, 2, 3] from rfl]
  show -Real.sqrt ((((30000 : ℝ) - 0) ^ 2) + ((((0 : ℝ) - 0) ^ 2) +
    ((((0 : ℝ) - 0) ^ 2) + ((((0 : ℝ) - 0) ^ 2) + 0)))) = -(30000 : ℝ)
  rw [show (((30000 : ℝ) - 0) ^ 2) + ((((0 : ℝ) - 0) ^ 2) +
      ((((0 : ℝ) - 0) ^ 2) + ((((0 : ℝ) - 0) ^ 2) + 0))) =
    ((30000 : ℝ)) ^ 2 from by norm_num,
    Real.sqrt_sq (by norm_num : (0 : ℝ) ≤ 30000)]

theorem c4_d01 : distEntry c4q c4t 0 1 = -50000 := by
  unfold distEntry
  rw [show List.range 4 = [0, 1, 2, 3] from rfl]
  show -Real.sqrt ((((0 : ℝ) - 0) ^ 2) + ((((30000 : ℝ) - 0) ^ 2) +
    ((((0 : ℝ) - 40000) ^ 2) + ((((0 : ℝ) - 0) ^ 2) + 0)))) = -(50000 : ℝ)
  rw [show (((0 : ℝ) - 0) ^ 2) + ((((30000 : ℝ) - 0) ^ 2) +
      ((((0 : ℝ) - 40000) ^ 2) + ((((0 : ℝ) - 0) ^ 2) + 0))) =
    ((50000 : ℝ)) ^ 2 from by norm_num,
    Real.sqrt_sq (by norm_num : (0 : ℝ) ≤ 50000)]

theorem c4_d11 : distEntry c4q c4t 1 1 = -30000 := by
  unfold distEntry
  rw [show List.range 4 = [0, 1, 2, 3] from rfl]
  show -Real.sqrt ((((0 : ℝ) - 0) ^ 2) + ((((30000 : ℝ) - 0) ^ 2) +
    ((((0 : ℝ) - 0) ^ 2) + ((((0 : ℝ) - 0) ^ 2) + 0)))) = -(30000 : ℝ)
  rw [show (((0 : ℝ) - 0) ^ 2) + ((((30000 : ℝ) - 0) ^ 2) +
      ((((0 : ℝ) - 0) ^ 2) + ((((0 : ℝ) - 0) ^ 2) + 0))) =
    ((30000 : ℝ)) ^ 2 from by norm_num,
    Real.sqrt_sq (by norm_num : (0 : ℝ) ≤ 30000)]

theorem c4_e00 : distEntry c4q c4rct 0 0 = -30000 := by
  unfold distEntry
  rw [show List.range 4 = [0, 1, 2, 3] from rfl]
  show -Real.sqrt ((((30000 : ℝ) - 0) ^ 2) + ((((0 : ℝ) - 0) ^ 2) +
    ((((0 : ℝ) - 0) ^ 2) + ((((0 : ℝ) - 0) ^ 2) + 0)))) = -(30000 : ℝ)
  rw [show (((30000 : ℝ) - 0) ^ 2) + ((((0 : ℝ) - 0) ^ 2) +
      ((((0 : ℝ) - 0) ^ 2) + ((((0 : ℝ) - 0) ^ 2) + 0))) =
    ((30000 : ℝ)) ^ 2 from by norm_num,
    Real.sqrt_sq (by norm_num : (0 : ℝ) ≤ 30000)]

theorem c4_e10 : distEntry c4q c4rct 1 0 = -50000 := by
  unfold distEntry
  rw [show List.range 4 = [0, 1, 2, 3] from rfl]
  show -Real.sqrt ((((30000 : ℝ) - 0) ^ 2) + ((((0 : ℝ) - 40000) ^ 2) +
    ((((0 : ℝ) - 0) ^ 2) + ((((0 : ℝ) - 0) ^ 2) + 0)))) = -(50000 : ℝ)
  rw [show (((30000 : ℝ) - 0) ^ 2) + ((((0 : ℝ) - 40000) ^ 2) +
      ((((0 : ℝ) - 0) ^ 2) + ((((0 : ℝ) - 0) ^ 2) + 0))) =
    ((50000 : ℝ)) ^ 2 from by norm_num,
    Real.sqrt_sq (by norm_num : (0 : ℝ) ≤ 50000)]

theorem c4_e01 : distEntry c4q c4rct 0 1 = -30000 := by
  unfold distEntry
  rw [show List.range 4 = [0, 1, 2, 3] from rfl]
  show -Real.sqrt ((((0 : ℝ) - 0) ^ 2) + ((((30000 : ℝ) - 0) ^ 2) +
    ((((0 : ℝ) - 0) ^ 2) + ((((0 : ℝ) - 0) ^ 2) + 0)))) = -(30000 : ℝ)
  rw [show (((0 : ℝ) - 0) ^ 2) + ((((30000 : ℝ) - 0) ^ 2) +
      ((((0 : ℝ) - 0) ^ 2) + ((((0 : ℝ) - 0) ^ 2) + 0))) =
    ((30000 : ℝ)) ^ 2 from by norm_num,
    Real.sqrt_sq (by norm_num : (0 : ℝ) ≤ 30000)]

theorem c4_e11 : distEntry c4q c4rct 1 1 = -10000 := by
  unfold distEntry
  rw [show List.range 4 = [0, 1, 2, 3] from rfl]
  show -Real.sqrt ((((0 : ℝ) - 0) ^ 2) + ((((30000 : ℝ) - 40000) ^ 2) +
    ((((0 : ℝ) - 0) ^ 2) + ((((0 : ℝ) - 0) ^ 2) + 0)))) = -(10000 : ℝ)
  rw [show (((0 : ℝ) - 0) ^ 2) + ((((30000 : ℝ) - 40000) ^ 2) +
      ((((0 : ℝ) - 0) ^ 2) + ((((0 : ℝ) - 0) ^ 2) + 0))) =
    ((10000 : ℝ)) ^ 2 from by norm_num,
    Real.sqrt_sq (by norm_num : (0 : ℝ) ≤ 10000)]

theorem c4_m0 : colMedian c4q c4t 2 0 = -50000 := by
  unfold colMedian
  show binnedMedian ((List.range 2).map (fun tp => distEntry c4q c4t tp 0))
      (listMinR ((List.range 2).map (fun tp => distEntry c4q c4t tp 0)))
      (listMaxR ((List.range 2).map (fun tp => distEntry c4q c4t tp 0)))
      (List.replicate ((List.range 2).map
        (fun tp => distEntry c4q c4t tp 0)).length 1) 2 = -50000
  have hv : (List.range 2).map (fun tp => distEntry c4q c4t tp 0) =
      [(-50000 : ℝ), -30000] := by
    rw [show List.range 2 = [0, 1] from rfl, List.map_cons, List.map_cons,
      List.map_nil, c4_d00, c4_d10]
  rw [hv,
    show listMinR [(-50000 : ℝ), -30000] = -50000 from
      min_eq_left (by norm_num),
    show listMaxR [(-50000 : ℝ), -30000] = -30000 from
      max_eq_right (by norm_num)]
  exact binnedMedian_pair1 (-50000) (-30000) (by norm_num)

theorem c4_m1 : colMedian c4q c4t 2 1 = -50000 := by
  unfold colMedian
  show binnedMedian ((List.range 2).map (fun tp => distEntry c4q c4t tp 1))
      (listMinR ((List.range 2).map (fun tp => distEntry c4q c4t tp 1)))
      (listMaxR ((List.range 2).map (fun tp => distEntry c4q c4t tp 1)))
      (List.replicate ((List.range 2).map
        (fun tp => distEntry c4q c4t tp 1)).length 1) 2 = -50000
  have hv : (List.range 2).map (fun tp => distEntry c4q c4t tp 1) =
      [(-50000 : ℝ), -30000] := by
    rw [show List.range 2 = [0, 1] from rfl, List.map_cons, List.map_cons,
      List.map_nil, c4_d01, c4_d11]
  rw [hv,
    show listMinR [(-50000 : ℝ), -30000] = -50000 from
      min_eq_left (by norm_num),
    show listMaxR [(-50000 : ℝ), -30000] = -30000 from
      max_eq_right (by norm_num)]
  exact binnedMedian_pair1 (-50000) (-30000) (by norm_num)

theorem c4_n0 : colMedian c4q c4rct 2 0 = -50000 := by
  unfold colMedian
  show binnedMedian ((List.range 2).map (fun tp => distEntry c4q c4rct tp 0))
      (listMinR ((List.range 2).map (fun tp => distEntry c4q c4rct tp 0)))
      (listMaxR ((List.range 2).map (fun tp => distEntry c4q c4rct tp 0)))
      (List.replicate ((List.range 2).map
        (fun tp => distEntry c4q c4rct tp 0)).length 1) 2 = -50000
  have hv : (List.range 2).map (fun tp => distEntry c4q c4rct tp 0) =
      [(-30000 : ℝ), -50000] := by
    rw [show List.range 2 = [0, 1] from rfl, List.map_cons, List.map_cons,
      List.map_nil, c4_e00, c4_e10]
  rw [hv,
    show listMinR [(-30000 : ℝ), -50000] = -50000 from
      min_eq_right (by norm_num),
    show listMaxR [(-30000 : ℝ), -50000] = -30000 from
      max_eq_left (by norm_num)]
  exact binnedMedian_pair2 (-50000) (-30000) (by norm_num)

theorem c4_n1 : colMedian c4q c4rct 2 1 = -30000 := by
  unfold colMedian
  show binnedMedian ((List.range 2).map (fun tp => distEntry c4q c4rct tp 1))
      (listMinR ((List.range 2).map (fun tp => distEntry c4q c4rct tp 1)))
      (listMaxR ((List.range 2).map (fun tp => distEntry c4q c4rct tp 1)))
      (List.replicate ((List.range 2).map
        (fun tp => distEntry c4q c4rct tp 1)).length 1) 2 = -30000
  have hv : (List.range 2).map (fun tp => distEntry c4q c4rct tp 1) =
      [(-30000 : ℝ), -10000] := by
    rw [show List.range 2 = [0, 1] from rfl, List.map_cons, List.map_cons,
      List.map_nil, c4_e01, c4_e11]
  rw [hv,
    show listMinR [(-30000 : ℝ), -10000] = -30000 from
      min_eq_left (by norm_num),
    show listMaxR [(-30000 : ℝ), -10000] = -10000 from
      max_eq_right (by norm_num)]
  exact binnedMedian_pair1 (-30000) (-10000) (by norm_num)

theorem c4_cd00 : centeredDist c4q c4t 2 0 0 = 0 := by
  unfold centeredDist
  rw [c4_d00, c4_m0]
  ring

theorem c4_cd10 : centeredDist c4q c4t 2 1 0 = 20000 := by
  unfold centeredDist
  rw [c4_d10, c4_m0]
  ring

theorem c4_cd01 : centeredDist c4q c4t 2 0 1 = 0 := by
  unfold centeredDist
  rw [c4_d01, c4_m1]
  ring

theorem c4_cd11 : centeredDist c4q c4t 2 1 1 = 20000 := by
  unfold centeredDist
  rw [c4_d11, c4_m1]
  ring

theorem c4_ce00 : centeredDist c4q c4rct 2 0 0 = 20000 := by
  unfold centeredDist
  rw [c4_e00, c4_n0]
  ring

theorem c4_ce10 : centeredDist c4q c4rct 2 1 0 = 0 := by
  unfold centeredDist
  rw [c4_e10, c4_n0]
  ring

theorem c4_ce01 : centeredDist c4q c4rct 2 0 1 = 0 := by
  unfold centeredDist
  rw [c4_e01, c4_n1]
  ring

theorem c4_ce11 : centeredDist c4q c4rct 2 1 1 = 20000 := by
  unfold centeredDist
  rw [c4_e11, c4_n1]
  ring

theorem c4_fm1 : offsetScoreOverlap (centeredDist c4q c4t 2) 2 2 (-1)
    = (0, 1) := by
  rw [offsetScoreOverlap_eq, Prod.mk.injEq]
  constructor
  · show (∑ qp ∈ Finset.range 2,
        (if 0 ≤ (qp : ℤ) + (-1) ∧ (qp : ℤ) + (-1) < ((2 : ℕ) : ℤ) then
          centeredDist c4q c4t 2 ((qp : ℤ) + (-1)).toNat qp else 0)) = 0
    rw [Finset.sum_range_succ, Finset.sum_range_one]
    simp only [Nat.cast_zero, Nat.cast_one, Nat.cast_ofNat]
    rw [if_neg (by decide : ¬((0 : ℤ) ≤ 0 + (-1) ∧ (0 : ℤ) + (-1) < 2)),
      if_pos (by decide : (0 : ℤ) ≤ 1 + (-1) ∧ (1 : ℤ) + (-1) < 2),
      show ((1 : ℤ) + (-1)).toNat = 0 from rfl, c4_cd01]
    norm_num
  · show (∑ qp ∈ Finset.range 2,
        (if 0 ≤ (qp : ℤ) + (-1) ∧ (qp : ℤ) + (-1) < ((2 : ℕ) : ℤ) then 1
          else 0)) = 1
    rw [Finset.sum_range_succ, Finset.sum_range_one]
    simp only [Nat.cast_zero, Nat.cast_one, Nat.cast_ofNat]
    rw [if_neg (by decide : ¬((0 : ℤ) ≤ 0 + (-1) ∧ (0 : ℤ) + (-1) < 2)),
      if_pos (by decide : (0 : ℤ) ≤ 1 + (-1) ∧ (1 : ℤ) + (-1) < 2)]

theorem c4_f0 : offsetScoreOverlap (centeredDist c4q c4t 2) 2 2 0
    = (20000, 2) := by
  rw [offsetScoreOverlap_self_zero, Prod.mk.injEq]
  constructor
  · show (∑ qp ∈ Finset.range 2, centeredDist c4q c4t 2 qp qp) = 20000
    rw [Finset.sum_range_succ, Finset.sum_range_one, c4_cd00, c4_cd11]
    norm_num
  · rfl

theorem c4_f1 : offsetScoreOverlap (centeredDist c4q c4t 2) 2 2 1
    = (20000, 1) := by
  rw [offsetScoreOverlap_eq, Prod.mk.injEq]
  constructor
  · show (∑ qp ∈ Finset.range 2,
        (if 0 ≤ (qp : ℤ) + 1 ∧ (qp : ℤ) + 1 < ((2 : ℕ) : ℤ) then
          centeredDist c4q c4t 2 ((qp : ℤ) + 1).toNat qp else 0)) = 20000
    rw [Finset.sum_range_succ, Finset.sum_range_one]
    simp only [Nat.cast_zero, Nat.cast_one, Nat.cast_ofNat]
    rw [if_pos (by decide : (0 : ℤ) ≤ 0 + 1 ∧ (0 : ℤ) + 1 < 2),
      if_neg (by decide : ¬((0 : ℤ) ≤ 1 + 1 ∧ (1 : ℤ) + 1 < 2)),
      show ((0 : ℤ) + 1).toNat = 1 from rfl, c4_cd10]
    norm_num
  · show (∑ qp ∈ Finset.range 2,
        (if 0 ≤ (qp : ℤ) + 1 ∧ (qp : ℤ) + 1 < ((2 : ℕ) : ℤ) then 1
          else 0)) = 1
    rw [Finset.sum_range_succ, Finset.sum_range_one]
    simp only [Nat.cast_zero, Nat.cast_one, Nat.cast_ofNat]
    rw [if_pos (by decide : (0 : ℤ) ≤ 0 + 1 ∧ (0 : ℤ) + 1 < 2),
      if_neg (by decide : ¬((0 : ℤ) ≤ 1 + 1 ∧ (1 : ℤ) + 1 < 2))]

theorem c4_gm1 : offsetScoreOverlap (centeredDist c4q c4rct 2) 2 2 (-1)
    = (0, 1) := by
  rw [offsetScoreOverlap_eq, Prod.mk.injEq]
  constructor
  · show (∑ qp ∈ Finset.range 2,
        (if 0 ≤ (qp : ℤ) + (-1) ∧ (qp : ℤ) + (-1) < ((2 : ℕ) : ℤ) then
          centeredDist c4q c4rct 2 ((qp : ℤ) + (-1)).toNat qp else 0)) = 0
    rw [Finset.sum_range_succ, Finset.sum_range_one]
    simp only [Nat.cast_zero, Nat.cast_one, Nat.cast_ofNat]
    rw [if_neg (by decide : ¬((0 : ℤ) ≤ 0 + (-1) ∧ (0 : ℤ) + (-1) < 2)),
      if_pos (by decide : (0 : ℤ) ≤ 1 + (-1) ∧ (1 : ℤ) + (-1) < 2),
      show ((1 : ℤ) + (-1)).toNat = 0 from rfl, c4_ce01]
    norm_num
  · show (∑ qp ∈ Finset.range 2,
        (if 0 ≤ (qp : ℤ) + (-1) ∧ (qp : ℤ) + (-1) < ((2 : ℕ) : ℤ) then 1
          else 0)) = 1
    rw [Finset.sum_range_succ, Finset.sum_range_one]
    simp only [Nat.cast_zero, Nat.cast_one, Nat.cast_ofNat]
    rw [if_neg (by decide : ¬((0 : ℤ) ≤ 0 + (-1) ∧ (0 : ℤ) + (-1) < 2)),
      if_pos (by decide : (0 : ℤ) ≤ 1 + (-1) ∧ (1 : ℤ) + (-1) < 2)]

theorem c4_g0 : offsetScoreOverlap (centeredDist c4q c4rct 2) 2 2 0
    = (40000, 2) := by
  rw [offsetScoreOverlap_self_zero, Prod.mk.injEq]
  constructor
  · show (∑ qp ∈ Finset.range 2, centeredDist c4q c4rct 2 qp qp) = 40000
    rw [Finset.sum_range_succ, Finset.sum_range_one, c4_ce00, c4_ce11]
    norm_num
  · rfl

theorem c4_g1 : offsetScoreOverlap (centeredDist c4q c4rct 2) 2 2 1
    = (0, 1) := by
  rw [offsetScoreOverlap_eq, Prod.mk.injEq]
  constructor
  · show (∑ qp ∈ Finset.range 2,
        (if 0 ≤ (qp : ℤ) + 1 ∧ (qp : ℤ) + 1 < ((2 : ℕ) : ℤ) then
          centeredDist c4q c4rct 2 ((qp : ℤ) + 1).toNat qp else 0)) = 0
    rw [Finset.sum_range_succ, Finset.sum_range_one]
    simp only [Nat.cast_zero, Nat.cast_one, Nat.cast_ofNat]
    rw [if_pos (by decide : (0 : ℤ) ≤ 0 + 1 ∧ (0 : ℤ) + 1 < 2),
      if_neg (by decide : ¬((0 : ℤ) ≤ 1 + 1 ∧ (1 : ℤ) + 1 < 2)),
      show ((0 : ℤ) + 1).toNat = 1 from rfl, c4_ce10]
    norm_num
  · show (∑ qp ∈ Finset.range 2,
        (if 0 ≤ (qp : ℤ) + 1 ∧ (qp : ℤ) + 1 < ((2 : ℕ) : ℤ) then 1
          else 0)) = 1
    rw [Finset.sum_range_succ, Finset.sum_range_one]
    simp only [Nat.cast_zero, Nat.cast_one, Nat.cast_ofNat]
    rw [if_pos (by decide : (0 : ℤ) ≤ 0 + 1 ∧ (0 : ℤ) + 1 < 2),
      if_neg (by decide : ¬((0 : ℤ) ≤ 1 + 1 ∧ (1 : ℤ) + 1 < 2))]

theorem c4_best_f : bestAlignment (centeredDist c4q c4t 2) 2 2 =
    (((20000 : ℝ) : WithBot ℝ), 0, 2) := by
  unfold bestAlignment
  rw [show offsetList 2 2 = [(-1 : ℤ), 0, 1] from by decide]
  rw [List.foldl_cons, List.foldl_cons, List.foldl_cons, List.foldl_nil]
  dsimp only
  rw [c4_fm1, c4_f0, c4_f1]
  dsimp only
  rw [if_pos (WithBot.bot_lt_coe _),
    if_pos (WithBot.coe_lt_coe.mpr (by norm_num : (0 : ℝ) < 20000)),
    if_neg (lt_irrefl _)]

theorem c4_best_g : bestAlignment (centeredDist c4q c4rct 2) 2 2 =
    (((40000 : ℝ) : WithBot ℝ), 0, 2) := by
  unfold bestAlignment
  rw [show offsetList 2 2 = [(-1 : ℤ), 0, 1] from by decide]
  rw [List.foldl_cons, List.foldl_cons, List.foldl_cons, List.foldl_nil]
  dsimp only
  rw [c4_gm1, c4_g0, c4_g1]
  dsimp only
  rw [if_pos (WithBot.bot_lt_coe _),
    if_pos (WithBot.coe_lt_coe.mpr (by norm_num : (0 : ℝ) < 40000)),
    if_neg (not_lt.mpr (WithBot.coe_le_coe.mpr
      (by norm_num : (0 : ℝ) ≤ 40000)))]

theorem c4_calc_f : calculateAlignment c4q c4t 2 2 =
    { score := ((20000 : ℝ) : WithBot ℝ), offset := 0, overlap := 2,
      pValue := 1e-15 } := by
  unfold calculateAlignment
  dsimp only
  rw [show ((c4q.getD 0 []).length) = 2 from rfl,
    show ((c4t.getD 0 []).length) = 2 from rfl, c4_best_f]
  rw [Alignment.mk.injEq]
  refine ⟨rfl, rfl, rfl, ?_⟩
  show max (1e-15 : ℝ) (Real.exp (-|(20000 : ℝ)| / 100)) = 1e-15
  rw [show -|(20000 : ℝ)| / 100 = -200 from by
    rw [show |(20000 : ℝ)| = 20000 from by norm_num]
    norm_num]
  exact max_eq_left (exp_le_clamp (-200) le_rfl)

theorem c4_calc_g : calculateAlignment c4q c4rct 2 2 =
    { score := ((40000 : ℝ) : WithBot ℝ), offset := 0, overlap := 2,
      pValue := 1e-15 } := by
  unfold calculateAlignment
  dsimp only
  rw [show ((c4q.getD 0 []).length) = 2 from rfl,
    show ((c4rct.getD 0 []).length) = 2 from rfl, c4_best_g]
  rw [Alignment.mk.injEq]
  refine ⟨rfl, rfl, rfl, ?_⟩
  show max (1e-15 : ℝ) (Real.exp (-|(40000 : ℝ)| / 100)) = 1e-15
  rw [show -|(40000 : ℝ)| / 100 = -400 from by
    rw [show |(40000 : ℝ)| = 40000 from by norm_num]
    norm_num]
  exact max_eq_left (exp_le_clamp (-400) (by norm_num))

theorem c4_cell : tomtomCell c4opts c4q c4t =
    { pValue := 1e-15, score := ((20000 : ℝ) : WithBot ℝ), offset := 0,
      overlap := 2, strand := 0 } := by
  unfold tomtomCell
  rw [show c4opts.nScoreBins = 2 from rfl,
    show c4opts.nMedianBins = 2 from rfl, c4_calc_f, c4t_rc, c4_calc_g]
  dsimp only
  rw [if_pos (by norm_num : (1e-15 : ℝ) < 1),
    show c4opts.reverseComplement = true from rfl, if_pos (Eq.refl true),
    if_neg (lt_irrefl (1e-15 : ℝ))]

/-- C4 counterexample: for these matrices both orientations score above
the clamp threshold of the placeholder p value, so both p values equal
1e-15; the reverse complement score 40000 strictly exceeds the forward
score 20000, yet strand 0 is reported and the stored cell is the
forward alignment, because the code compares the clamped p values, not
the scores. -/
theorem C4_counterexample :
    (tomtom [c4q] [c4t] c4opts).strands = [[0]] ∧
    (tomtom [c4q] [c4t] c4opts).scores = [[((20000 : ℝ) : WithBot ℝ)]] ∧
    (calculateAlignment c4q c4t c4opts.nScoreBins c4opts.nMedianBins).score
      = ((20000 : ℝ) : WithBot ℝ) ∧
    (calculateAlignment c4q (rcPwm c4t) c4opts.nScoreBins
      c4opts.nMedianBins).score = ((40000 : ℝ) : WithBot ℝ) ∧
    (((20000 : ℝ) : WithBot ℝ) < ((40000 : ℝ) : WithBot ℝ)) := by
  refine ⟨?_, ?_, ?_, ?_, WithBot.coe_lt_coe.mpr (by norm_num)⟩
  · unfold tomtom
    dsimp only
    simp only [List.map_cons, List.map_nil]
    rw [c4_cell]
  · unfold tomtom
    dsimp only
    simp only [List.map_cons, List.map_nil]
    rw [c4_cell]
  · show (calculateAlignment c4q c4t 2 2).score = ((20000 : ℝ) : WithBot ℝ)
    rw [c4_calc_f]
  · rw [c4t_rc]
    show (calculateAlignment c4q c4rct 2 2).score = ((40000 : ℝ) : WithBot ℝ)
    rw [c4_calc_g]

theorem C4_strand_rule_witness :
    c4opts.reverseComplement = true ∧
    ((tomtomCell c4opts c4q c4t).strand = 1 ↔
      (calculateAlignment c4q (rcPwm c4t) c4opts.nScoreBins
        c4opts.nMedianBins).pValue <
      (calculateAlignment c4q c4t c4opts.nScoreBins
        c4opts.nMedianBins).pValue) :=
  ⟨rfl, (C4_strand_rule c4opts c4q c4t rfl).1⟩

/-! ### Splitter, trim and scan lemmas for the MEME round trip -/

lemma length_dropWhile_le (p : Char → Bool) (l : List Char) :
    (l.dropWhile p).length ≤ l.length := by
  induction l with
  | nil => simp
  | cons a t ih =>
      rw [List.dropWhile_cons]
      by_cases h : p a = true
      · rw [if_pos h]; exact Nat.le_trans ih (Nat.le_succ _)
      · rw [if_neg (by simp [h])]

lemma dropWhile_eq_self_of_head (p : Char → Bool) (l : List Char)
    (h : ∀ c, l.head? = some c → p c = false) : l.dropWhile p = l := by
  cases l with
  | nil => rfl
  | cons a t => rw [List.dropWhile_cons, if_neg (by simp [h a rfl])]

lemma head_not_of_dropWhile_eq (p : Char → Bool) (l : List Char)
    (h : l.dropWhile p = l) : ∀ c, l.head? = some c → p c = false := by
  intro c hc
  cases l with
  | nil => exact absurd hc (by simp)
  | cons a t =>
      have ha : a = c := by simpa using hc
      subst ha
      by_contra hpa
      rw [List.dropWhile_cons, if_pos (by simpa using hpa)] at h
      have := congrArg List.length h
      have hle := length_dropWhile_le p t
      simp at this
      omega

lemma trimChars_eq_self (l : List Char)
    (h1 : ∀ c, l.head? = some c → isWs c = false)
    (h2 : ∀ c, l.getLast? = some c → isWs c = false) : trimChars l = l := by
  unfold trimChars
  rw [dropWhile_eq_self_of_head _ _ h1,
    dropWhile_eq_self_of_head _ _ (by intro c hc; rw [List.head?_reverse] at hc; exact h2 c hc),
    List.reverse_reverse]

lemma trim_eq_self_parts (l : List Char) (h : trimChars l = l) :
    l.dropWhile isWs = l ∧ l.reverse.dropWhile isWs = l.reverse := by
  unfold trimChars at h
  have hlen := congrArg List.length h
  have h1 := length_dropWhile_le isWs l
  have h2 := length_dropWhile_le isWs (l.dropWhile isWs).reverse
  simp only [List.length_reverse] at hlen h2
  have ha : (l.dropWhile isWs).length = l.length := by omega
  have haeq : l.dropWhile isWs = l :=
    List.IsSuffix.eq_of_length (List.dropWhile_suffix isWs) ha
  refine ⟨haeq, ?_⟩
  rw [haeq] at h
  have hb : (l.reverse.dropWhile isWs).length = l.reverse.length := by
    have := congrArg List.length h
    simp only [List.length_reverse] at this ⊢
    omega
  exact List.IsSuffix.eq_of_length (List.dropWhile_suffix isWs) hb

lemma getLast_not_ws_of_trim (l : List Char) (h : trimChars l = l) :
    ∀ c, l.getLast? = some c → isWs c = false := by
  intro c hc
  exact head_not_of_dropWhile_eq isWs l.reverse (trim_eq_self_parts l h).2 c
    (by rw [List.head?_reverse]; exact hc)

lemma head_not_ws_of_trim (l : List Char) (h : trimChars l = l) :
    ∀ c, l.head? = some c → isWs c = false :=
  head_not_of_dropWhile_eq isWs l (trim_eq_self_parts l h).1

lemma getLast?_append_of_ne (l₁ l₂ : List Char) (h : l₂ ≠ []) :
    (l₁ ++ l₂).getLast? = l₂.getLast? := by
  rw [List.getLast?_append]
  cases hl : l₂.getLast? with
  | none => exact absurd (List.getLast?_eq_none_iff.mp hl) h
  | some c => rfl

lemma isDigit_not_ws (c : Char) (h : c.isDigit = true) : isWs c = false := by
  unfold isWs
  unfold Char.isDigit at h
  unfold Char.isWhitespace
  simp only [Bool.and_eq_true, decide_eq_true_eq] at h
  simp only [Bool.or_eq_false_iff, decide_eq_false_iff_not]
  obtain ⟨h1, h2⟩ := h
  refine ⟨⟨⟨?_, ?_⟩, ?_⟩, ?_⟩ <;> intro hc <;> subst hc <;> revert h1 h2 <;> decide

lemma not_ws_ne_newline (c : Char) (h : isWs c = false) : (c == '\n') = false := by
  rw [beq_eq_false_iff_ne]
  intro hc
  subst hc
  exact absurd h (by decide)

lemma splitP_cons_pos (p : Char → Bool) (x : Char) (l : List Char)
    (hx : p x = true) : splitP p (x :: l) = [] :: splitP p l := by
  simp only [splitP]
  rw [if_pos hx]

lemma splitP_cons_neg (p : Char → Bool) (x : Char) (l : List Char)
    (hx : p x = false) :
    splitP p (x :: l) =
      match splitP p l with
      | [] => [[x]]
      | m :: ms => (x :: m) :: ms := by
  simp only [splitP]
  rw [if_neg (by simp [hx])]

lemma splitP_sep (p : Char → Bool) (a : List Char) (c : Char) (b : List Char)
    (ha : ∀ d ∈ a, p d = false) (hc : p c = true) :
    splitP p (a ++ c :: b) = a :: splitP p b := by
  induction a with
  | nil => rw [List.nil_append, splitP_cons_pos p c b hc]
  | cons x a ih =>
      have hx : p x = false := ha x (by simp)
      have ih2 := ih (fun d hd => ha d (by simp [hd]))
      rw [List.cons_append, splitP_cons_neg p x _ hx, ih2]

lemma splitP_all_neg (p : Char → Bool) (a : List Char)
    (ha : ∀ d ∈ a, p d = false) : splitP p a = [a] := by
  induction a with
  | nil => rfl
  | cons x a ih =>
      have hx : p x = false := ha x (by simp)
      have ih2 := ih (fun d hd => ha d (by simp [hd]))
      rw [splitP_cons_neg p x _ hx, ih2]

lemma splitP_emit (ls : List (List Char))
    (h : ∀ l ∈ ls, ∀ c ∈ l, (c == '\n') = false) :
    splitP (fun c => c == '\n') (emit ls) = ls ++ [[]] := by
  induction ls with
  | nil => rfl
  | cons l ls ih =>
      have h1 : emit (l :: ls) = l ++ '\n' :: emit ls := by
        show (l ++ ['\n']) ++ emit ls = _
        rw [List.append_assoc]
        rfl
      rw [h1, splitP_sep _ _ _ _ (h l (by simp)) (by decide),
        ih (fun m hm => h m (by simp [hm]))]
      rfl

lemma takeWhile_append_all (p : Char → Bool) (a b : List Char)
    (ha : ∀ d ∈ a, p d = true) (hb : b.takeWhile p = []) :
    (a ++ b).takeWhile p = a := by
  induction a with
  | nil => simpa using hb
  | cons x a ih =>
      rw [List.cons_append, List.takeWhile_cons,
        if_pos (by simp [ha x (by simp)]), ih (fun d hd => ha d (by simp [hd]))]

lemma dropWhile_append_all (p : Char → Bool) (a b : List Char)
    (ha : ∀ d ∈ a, p d = true) : (a ++ b).dropWhile p = b.dropWhile p := by
  induction a with
  | nil => rfl
  | cons x a ih =>
      rw [List.cons_append, List.dropWhile_cons,
        if_pos (by simp [ha x (by simp)]), ih (fun d hd => ha d (by simp [hd]))]

/-! ### extractW, row parsing and transpose lemmas -/

lemma extractW_cons_two (c d : Char) (rest : List Char) :
    extractW (c :: d :: rest) =
      if c = 'w' ∧ d = '=' then
        if ((rest.dropWhile isWs).takeWhile (fun e => e.isDigit)).isEmpty then
          extractW rest
        else some (digitsVal ((rest.dropWhile isWs).takeWhile (fun e => e.isDigit)))
      else extractW (d :: rest) := by
  simp only [extractW]

lemma extractW_append_no_w (a b : List Char) (ha : ∀ c ∈ a, c ≠ 'w') :
    extractW (a ++ b) = extractW b := by
  induction a with
  | nil => rfl
  | cons x a ih =>
      have hx : x ≠ 'w' := ha x (by simp)
      have ih2 := ih (fun d hd => ha d (by simp [hd]))
      cases a with
      | nil =>
          cases b with
          | nil => rfl
          | cons y b' =>
              rw [List.singleton_append, extractW_cons_two,
                if_neg (fun h => hx h.1)]
      | cons z a' =>
          rw [List.cons_append, List.cons_append, extractW_cons_two,
            if_neg (fun h => hx h.1), ← List.cons_append, ih2]

lemma extractW_match (ds suf : List Char) (d0 : Char) (hds : ds.head? = some d0)
    (hdig : ∀ c ∈ ds, c.isDigit = true) (hsuf : suf.takeWhile (fun e => e.isDigit) = []) :
    extractW ('w' :: '=' :: ' ' :: (ds ++ suf)) = some (digitsVal ds) := by
  cases ds with
  | nil => exact absurd hds (by simp)
  | cons e ds' =>
      have he : e = d0 := by simpa using hds
      have hdg : ∀ c ∈ e :: ds', c.isDigit = true := hdig
      have hews : isWs e = false := isDigit_not_ws e (hdg e (by simp))
      rw [extractW_cons_two, if_pos ⟨rfl, rfl⟩]
      have h1 : (' ' :: ((e :: ds') ++ suf)).dropWhile isWs = (e :: ds') ++ suf := by
        rw [List.dropWhile_cons, if_pos (by decide), List.cons_append,
          List.dropWhile_cons, if_neg (by simp [hews])]
      rw [h1, takeWhile_append_all _ _ _ hdg hsuf]
      rw [if_neg (by simp)]

lemma filter_ne_nil_of_mem (ls : List (List Char)) (h : ∀ l ∈ ls, l ≠ []) :
    ls.filter (fun p => p ≠ []) = ls := by
  induction ls with
  | nil => rfl
  | cons l ls ih =>
      rw [List.filter_cons, if_pos (by simpa using h l (by simp)),
        ih (fun m hm => h m (by simp [hm]))]

lemma rowFloats_row (codec : NumCodec) (t0 t1 t2 t3 : List Char) (v0 v1 v2 v3 : ℝ)
    (hne : t0 ≠ [] ∧ t1 ≠ [] ∧ t2 ≠ [] ∧ t3 ≠ [])
    (hws : (∀ c ∈ t0, isWs c = false) ∧ (∀ c ∈ t1, isWs c = false) ∧
      (∀ c ∈ t2, isWs c = false) ∧ (∀ c ∈ t3, isWs c = false))
    (hp : codec.parse t0 = some v0 ∧ codec.parse t1 = some v1 ∧
      codec.parse t2 = some v2 ∧ codec.parse t3 = some v3) :
    rowFloats codec (t0 ++ (' ' :: (t1 ++ (' ' :: (t2 ++ (' ' :: t3)))))) =
      [v0, v1, v2, v3] := by
  unfold rowFloats
  have hsp : splitP isWs (t0 ++ (' ' :: (t1 ++ (' ' :: (t2 ++ (' ' :: t3)))))) =
      [t0, t1, t2, t3] := by
    rw [splitP_sep isWs t0 ' ' _ hws.1 (by decide),
      splitP_sep isWs t1 ' ' _ hws.2.1 (by decide),
      splitP_sep isWs t2 ' ' _ hws.2.2.1 (by decide),
      splitP_all_neg isWs t3 hws.2.2.2]
  rw [hsp, filter_ne_nil_of_mem _ (by
    intro l hl
    fin_cases hl
    · exact hne.1
    · exact hne.2.1
    · exact hne.2.2.1
    · exact hne.2.2.2)]
  rw [List.map_cons, List.map_cons, List.map_cons, List.map_cons, List.map_nil,
    hp.1, hp.2.1, hp.2.2.1, hp.2.2.2]
  rfl

lemma parseRows_stop (codec : NumCodec) (w : ℕ) (lines : List (List Char))
    (acc : List (List ℝ)) (h : ¬ acc.length < w) :
    parseRows codec w lines acc = acc := by
  cases lines with
  | nil => rfl
  | cons l rest =>
      simp only [parseRows]
      rw [if_neg h]

lemma parseRows_append (codec : NumCodec) (w : ℕ) (ls rest : List (List Char))
    (acc : List (List ℝ)) (hacc : acc.length + ls.length = w)
    (hls : ∀ l ∈ ls, (rowFloats codec l).length = 4) :
    parseRows codec w (ls ++ rest) acc = acc ++ ls.map (rowFloats codec) := by
  induction ls generalizing acc with
  | nil =>
      simp only [List.length_nil, Nat.add_zero] at hacc
      rw [List.nil_append, parseRows_stop codec w rest acc (by omega)]
      simp
  | cons l ls ih =>
      have hlt : acc.length < w := by
        simp only [List.length_cons] at hacc
        omega
      rw [List.cons_append]
      simp only [parseRows]
      rw [if_pos hlt, if_pos (hls l (by simp)),
        ih (acc ++ [rowFloats codec l])
          (by simp only [List.length_append, List.length_cons, List.length_nil] at hacc ⊢; omega)
          (fun m hm => hls m (by simp [hm]))]
      simp

lemma range_map_getD (l : List ℝ) (d : ℝ) :
    (List.range l.length).map (fun i => l.getD i d) = l := by
  induction l with
  | nil => rfl
  | cons x t ih =>
      rw [List.length_cons, List.range_succ_eq_map, List.map_cons, List.map_map]
      have : ((fun i => (x :: t).getD i d) ∘ Nat.succ) = fun i => t.getD i d := by
        funext i
        rfl
      rw [this, ih]
      rfl

lemma range_map_getD_list (l : List (List ℝ)) (d : List ℝ) :
    (List.range l.length).map (fun i => l.getD i d) = l := by
  induction l with
  | nil => rfl
  | cons x t ih =>
      rw [List.length_cons, List.range_succ_eq_map, List.map_cons, List.map_map]
      have : ((fun i => (x :: t).getD i d) ∘ Nat.succ) = fun i => t.getD i d := by
        funext i
        rfl
      rw [this, ih]
      rfl

lemma transpose4_roundtrip (pwm : List (List ℝ)) (w : ℕ)
    (hlen : pwm.length = 4) (hrows : ∀ r ∈ pwm, r.length = w) :
    transpose4 ((List.range w).map (fun pos =>
      [(pwm.getD 0 []).getD pos 0, (pwm.getD 1 []).getD pos 0,
       (pwm.getD 2 []).getD pos 0, (pwm.getD 3 []).getD pos 0])) w = pwm := by
  unfold transpose4
  have hget : ∀ base pos : ℕ, base < 4 → pos < w →
      ((((List.range w).map (fun pos =>
        [(pwm.getD 0 []).getD pos 0, (pwm.getD 1 []).getD pos 0,
         (pwm.getD 2 []).getD pos 0, (pwm.getD 3 []).getD pos 0])).getD pos []).getD base 0)
      = (pwm.getD base []).getD pos 0 := by
    intro base pos hb hp
    have hlt : pos < ((List.range w).map (fun pos =>
        [(pwm.getD 0 []).getD pos 0, (pwm.getD 1 []).getD pos 0,
         (pwm.getD 2 []).getD pos 0, (pwm.getD 3 []).getD pos 0])).length := by
      simpa using hp
    rw [List.getD_eq_getElem _ _ hlt, List.getElem_map, List.getElem_range]
    interval_cases base <;> rfl
  have hinner : ∀ base : ℕ, base < 4 →
      (List.range w).map (fun pos =>
        ((((List.range w).map (fun pos =>
          [(pwm.getD 0 []).getD pos 0, (pwm.getD 1 []).getD pos 0,
           (pwm.getD 2 []).getD pos 0, (pwm.getD 3 []).getD pos 0])).getD pos []).getD base 0))
      = pwm.getD base [] := by
    intro base hb
    have hcongr : ∀ pos ∈ List.range w,
        ((((List.range w).map (fun pos =>
          [(pwm.getD 0 []).getD pos 0, (pwm.getD 1 []).getD pos 0,
           (pwm.getD 2 []).getD pos 0, (pwm.getD 3 []).getD pos 0])).getD pos []).getD base 0)
        = (pwm.getD base []).getD pos 0 := by
      intro pos hpos
      exact hget base pos hb (List.mem_range.mp hpos)
    rw [List.map_congr_left hcongr]
    have hblen : (pwm.getD base []).length = w := by
      have hb4 : base < pwm.length := by omega
      rw [List.getD_eq_getElem _ _ hb4]
      exact hrows _ (List.getElem_mem hb4)
    rw [← hblen]
    exact range_map_getD _ 0
  have hcongr4 : ∀ base ∈ List.range 4,
      ((List.range w).map (fun pos =>
        ((((List.range w).map (fun pos =>
          [(pwm.getD 0 []).getD pos 0, (pwm.getD 1 []).getD pos 0,
           (pwm.getD 2 []).getD pos 0, (pwm.getD 3 []).getD pos 0])).getD pos []).getD base 0)))
      = pwm.getD base [] := fun base hb => hinner base (List.mem_range.mp hb)
  rw [List.map_congr_left hcongr4, ← hlen]
  exact range_map_getD_list pwm []

/-! ### Reader loop lemmas -/

lemma isPrefixOf_MOTIF_false (l : List Char) (c : Char)
    (h : l.head? = some c) (hc : c ≠ 'M') :
    "MOTIF ".toList.isPrefixOf l = false := by
  cases l with
  | nil => exact absurd h (by simp)
  | cons a t =>
      have ha : a = c := by simpa using h
      subst ha
      show (('M' == a) && "OTIF ".toList.isPrefixOf t) = false
      rw [beq_eq_false_iff_ne.mpr (fun e => hc e.symm), Bool.false_and]

lemma readMemeLoop_skip (codec : NumCodec) (mm : Option ℕ) (line : List Char)
    (rest : List (List Char)) (acc : List (List Char × List (List ℝ)))
    (h : "MOTIF ".toList.isPrefixOf line = false) :
    readMemeLoop codec mm (line :: rest) acc = readMemeLoop codec mm rest acc := by
  simp only [readMemeLoop]
  rw [if_neg (by rw [h]; exact Bool.false_ne_true)]

lemma readMemeLoop_skip_all (codec : NumCodec) (mm : Option ℕ)
    (ls rest : List (List Char)) (acc : List (List Char × List (List ℝ)))
    (h : ∀ l ∈ ls, "MOTIF ".toList.isPrefixOf l = false) :
    readMemeLoop codec mm (ls ++ rest) acc = readMemeLoop codec mm rest acc := by
  induction ls with
  | nil => rfl
  | cons l ls ih =>
      rw [List.cons_append, readMemeLoop_skip codec mm l _ acc (h l (by simp)),
        ih (fun m hm => h m (by simp [hm]))]

lemma readMemeLoop_motif (codec : NumCodec) (line : List Char)
    (rest : List (List Char)) (acc : List (List Char × List (List ℝ)))
    (width : ℕ)
    (hpre : "MOTIF ".toList.isPrefixOf line = true)
    (hfind : (rest.take 9).findIdx?
      (fun l => "letter-probability matrix:".toList.isPrefixOf l) = some 0)
    (hw : extractW (rest.getD 0 []) = some width)
    (hrows : (parseRows codec width (rest.drop 1) []).length = width) :
    readMemeLoop codec none (line :: rest) acc =
      readMemeLoop codec none rest (acc ++
        [(trimChars (line.drop 6),
          transpose4 (parseRows codec width (rest.drop 1) []) width)]) := by
  simp only [readMemeLoop]
  rw [if_pos hpre]
  split
  · next heq =>
      rw [hfind] at heq
      exact absurd heq (by simp)
  · next k heq =>
      rw [hfind] at heq
      have hk : k = 0 := by
        injection heq with h
        exact h.symm
      subst hk
      split
      · next heq2 =>
          rw [hw] at heq2
          exact absurd heq2 (by simp)
      · next width2 heq2 =>
          rw [hw] at heq2
          have hwidth : width2 = width := by
            injection heq2 with h
            exact h.symm
          subst hwidth
          simp only [Nat.zero_add]
          rw [if_pos hrows, if_neg (by simp [capReached])]

/-! ### Facts about the individual written lines -/

lemma isPrefixOf_append_self (p l : List Char) : p.isPrefixOf (p ++ l) = true :=
  List.isPrefixOf_iff_prefix.mpr (List.prefix_append _ _)

lemma mem_of_head? (l : List Char) (c : Char) (h : l.head? = some c) : c ∈ l := by
  cases l with
  | nil => exact absurd h (by simp)
  | cons a t =>
      have ha : a = c := by simpa using h
      subst ha
      simp

lemma mem_of_getLast? (l : List Char) (c : Char) (h : l.getLast? = some c) : c ∈ l := by
  have h2 : l.reverse.head? = some c := by rw [List.head?_reverse]; exact h
  have h3 := mem_of_head? l.reverse c h2
  simpa using h3

lemma head?_append_of_ne (l₁ l₂ : List Char) (h : l₁ ≠ []) :
    (l₁ ++ l₂).head? = l₁.head? := by
  cases l₁ with
  | nil => exact absurd rfl h
  | cons a t => rfl

lemma getLast?_cons_append (c : Char) (l : List Char) (h : l ≠ []) :
    (c :: l).getLast? = l.getLast? := getLast?_append_of_ne [c] l h

/-- The codec laws the round trip needs from the number formatting, at
one written cell value: parseFloat inverts the formatting, and the
formatted text is nonempty, whitespace free, and does not start with
the letter M. -/
def cellOK (codec : NumCodec) (x : ℝ) : Prop :=
  codec.parse (codec.toStr x) = some x ∧ codec.toStr x ≠ [] ∧
    (∀ c ∈ codec.toStr x, isWs c = false) ∧
    ∀ c, (codec.toStr x).head? = some c → c ≠ 'M'

lemma rowLine_facts (codec : NumCodec) (pwm : List (List ℝ)) (pos : ℕ)
    (h0 : cellOK codec ((pwm.getD 0 []).getD pos 0))
    (h1 : cellOK codec ((pwm.getD 1 []).getD pos 0))
    (h2 : cellOK codec ((pwm.getD 2 []).getD pos 0))
    (h3 : cellOK codec ((pwm.getD 3 []).getD pos 0)) :
    rowFloats codec (rowLine codec pwm pos) =
      [(pwm.getD 0 []).getD pos 0, (pwm.getD 1 []).getD pos 0,
       (pwm.getD 2 []).getD pos 0, (pwm.getD 3 []).getD pos 0] ∧
    trimChars (rowLine codec pwm pos) = rowLine codec pwm pos ∧
    (∀ c ∈ rowLine codec pwm pos, (c == '\n') = false) ∧
    "MOTIF ".toList.isPrefixOf (rowLine codec pwm pos) = false := by
  obtain ⟨hp0, hne0, hws0, hM0⟩ := h0
  obtain ⟨hp1, hne1, hws1, _⟩ := h1
  obtain ⟨hp2, hne2, hws2, _⟩ := h2
  obtain ⟨hp3, hne3, hws3, _⟩ := h3
  unfold rowLine
  refine ⟨?_, ?_, ?_, ?_⟩
  · exact rowFloats_row codec _ _ _ _ _ _ _ _ ⟨hne0, hne1, hne2, hne3⟩
      ⟨hws0, hws1, hws2, hws3⟩ ⟨hp0, hp1, hp2, hp3⟩
  · refine trimChars_eq_self _ ?_ ?_
    · intro c hc
      rw [head?_append_of_ne _ _ hne0] at hc
      exact hws0 c (mem_of_head? _ _ hc)
    · intro c hc
      rw [getLast?_append_of_ne _ _ (by simp), getLast?_cons_append _ _ (by simp),
        getLast?_append_of_ne _ _ (by simp), getLast?_cons_append _ _ (by simp),
        getLast?_append_of_ne _ _ (by simp), getLast?_cons_append _ _ hne3] at hc
      exact hws3 c (mem_of_getLast? _ _ hc)
  · intro c hc
    simp only [List.mem_append, List.mem_cons] at hc
    rcases hc with h | rfl | h | rfl | h | rfl | h
    · exact not_ws_ne_newline c (hws0 c h)
    · decide
    · exact not_ws_ne_newline c (hws1 c h)
    · decide
    · exact not_ws_ne_newline c (hws2 c h)
    · decide
    · exact not_ws_ne_newline c (hws3 c h)
  · cases ht : codec.toStr ((pwm.getD 0 []).getD pos 0) with
    | nil => exact absurd ht hne0
    | cons a t =>
        refine isPrefixOf_MOTIF_false _ a rfl ?_
        exact hM0 a (by rw [ht]; rfl)

lemma motifLine_facts (nm : List Char) (hne : nm ≠ [])
    (htrim : trimChars nm = nm) (hnl : '\n' ∉ nm) :
    trimChars ("MOTIF ".toList ++ nm) = "MOTIF ".toList ++ nm ∧
    (∀ c ∈ "MOTIF ".toList ++ nm, (c == '\n') = false) := by
  constructor
  · refine trimChars_eq_self _ ?_ ?_
    · intro c hc
      have he : ("MOTIF ".toList ++ nm).head? = some 'M' := rfl
      rw [he] at hc
      injection hc with hcM
      subst hcM
      decide
    · intro c hc
      rw [getLast?_append_of_ne _ _ hne] at hc
      exact getLast_not_ws_of_trim nm htrim c hc
  · intro c hc
    rcases List.mem_append.mp hc with h | h
    · have hall : ∀ x ∈ "MOTIF ".toList, (x == '\n') = false := by decide
      exact hall c h
    · exact beq_eq_false_iff_ne.mpr (fun e => hnl (e ▸ h))

lemma headerLine_facts (ds : List Char) (hne : ds ≠ [])
    (hdig : ∀ c ∈ ds, c.isDigit = true) :
    trimChars ("letter-probability matrix: alength= 4 w= ".toList ++
        (ds ++ " nsites= 1 E= 0".toList)) =
      "letter-probability matrix: alength= 4 w= ".toList ++
        (ds ++ " nsites= 1 E= 0".toList) ∧
    (∀ c ∈ "letter-probability matrix: alength= 4 w= ".toList ++
        (ds ++ " nsites= 1 E= 0".toList), (c == '\n') = false) ∧
    "MOTIF ".toList.isPrefixOf
      ("letter-probability matrix: alength= 4 w= ".toList ++
        (ds ++ " nsites= 1 E= 0".toList)) = false ∧
    "letter-probability matrix:".toList.isPrefixOf
      ("letter-probability matrix: alength= 4 w= ".toList ++
        (ds ++ " nsites= 1 E= 0".toList)) = true ∧
    extractW ("letter-probability matrix: alength= 4 w= ".toList ++
        (ds ++ " nsites= 1 E= 0".toList)) = some (digitsVal ds) := by
  have hsufne : (" nsites= 1 E= 0".toList : List Char) ≠ [] := by decide
  have hdssuf : ds ++ " nsites= 1 E= 0".toList ≠ [] := by
    intro h
    rw [List.append_eq_nil] at h
    exact hsufne h.2
  refine ⟨?_, ?_, ?_, ?_, ?_⟩
  · refine trimChars_eq_self _ ?_ ?_
    · intro c hc
      have he : ("letter-probability matrix: alength= 4 w= ".toList ++
          (ds ++ " nsites= 1 E= 0".toList)).head? = some 'l' := rfl
      rw [he] at hc
      injection hc with hcl
      subst hcl
      decide
    · intro c hc
      rw [getLast?_append_of_ne _ _ hdssuf, getLast?_append_of_ne _ _ hsufne] at hc
      have he : (" nsites= 1 E= 0".toList : List Char).getLast? = some '0' := by decide
      rw [he] at hc
      injection hc with hc0
      subst hc0
      decide
  · intro c hc
    rcases List.mem_append.mp hc with h | h
    · have hall : ∀ x ∈ "letter-probability matrix: alength= 4 w= ".toList,
          (x == '\n') = false := by decide
      exact hall c h
    · rcases List.mem_append.mp h with h2 | h2
      · exact not_ws_ne_newline c (isDigit_not_ws c (hdig c h2))
      · have hall : ∀ x ∈ " nsites= 1 E= 0".toList, (x == '\n') = false := by decide
        exact hall c h2
  · exact isPrefixOf_MOTIF_false _ 'l' rfl (by decide)
  · rfl
  · have hsplit : "letter-probability matrix: alength= 4 w= ".toList ++
        (ds ++ " nsites= 1 E= 0".toList) =
        "letter-probability matrix: alength= 4 ".toList ++
          ('w' :: '=' :: ' ' :: (ds ++ " nsites= 1 E= 0".toList)) := rfl
    rw [hsplit, extractW_append_no_w _ _ (by decide)]
    cases hd : ds with
    | nil => exact absurd hd hne
    | cons d0 ds' =>
        rw [← hd]
        exact extractW_match ds _ d0 (by rw [hd]; rfl) hdig (by decide)

/-! ### The round trip -/

lemma cell_mem (pwm : List (List ℝ)) (hlen : pwm.length = 4)
    (hrows : ∀ r ∈ pwm, r.length = (pwm.getD 0 []).length) (i pos : ℕ)
    (hi : i < 4) (hpos : pos < (pwm.getD 0 []).length) :
    ∃ r ∈ pwm, (pwm.getD i []).getD pos 0 ∈ r := by
  have hi' : i < pwm.length := by omega
  have hr : pwm.getD i [] = pwm[i] := List.getD_eq_getElem pwm [] hi'
  have hmem : pwm[i] ∈ pwm := List.getElem_mem hi'
  have hlen2 : (pwm.getD i []).length = (pwm.getD 0 []).length := by
    rw [hr]
    exact hrows _ hmem
  have hp' : pos < (pwm.getD i []).length := by omega
  refine ⟨pwm[i], hmem, ?_⟩
  rw [← hr, List.getD_eq_getElem _ _ hp']
  exact List.getElem_mem hp'

/-- All the conditions the round trip needs of one motif entry: a
nonempty, trim-invariant, newline-free name; a 4 x w value matrix; and
the codec laws at the written cell values and at the written width. -/
def motifOK (codec : NumCodec) (m : List Char × List (List ℝ)) : Prop :=
  m.1 ≠ [] ∧ trimChars m.1 = m.1 ∧ '\n' ∉ m.1 ∧
  m.2.length = 4 ∧ (∀ r ∈ m.2, r.length = (m.2.getD 0 []).length) ∧
  (∀ r ∈ m.2, ∀ x ∈ r, cellOK codec x) ∧
  codec.natToStr (m.2.getD 0 []).length ≠ [] ∧
  (∀ c ∈ codec.natToStr (m.2.getD 0 []).length, c.isDigit = true) ∧
  digitsVal (codec.natToStr (m.2.getD 0 []).length) = (m.2.getD 0 []).length

lemma cellD_of_motifOK (codec : NumCodec) (m : List Char × List (List ℝ))
    (hm : motifOK codec m) :
    ∀ i, i < 4 → ∀ pos, pos < (m.2.getD 0 []).length →
      cellOK codec ((m.2.getD i []).getD pos 0) := by
  intro i hi pos hpos
  obtain ⟨r, hrm, hx⟩ := cell_mem m.2 hm.2.2.2.1 hm.2.2.2.2.1 i pos hi hpos
  exact hm.2.2.2.2.2.1 r hrm _ hx

lemma readMemeLoop_block (codec : NumCodec) (m : List Char × List (List ℝ))
    (future : List (List Char)) (acc : List (List Char × List (List ℝ)))
    (hm : motifOK codec m) :
    readMemeLoop codec none (blockLines codec m.1 m.2 ++ future) acc =
      readMemeLoop codec none future (acc ++ [m]) := by
  obtain ⟨hne, htrim, hnl, hlen, hrows, hcell, hnne, hndig, hnval⟩ := hm
  have hcellD := cellD_of_motifOK codec m
    ⟨hne, htrim, hnl, hlen, hrows, hcell, hnne, hndig, hnval⟩
  have hrowf : ∀ pos, pos < (m.2.getD 0 []).length →
      rowFloats codec (rowLine codec m.2 pos) =
        [(m.2.getD 0 []).getD pos 0, (m.2.getD 1 []).getD pos 0,
         (m.2.getD 2 []).getD pos 0, (m.2.getD 3 []).getD pos 0] ∧
      trimChars (rowLine codec m.2 pos) = rowLine codec m.2 pos ∧
      (∀ c ∈ rowLine codec m.2 pos, (c == '\n') = false) ∧
      "MOTIF ".toList.isPrefixOf (rowLine codec m.2 pos) = false :=
    fun pos hpos => rowLine_facts codec m.2 pos
      (hcellD 0 (by norm_num) pos hpos) (hcellD 1 (by norm_num) pos hpos)
      (hcellD 2 (by norm_num) pos hpos) (hcellD 3 (by norm_num) pos hpos)
  have hhead := headerLine_facts (codec.natToStr (m.2.getD 0 []).length) hnne hndig
  have hshape : blockLines codec m.1 m.2 ++ future =
      ("MOTIF ".toList ++ m.1) ::
        (("letter-probability matrix: alength= 4 w= ".toList ++
          (codec.natToStr (m.2.getD 0 []).length ++ " nsites= 1 E= 0".toList)) ::
          ((List.range (m.2.getD 0 []).length).map (rowLine codec m.2) ++
            ("URL BLANK".toList :: ([] :: future)))) := by
    unfold blockLines
    simp only [List.cons_append, List.append_assoc]
    rfl
  rw [hshape]
  have hparse : parseRows codec (m.2.getD 0 []).length
      ((List.range (m.2.getD 0 []).length).map (rowLine codec m.2) ++
        ("URL BLANK".toList :: ([] :: future))) [] =
      ((List.range (m.2.getD 0 []).length).map (rowLine codec m.2)).map
        (rowFloats codec) := by
    rw [parseRows_append codec _ _ _ [] (by simp) ?_]
    · rw [List.nil_append]
    · intro l hl
      obtain ⟨pos, hpos, rfl⟩ := List.mem_map.mp hl
      rw [(hrowf pos (List.mem_range.mp hpos)).1]
      rfl
  have hmapval : ((List.range (m.2.getD 0 []).length).map (rowLine codec m.2)).map
      (rowFloats codec) =
      (List.range (m.2.getD 0 []).length).map (fun pos =>
        [(m.2.getD 0 []).getD pos 0, (m.2.getD 1 []).getD pos 0,
         (m.2.getD 2 []).getD pos 0, (m.2.getD 3 []).getD pos 0]) := by
    rw [List.map_map]
    exact List.map_congr_left (fun pos hpos => (hrowf pos (List.mem_range.mp hpos)).1)
  rw [readMemeLoop_motif codec ("MOTIF ".toList ++ m.1)
    (("letter-probability matrix: alength= 4 w= ".toList ++
      (codec.natToStr (m.2.getD 0 []).length ++ " nsites= 1 E= 0".toList)) ::
      ((List.range (m.2.getD 0 []).length).map (rowLine codec m.2) ++
        ("URL BLANK".toList :: ([] :: future)))) acc (m.2.getD 0 []).length
    (isPrefixOf_append_self _ _) ?_ ?_ ?_]
  rotate_left
  · rw [show ((("letter-probability matrix: alength= 4 w= ".toList ++
        (codec.natToStr (m.2.getD 0 []).length ++ " nsites= 1 E= 0".toList)) ::
        ((List.range (m.2.getD 0 []).length).map (rowLine codec m.2) ++
          ("URL BLANK".toList :: ([] :: future)))).take 9) =
      ("letter-probability matrix: alength= 4 w= ".toList ++
        (codec.natToStr (m.2.getD 0 []).length ++ " nsites= 1 E= 0".toList)) ::
        (((List.range (m.2.getD 0 []).length).map (rowLine codec m.2) ++
          ("URL BLANK".toList :: ([] :: future))).take 8) from rfl]
    rw [List.findIdx?_cons, if_pos hhead.2.2.2.1]
  · show extractW ("letter-probability matrix: alength= 4 w= ".toList ++
      (codec.natToStr (m.2.getD 0 []).length ++ " nsites= 1 E= 0".toList)) =
      some (m.2.getD 0 []).length
    rw [hhead.2.2.2.2, hnval]
  · show (parseRows codec (m.2.getD 0 []).length
      ((List.range (m.2.getD 0 []).length).map (rowLine codec m.2) ++
        ("URL BLANK".toList :: ([] :: future))) []).length = (m.2.getD 0 []).length
    rw [hparse]
    simp
  have hpair : (trimChars (("MOTIF ".toList ++ m.1).drop 6),
      transpose4 (parseRows codec (m.2.getD 0 []).length
        (((("letter-probability matrix: alength= 4 w= ".toList ++
          (codec.natToStr (m.2.getD 0 []).length ++ " nsites= 1 E= 0".toList)) ::
          ((List.range (m.2.getD 0 []).length).map (rowLine codec m.2) ++
            ("URL BLANK".toList :: ([] :: future)))).drop 1)) [])
        (m.2.getD 0 []).length) = m := by
    rw [show ((("letter-probability matrix: alength= 4 w= ".toList ++
        (codec.natToStr (m.2.getD 0 []).length ++ " nsites= 1 E= 0".toList)) ::
        ((List.range (m.2.getD 0 []).length).map (rowLine codec m.2) ++
          ("URL BLANK".toList :: ([] :: future)))).drop 1) =
      ((List.range (m.2.getD 0 []).length).map (rowLine codec m.2) ++
        ("URL BLANK".toList :: ([] :: future))) from rfl]
    rw [hparse, hmapval, transpose4_roundtrip m.2 _ hlen hrows,
      show ("MOTIF ".toList ++ m.1).drop 6 = m.1 from rfl, htrim]
  rw [hpair]
  rw [readMemeLoop_skip codec none _ _ _ hhead.2.2.1]
  have hassoc : ((List.range (m.2.getD 0 []).length).map (rowLine codec m.2) ++
      ("URL BLANK".toList :: ([] :: future))) =
      ((List.range (m.2.getD 0 []).length).map (rowLine codec m.2) ++
        ["URL BLANK".toList, []]) ++ future := by
    rw [List.append_assoc]
    rfl
  rw [hassoc, readMemeLoop_skip_all codec none _ future _ ?_]
  intro l hl
  rcases List.mem_append.mp hl with h | h
  · obtain ⟨pos, hpos, rfl⟩ := List.mem_map.mp h
    exact (hrowf pos (List.mem_range.mp hpos)).2.2.2
  · rcases (by simpa using h :
        l = "URL BLANK".toList ∨ l = []) with rfl | rfl
    · decide
    · decide

lemma blockLines_clean (codec : NumCodec) (m : List Char × List (List ℝ))
    (hm : motifOK codec m) :
    (blockLines codec m.1 m.2).map trimChars = blockLines codec m.1 m.2 ∧
    ∀ l ∈ blockLines codec m.1 m.2, ∀ c ∈ l, (c == '\n') = false := by
  obtain ⟨hne, htrim, hnl, hlen, hrows, hcell, hnne, hndig, hnval⟩ := hm
  have hcellD := cellD_of_motifOK codec m
    ⟨hne, htrim, hnl, hlen, hrows, hcell, hnne, hndig, hnval⟩
  have hrowf : ∀ pos, pos < (m.2.getD 0 []).length →
      trimChars (rowLine codec m.2 pos) = rowLine codec m.2 pos ∧
      ∀ c ∈ rowLine codec m.2 pos, (c == '\n') = false :=
    fun pos hpos =>
      ⟨(rowLine_facts codec m.2 pos (hcellD 0 (by norm_num) pos hpos)
          (hcellD 1 (by norm_num) pos hpos) (hcellD 2 (by norm_num) pos hpos)
          (hcellD 3 (by norm_num) pos hpos)).2.1,
       (rowLine_facts codec m.2 pos (hcellD 0 (by norm_num) pos hpos)
          (hcellD 1 (by norm_num) pos hpos) (hcellD 2 (by norm_num) pos hpos)
          (hcellD 3 (by norm_num) pos hpos)).2.2.1⟩
  have hmot := motifLine_facts m.1 hne htrim hnl
  have hhead := headerLine_facts (codec.natToStr (m.2.getD 0 []).length) hnne hndig
  constructor
  · unfold blockLines
    rw [List.map_cons, List.map_cons, List.map_append, List.map_map]
    rw [hmot.1, hhead.1]
    have hrmap : List.map (trimChars ∘ rowLine codec m.2)
        (List.range (m.2.getD 0 []).length) =
        List.map (rowLine codec m.2) (List.range (m.2.getD 0 []).length) :=
      List.map_congr_left (fun pos hpos => (hrowf pos (List.mem_range.mp hpos)).1)
    rw [hrmap]
    rfl
  · intro l hl
    unfold blockLines at hl
    simp only [List.mem_cons, List.mem_append] at hl
    rcases hl with rfl | rfl | hl2
    · exact hmot.2
    · exact hhead.2.1
    · rcases hl2 with h | h
      · obtain ⟨pos, hpos, rfl⟩ := List.mem_map.mp h
        exact (hrowf pos (List.mem_range.mp hpos)).2
      · rcases h with rfl | rfl | h
        · intro c hc
          revert hc
          revert c
          decide
        · intro c hc
          exact absurd hc (by simp)
        · exact absurd h (by simp)

lemma linesOf_writeMeme (codec : NumCodec)
    (motifs : List (List Char × List (List ℝ)))
    (H : ∀ m ∈ motifs, motifOK codec m) :
    linesOf (writeMeme codec motifs) =
      headerLines ++
        (((motifs.map (fun m => blockLines codec m.1 m.2)).flatten) ++ [[]]) := by
  unfold linesOf writeMeme
  rw [splitP_emit _ ?_]
  · rw [List.map_append, List.map_append]
    have hh : headerLines.map trimChars = headerLines := by decide
    have hb : ((motifs.map (fun m => blockLines codec m.1 m.2)).flatten).map trimChars =
        (motifs.map (fun m => blockLines codec m.1 m.2)).flatten := by
      rw [List.map_flatten, List.map_map]
      congr 1
      exact List.map_congr_left
        (fun m hm => (blockLines_clean codec m (H m hm)).1)
    rw [hh, hb, List.append_assoc]
    rfl
  · intro l hl c hc
    rcases List.mem_append.mp hl with h | h
    · have hall : ∀ x ∈ headerLines, ∀ c ∈ x, (c == '\n') = false := by decide
      exact hall l h c hc
    · obtain ⟨bl, hbl, hlbl⟩ := List.mem_flatten.mp h
      obtain ⟨m, hmm, rfl⟩ := List.mem_map.mp hbl
      exact (blockLines_clean codec m (H m hmm)).2 l hlbl c hc

lemma readMemeLoop_blocks (codec : NumCodec)
    (motifs : List (List Char × List (List ℝ)))
    (acc : List (List Char × List (List ℝ)))
    (H : ∀ m ∈ motifs, motifOK codec m) :
    readMemeLoop codec none
      (((motifs.map (fun m => blockLines codec m.1 m.2)).flatten) ++ [[]]) acc =
      acc ++ motifs := by
  induction motifs generalizing acc with
  | nil =>
      rw [List.map_nil, List.flatten_nil, List.nil_append,
        readMemeLoop_skip codec none [] [] acc (by decide)]
      simp [readMemeLoop]
  | cons m motifs ih =>
      rw [List.map_cons, List.flatten_cons, List.append_assoc,
        readMemeLoop_block codec m _ acc (H m (by simp)),
        ih (acc ++ [m]) (fun m2 hm2 => H m2 (by simp [hm2]))]
      simp

/-- Claim C8: with codec laws as hypotheses (which JavaScript number
formatting satisfies: parseFloat inverts String, and the formatted text
is nonempty, whitespace free and never starts with M), and names that
are nonempty, newline free and trim invariant, reading back a written
motif map returns exactly the same association list, names and cell
values alike. -/
theorem C8_roundtrip (codec : NumCodec)
    (motifs : List (List Char × List (List ℝ)))
    (H : ∀ m ∈ motifs, motifOK codec m) :
    readMeme codec (writeMeme codec motifs) none = motifs := by
  unfold readMeme
  rw [linesOf_writeMeme codec motifs H,
    readMemeLoop_skip_all codec none headerLines _ [] (by decide),
    readMemeLoop_blocks codec motifs [] H, List.nil_append]

/-- A concrete codec for concrete runs: every written cell value in
those runs is 1 and every written width is 1, and on these inputs the
tables below agree with the JavaScript number formatting (String(1) is
the text 1, parseFloat of it is 1). -/
def c8codec : NumCodec where
  toStr := fun _ => ['1']
  parse := fun s => if s = ['1'] then some 1 else none
  natToStr := fun _ => ['1']

def c8motifs : List (List Char × List (List ℝ)) :=
  [(['A'], [[1], [1], [1], [1]])]

theorem C8_roundtrip_witness :
    readMeme c8codec (writeMeme c8codec c8motifs) none = c8motifs :=
  C8_roundtrip c8codec c8motifs (by
    intro m hm
    rw [show c8motifs = [(['A'], [[1], [1], [1], [1]])] from rfl,
      List.mem_singleton] at hm
    subst hm
    refine ⟨by decide, by decide, by decide, rfl, ?_, ?_, by decide, by decide,
      by decide⟩
    · intro r hr
      fin_cases hr <;> rfl
    · intro r hr x hx
      fin_cases hr <;>
        · rw [List.mem_singleton] at hx
          subst hx
          refine ⟨rfl, by decide, by decide, ?_⟩
          intro c hc
          rw [show (c8codec.toStr 1).head? = some '1' from rfl] at hc
          injection hc with h
          subst h
          decide)

theorem C8_counterexample :
    (readMeme c8codec
        (writeMeme c8codec [([' ', 'X'], [[1], [1], [1], [1]])]) none).map
      Prod.fst = [['X']] ∧ (['X'] : List Char) ≠ [' ', 'X'] :=
  ⟨rfl, by decide⟩

end MSL
